import Mathlib

/-!
A shallow embedding of the array-based Huffman codec (`main.cpp` / `huffman.h`).

Strings of the source are modelled as `List Byte` with `Byte := Fin 256`; the
'0'/'1' bitstrings the codec produces are lists over the same byte alphabet, as
in the source, where they are ordinary `std::string`s.  `char` is modelled as an
unsigned byte.  Fallible points of the source (out-of-bounds accesses and other
undefined behaviour, exceptions from `std::stoi`/`std::bitset`) are modelled by
`Option`, and the decoder's unbounded matching loop carries explicit fuel.
-/

namespace Huff

/-- One `char` of the source, modelled as an unsigned byte. -/
abbrev Byte := Fin 256

/-- The character '0' (ASCII 48). -/
def c0 : Byte := ⟨48, by decide⟩

/-- The character '1' (ASCII 49). -/
def c1 : Byte := ⟨49, by decide⟩

/-- `std::bitset<w>(x).to_string()`: the `w`-bit binary rendering of `x`,
most significant bit first. -/
def toBitsW (w x : Nat) : List Byte :=
  (List.range w).map (fun i => if x / 2 ^ (w - 1 - i) % 2 = 1 then c1 else c0)

/-- The numeric value of a string of bit characters, most significant first;
`none` when a character is neither '0' nor '1' (`std::bitset`'s string
constructor throws in that case). -/
def bitsVal : List Byte → Option Nat
  | [] => some 0
  | b :: rest =>
    if b = c1 then (fun v => 2 ^ rest.length + v) <$> bitsVal rest
    else if b = c0 then bitsVal rest
    else none

/-- The digit-consuming loop of `std::stoi(s, nullptr, 2)`: accumulated value and
number of digits consumed. -/
def stoi2Go : List Byte → Nat → Nat → Nat × Nat
  | [], acc, cnt => (acc, cnt)
  | b :: rest, acc, cnt =>
    if b = c0 then stoi2Go rest (2 * acc) (cnt + 1)
    else if b = c1 then stoi2Go rest (2 * acc + 1) (cnt + 1)
    else (acc, cnt)

/-- `std::stoi(s, nullptr, 2)`: parse the longest leading run of binary digits,
`none` when there is none (stoi throws).  stoi's leading-whitespace/sign
handling is not modelled; every symbol field the claims exercise consists of
bit characters only. -/
def stoi2 (s : List Byte) : Option Nat :=
  match stoi2Go s 0 0 with
  | (_, 0) => none
  | (v, _ + 1) => some v

/-- `binary_converter::operator()(const pair<T,char>&)`: the symbol as 8 bit
characters (`std::bitset<8>(x.second).to_string()`). -/
def toBits8 (c : Byte) : List Byte := toBitsW 8 c.val

/-- `binary_converter::operator()(const string&)`:
`static_cast<char>(std::stoi(x, nullptr, 2))`. -/
def ofBits8 (s : List Byte) : Option Byte :=
  (fun v => (⟨v % 256, Nat.mod_lt _ (by decide)⟩ : Byte)) <$> stoi2 s

/-- An encoder node: (weight, symbol).  Internal nodes carry symbol 0, the
value-initialised `U{}` of `merge_first_op`. -/
abbrev Node := Nat × Byte

/-- `compare_first<T, char, std::less<T>>`: compare nodes by weight. -/
def cmpN (x y : Node) : Bool := decide (x.1 < y.1)

/-- `merge_first_op<T, std::plus<T>>`: combine two nodes, adding the weights. -/
def opN (x y : Node) : Node := (x.1 + y.1, (0 : Byte))

/-- `next_node(f0, l0, f1, l1, cmp)` with each frontier as the list of its
remaining elements: the taken element, the advanced frontiers, and whether the
element came from `f1`.  `none` when both frontiers are exhausted (the source
would return and later dereference a past-the-end iterator). -/
def nextNode {α : Type} (cmp : α → α → Bool) : List α → List α → Option (α × List α × List α × Bool)
  | f0, [] =>
    match f0 with
    | [] => none
    | x :: t0 => some (x, t0, [], false)
  | [], y :: t1 => some (y, [], t1, true)
  | x :: t0, y :: t1 =>
    if cmp y x then some (y, x :: t0, t1, true) else some (x, t0, y :: t1, false)

/-- The frequency-table builder (`unique_copy_with_count`/`adjacent_count`,
spec §4.1's collaborator contract): run-length encode a sorted sequence into
(count, symbol) pairs, counts summed over consecutive equal runs. -/
def unique_copy_with_count : List Byte → List (Nat × Byte)
  | [] => []
  | x :: xs =>
    match unique_copy_with_count xs with
    | [] => [(1, x)]
    | (n, y) :: rest => if x = y then (n + 1, y) :: rest else (1, x) :: (n, y) :: rest

/-- One iteration of `build_huffman_array`'s loop body: the two `next_node`
selections. -/
def buildStep (ls pend : List Node) : Option (Node × Node × List Node × List Node) :=
  match nextNode cmpN ls pend with
  | none => none
  | some (x, ls1, p1, _) =>
    match nextNode cmpN ls1 p1 with
    | none => none
    | some (y, ls2, p2, _) => some (x, y, ls2, p2)

/-- The `while (nodes.end() != l1)` loop of `build_huffman_array`: `m` internal
nodes remain to be created, `ls` are the unconsumed leaves, `pend` the
unconsumed internals; returns the internals created, in creation order. -/
def buildLoop : Nat → List Node → List Node → Option (List Node)
  | 0, _, _ => some []
  | m + 1, ls, pend =>
    match buildStep ls pend with
    | none => none
    | some (x, y, ls2, p2) =>
      match buildLoop m ls2 (p2 ++ [opN x y]) with
      | none => none
      | some rest => some (opN x y :: rest)

/-- `huffman_encoder::build_huffman_array`: grow the weight-sorted leaf vector
in place to the full merge array of `2k - 1` nodes, the first internal node
combining `nodes[0]` and `nodes[1]` directly.  `none` models the source's
out-of-bounds accesses when there are fewer than two leaves. -/
def build_huffman_array (nodes : List Node) : Option (List Node) :=
  match nodes with
  | a :: b :: rest =>
    match buildLoop rest.length rest [opN a b] with
    | none => none
    | some ints => some (nodes ++ opN a b :: ints)
  | _ => none

/-- The traversal loop of `huffman_encoder::header`: the same two-frontier
`next_node` merge over leaves and internals, written out on list suffixes;
a leaf contributes '1' plus its 8 symbol bits, an internal contributes '0'. -/
def headerLoop (f0 f1 : List Node) : List Byte :=
  match f0, f1 with
  | [], [] => []
  | x :: t0, [] => c1 :: toBits8 x.2 ++ headerLoop t0 []
  | [], _ :: t1 => c0 :: headerLoop [] t1
  | x :: t0, y :: t1 =>
    if cmpN y x then c0 :: headerLoop (x :: t0) t1
    else c1 :: toBits8 x.2 ++ headerLoop t0 (y :: t1)
termination_by f0.length + f1.length
decreasing_by all_goals simp

/-- `huffman_encoder::header`: 16 bits of node count, then the shape records in
two-frontier merge order (`l0 = begin + size/2 + 1` is the end of the leaf
region). -/
def header (arr : List Node) : List Byte :=
  toBitsW 16 arr.length ++
    headerLoop (arr.take (arr.length / 2 + 1)) (arr.drop (arr.length / 2 + 1))

/-- The queue-processing loop of `generate_codes` with entries tagged by their
array position: `n` entries remain to process (`n = l0 - f1` at the call); an
entry whose position lies in the leaf region (below `lnodes`, the reverse
iterator test `current->first >= l1`) is emitted with its code, any other entry
is expanded by two `next_node` selections, the first child's code appending '1'
and the second's '0'.  `none` models the source walking `current` past the
queue or dereferencing an exhausted frontier (undefined behaviour). -/
def genLoop {α : Type} (cmp : (Nat × α) → (Nat × α) → Bool) (lnodes : Nat) :
    Nat → List (Nat × α) → List (Nat × α) → List ((Nat × α) × List Byte) →
      Option (List ((Nat × α) × List Byte))
  | 0, _, _, _ => some []
  | _ + 1, _, _, [] => none
  | n + 1, f0, f1, (e, c) :: rest =>
    if e.1 < lnodes then
      match genLoop cmp lnodes n f0 f1 rest with
      | none => none
      | some out => some ((e, c) :: out)
    else
      match nextNode cmp f0 f1 with
      | none => none
      | some (x, f0x, f1x, _) =>
        match nextNode cmp f0x f1x with
        | none => none
        | some (y, f0y, f1y, _) =>
          genLoop cmp lnodes n f0y f1y (rest ++ [(x, c ++ [c1]), (y, c ++ [c0])])

/-- `generate_codes(f0, l0, f1, l1, cmp, f)` as both call sites invoke it, over
a whole node array through reverse iterators: the queue is seeded with the root
(`*rbegin`), `f1` continues just after it, `l1` sits `lnodes` positions before
`rend()`, `f0` spans the last `lnodes` reverse positions, and `n = l0 - f1` is
the array length.  Array positions tag the nodes, so the emitted pairs are
(position, node) with their code strings, in callback order. -/
def generate_codes {α : Type} (cmp : (Nat × α) → (Nat × α) → Bool) (lnodes : Nat)
    (arr : List α) : Option (List ((Nat × α) × List Byte)) :=
  match arr.enum.reverse with
  | [] => none
  | root :: revRest =>
    genLoop cmp lnodes arr.length
      ((root :: revRest).drop (arr.length - lnodes))
      (revRest.take (arr.length - lnodes - 1))
      [(root, [])]

/-- The comparator both `generate_codes` call sites use on queue elements: the
encoder passes `std::not2(cmp)` over node weights, the decoder
`!(x.first < y.first)` over header positions; on `(position, (key, symbol))`
entries both negate `<` on the first component of the stored pair. -/
def cmpRev (x y : Nat × Node) : Bool := ! decide (x.2.1 < y.2.1)

/-- The symbol → code map `st` and the encoding loop of
`huffman_encoder::operator()`: each input symbol appends the code of its leaf
emission (`st.insert` keeps the first binding; a missing symbol contributes the
empty string `operator[]` default-constructs). -/
def payloadOf (E : List ((Nat × Node) × List Byte)) (input : List Byte) : List Byte :=
  input.flatMap fun c => ((E.find? fun e => e.1.2.2 == c).map (·.2)).getD []

/-- The leaf-weight vector `compress` hands the encoder: frequencies of the
sorted input, re-sorted ascending by count (`std::sort` with `compare_first`;
any weight-sorted order is a conforming `std::sort` result, the model fixes the
stable one). -/
def compressFreqs (input : List Byte) : List Node :=
  List.insertionSort (fun a b => a.1 ≤ b.1)
    (unique_copy_with_count (List.insertionSort (· ≤ ·) input))

/-- The (leaf, code) emissions of the encoder's `generate_codes` call on this
input (`lnodes` captured before the array grows). -/
def encoderCodes (input : List Byte) : Option (List ((Nat × Node) × List Byte)) :=
  match build_huffman_array (compressFreqs input) with
  | none => none
  | some arr => generate_codes cmpRev (compressFreqs input).length arr

/-- `compress`: frequency table, tree, then `header || payload`. -/
def compress (input : List Byte) : Option (List Byte) :=
  match build_huffman_array (compressFreqs input), encoderCodes input with
  | some arr, some E => some (header arr ++ payloadOf E input)
  | _, _ => none

/-- The node-placement loop of `huffman_decoder::read_header`: `cnt` shape
records remain, `ln`/`ind` are the leaf and internal insertion cursors, `i` the
record index.  A record is a leaf exactly when its shape character is '1'; the
symbol of an internal record is left default (the source leaves `T x`
uninitialised and never reads it).  `none` models the source's out-of-range
vector writes and reads past the input end. -/
def readNodesGo : Nat → List Byte → Nat → Nat → Nat → List (Nat × Byte) →
    Option (List (Nat × Byte) × List Byte)
  | 0, rest, _, _, _, nodes => some (nodes, rest)
  | cnt + 1, rest, ln, ind, i, nodes =>
    match rest with
    | [] => none
    | b :: rest1 =>
      if b = c1 then
        if 8 ≤ rest1.length then
          match ofBits8 (rest1.take 8) with
          | none => none
          | some v =>
            if ln < nodes.length then
              readNodesGo cnt (rest1.drop 8) (ln + 1) ind (i + 1) (nodes.set ln (i, v))
            else none
        else none
      else
        if ind < nodes.length then
          readNodesGo cnt rest1 ln (ind + 1) (i + 1) (nodes.set ind (i, (0 : Byte)))
        else none

/-- `huffman_decoder::read_header`: parse the 16-bit node count, allocate the
array, walk the shape records with the two insertion cursors (internals start
at `size/2 + 1`), and return the rebuilt (record index, symbol) array together
with the remaining payload. -/
def read_header (input : List Byte) : Option (List (Nat × Byte) × List Byte) :=
  if input.length < 16 then none
  else
    match bitsVal (input.take 16) with
    | none => none
    | some size =>
      readNodesGo size (input.drop 16) 0 (size / 2 + 1) 0
        (List.replicate size (0, (0 : Byte)))

/-- The candidate list `huffman_decoder::operator()` matches the payload
against: the decoder's `generate_codes` emissions in generation order.  (The
source sorts the candidate vector by code length while it is still empty, so
the list the matching loop sees is exactly the generation order.) -/
def decoderPrefixes (input : List Byte) :
    Option (List ((Nat × (Nat × Byte)) × List Byte) × List Byte) :=
  match read_header input with
  | none => none
  | some (nodes, rest) =>
    match generate_codes cmpRev (nodes.length / 2 + 1) nodes with
    | none => none
    | some P => some (P, rest)

/-- Result of one scan over the candidate list. -/
inductive ScanResult where
  | matched (sym : Byte) (cur : List Byte)
  | fell (cur bits : List Byte)
deriving DecidableEq

/-- One `for (const auto& prefix : prefixes)` scan of the decode loop, with the
incremental reads `while (prefix.second.size() > bits_read.size())`: extend the
accumulator to the candidate's length, compare, and on a match return the
candidate's symbol.  `none` models the inner `while` reading past the end of
the input (undefined behaviour in the source). -/
def tryCands : List ((Nat × (Nat × Byte)) × List Byte) → List Byte → List Byte →
    Option ScanResult
  | [], cur, bits => some (.fell cur bits)
  | (e, code) :: cands, cur, bits =>
    let need := code.length - bits.length
    if cur.length < need then none
    else
      let bits1 := bits ++ cur.take need
      let cur1 := cur.drop need
      if bits1 = code then some (.matched e.2.2 cur1)
      else tryCands cands cur1 bits1

/-- The outer `while (current != input.end())` loop of the decoder, with
explicit fuel: the source's loop has no termination guarantee, so fuel
exhaustion (`none`) models non-termination.  A match emits the symbol and
clears the accumulator; a fall-through keeps the bits read so far. -/
def decodeLoop (cands : List ((Nat × (Nat × Byte)) × List Byte)) :
    Nat → List Byte → List Byte → List Byte → Option (List Byte)
  | 0, _, _, _ => none
  | fuel + 1, cur, bits, out =>
    match cur with
    | [] => some out
    | _ :: _ =>
      match tryCands cands cur bits with
      | none => none
      | some (.matched s cur1) => decodeLoop cands fuel cur1 [] (out ++ [s])
      | some (.fell cur1 bits1) => decodeLoop cands fuel cur1 bits1 out

/-- `decompress`: rebuild the node array from the header, regenerate the codes,
and match the payload.  `2 * input.length + 2` outer iterations bound every
terminating run of the source's loop (each iteration reads input or clears a
nonempty accumulator filled by earlier reads), so fuel exhaustion occurs
exactly where the source loops forever. -/
def decompress (input : List Byte) : Option (List Byte) :=
  match decoderPrefixes input with
  | none => none
  | some (P, rest) => decodeLoop P (2 * input.length + 2) rest [] []

/-- The full two-frontier merge: iterate `next_node` until both frontiers are exhausted,
tagging each taken element with the frontier it came from (`true` = `f1`).  Ghost
function describing the traversal order shared by header emission, tree construction and
code generation. -/
def mergeTag {α : Type} (cmp : α → α → Bool) (f0 f1 : List α) : List (Bool × α) :=
  match f0, f1 with
  | [], [] => []
  | x :: t0, [] => (false, x) :: mergeTag cmp t0 []
  | [], y :: t1 => (true, y) :: mergeTag cmp [] t1
  | x :: t0, y :: t1 =>
    if cmp y x then (true, y) :: mergeTag cmp (x :: t0) t1
    else (false, x) :: mergeTag cmp t0 (y :: t1)
termination_by f0.length + f1.length
decreasing_by all_goals simp

/-- The untagged two-frontier merge sequence. -/
def mergeNN {α : Type} (cmp : α → α → Bool) (f0 f1 : List α) : List α :=
  (mergeTag cmp f0 f1).map Prod.snd

/-- Reattach index lists to a tagged merge: `false` elements consume `i0s`, `true`
elements consume `i1s` (ghost function relating merges over indexed and plain lists). -/
def tagZipT {α : Type} : List Nat → List Nat → List (Bool × α) → List (Bool × (Nat × α))
  | _, _, [] => []
  | i0s, i1s, (false, a) :: rest => (false, (i0s.headD 0, a)) :: tagZipT i0s.tail i1s rest
  | i0s, i1s, (true, a) :: rest => (true, (i1s.headD 0, a)) :: tagZipT i0s i1s.tail rest

/-- Ghost-instrumented `buildLoop`: additionally returns the selection sequence (tagged
with the frontier each selection came from) and the final frontier states. -/
def buildLoopP : Nat → List Node → List Node →
    Option (List Node × List (Bool × Node) × List Node × List Node)
  | 0, ls, pend => some ([], [], ls, pend)
  | m + 1, ls, pend =>
    match nextNode cmpN ls pend with
    | none => none
    | some (x, ls1, p1, sx) =>
      match nextNode cmpN ls1 p1 with
      | none => none
      | some (y, ls2, p2, sy) =>
        match buildLoopP m ls2 (p2 ++ [opN x y]) with
        | none => none
        | some (ints, picks, lsE, pendE) =>
          some (opN x y :: ints, (sx, x) :: (sy, y) :: picks, lsE, pendE)

/-- `x` is a weight-minimal element of `l`. -/
def IsMinOf (x : Node) (l : List Node) : Prop := x ∈ l ∧ ∀ a ∈ l, x.1 ≤ a.1

/-- The internal nodes `zs` are produced from frontier state (`ls`, `pend`) by repeatedly
combining the two smallest not-yet-consumed nodes: each step's two selections are minima
of the multiset of available nodes (the second after erasing the first), and the
combined node is appended to the pending frontier. -/
def TwoSmallestRun : List Node → List Node → List Node → Prop
  | _, _, [] => True
  | ls, pend, z :: rest =>
    ∃ x y ls2 p2, buildStep ls pend = some (x, y, ls2, p2) ∧ z = opN x y ∧
      IsMinOf x (ls ++ pend) ∧ IsMinOf y ((ls ++ pend).erase x) ∧
      TwoSmallestRun ls2 (p2 ++ [z]) rest

/-- Render a tagged node sequence the way `huffman_encoder::header`'s loop does:
'1' plus 8 symbol bits for a leaf-frontier element, '0' for an internal one. -/
def renderTag : List (Bool × Node) → List Byte
  | [] => []
  | (false, nd) :: T => c1 :: toBits8 nd.2 ++ renderTag T
  | (true, _) :: T => c0 :: renderTag T

/-- The (record index, symbol) pairs the decoder stores for the leaf records of a tagged
shape sequence, `i` the index of the first record. -/
def leafVals : List (Bool × Node) → Nat → List (Nat × Byte)
  | [], _ => []
  | (false, nd) :: T, i => (i, nd.2) :: leafVals T (i + 1)
  | (true, _) :: T, i => leafVals T (i + 1)

/-- The (record index, default symbol) pairs the decoder stores for the internal records
of a tagged shape sequence. -/
def intVals : List (Bool × Node) → Nat → List (Nat × Byte)
  | [], _ => []
  | (false, _) :: T, i => intVals T (i + 1)
  | (true, _) :: T, i => (i, (0 : Byte)) :: intVals T (i + 1)

/-- The decoder's node placements for a tagged shape sequence: leaf records fill the
array from cursor `ln` upward, internal records from cursor `ind` upward (ghost mirror of
`readNodesGo`'s array writes). -/
def placeTags : List (Bool × Node) → Nat → Nat → Nat → List (Nat × Byte) → List (Nat × Byte)
  | [], _, _, _, nodes => nodes
  | (false, nd) :: T, ln, ind, i, nodes => placeTags T (ln + 1) ind (i + 1) (nodes.set ln (i, nd.2))
  | (true, _) :: T, ln, ind, i, nodes => placeTags T ln (ind + 1) (i + 1) (nodes.set ind (i, (0 : Byte)))

/-- `genLoop` with the two frontiers replaced by the single merged selection stream `S`:
an expansion takes the next two stream elements (ghost view of `generate_codes`). -/
def streamLoop {α : Type} (lnodes : Nat) :
    Nat → List (Nat × α) → List ((Nat × α) × List Byte) →
      Option (List ((Nat × α) × List Byte))
  | 0, _, _ => some []
  | _ + 1, _, [] => none
  | n + 1, S, (e, c) :: rest =>
    if e.1 < lnodes then
      match streamLoop lnodes n S rest with
      | none => none
      | some out => some ((e, c) :: out)
    else
      match S with
      | x :: y :: S2 => streamLoop lnodes n S2 (rest ++ [(x, c ++ [c1]), (y, c ++ [c0])])
      | _ => none

/-- The decoder's array values in record order: each shape record paired with the
(record index, stored symbol) value `read_header` keeps for it — the parsed symbol
for a leaf record, the default 0 for an internal one (ghost mirror tying the header
shape to the rebuilt array's contents). -/
def idxTag : List (Bool × Node) → Nat → List (Bool × (Nat × Byte))
  | [], _ => []
  | (false, nd) :: T, i => (false, (i, nd.2)) :: idxTag T (i + 1)
  | (true, _) :: T, i => (true, (i, (0 : Byte))) :: idxTag T (i + 1)

/-- The weight order `compress` sorts frequencies by is total. -/
instance : IsTotal Node (fun a b => a.1 ≤ b.1) := ⟨fun a b => Nat.le_total a.1 b.1⟩

/-- The weight order `compress` sorts frequencies by is transitive. -/
instance : IsTrans Node (fun a b => a.1 ≤ b.1) := ⟨fun _ _ _ => Nat.le_trans⟩

end Huff

namespace Huff

theorem toBitsW_length (w x : Nat) : (toBitsW w x).length = w := by
  simp [toBitsW]

theorem toBits8_length (c : Byte) : (toBits8 c).length = 8 := toBitsW_length 8 c.val

/-- C6: in the two-frontier selection `next_node` used by tree construction, the
internal-node frontier `f1` is taken only when its head is strictly smaller under the
weight comparator; in particular, on equal weights the leaf frontier `f0` is chosen. -/
theorem next_node_tie_prefers_leaves (x y : Node) (f0 f1 : List Node) :
    nextNode cmpN (x :: f0) (y :: f1) =
      if y.1 < x.1 then some (y, x :: f0, f1, true) else some (x, f0, y :: f1, false) := by
  by_cases h : y.1 < x.1 <;> simp [nextNode, cmpN, h]

/-- C8: on the single-repeated-character input "aaaa" the model of `compress` returns
`none`, the point where `build_huffman_array` would index `nodes[1]` out of bounds;
no `InsufficientAlphabet` error path exists in the code. -/
theorem compress_single_symbol_crashes : compress [97, 97, 97, 97] = none := by decide

end Huff

namespace Huff

theorem headerLoop_length (f0 f1 : List Node) :
    (headerLoop f0 f1).length = 9 * f0.length + f1.length := by
  induction f0, f1 using headerLoop.induct with
  | case1 => simp [headerLoop]
  | case2 x t0 ih => simp [headerLoop, toBits8_length, ih]; omega
  | case3 y t1 ih => simp [headerLoop, ih]
  | case4 x t0 y t1 h ih => simp [headerLoop, h, ih]; omega
  | case5 x t0 y t1 h ih => simp [headerLoop, h, toBits8_length, ih]; omega

theorem buildLoop_length (m : Nat) (ls pend ints : List Node)
    (h : buildLoop m ls pend = some ints) : ints.length = m := by
  induction m generalizing ls pend ints with
  | zero => simp [buildLoop] at h; simp [← h]
  | succ m ih =>
    simp only [buildLoop] at h
    match hs : buildStep ls pend with
    | none => simp only [hs] at h; exact absurd h (by simp)
    | some (x, y, ls2, p2) =>
      simp only [hs] at h
      match hr : buildLoop m ls2 (p2 ++ [opN x y]) with
      | none => simp only [hr] at h; exact absurd h (by simp)
      | some rest =>
        simp only [hr, Option.some.injEq] at h
        simp [← h, ih _ _ _ hr]

end Huff

namespace Huff

theorem nextNode_total {α : Type} (cmp : α → α → Bool) (f0 f1 : List α)
    (h : 1 ≤ f0.length + f1.length) :
    ∃ x f0x f1x s, nextNode cmp f0 f1 = some (x, f0x, f1x, s) ∧
      f0x.length + f1x.length + 1 = f0.length + f1.length := by
  match f0, f1 with
  | [], [] => simp at h
  | x :: t0, [] => exact ⟨x, t0, [], false, rfl, by simp⟩
  | [], y :: t1 => exact ⟨y, [], t1, true, rfl, by simp⟩
  | x :: t0, y :: t1 =>
    by_cases hc : cmp y x
    · exact ⟨y, x :: t0, t1, true, by simp [nextNode, hc], by simp; omega⟩
    · exact ⟨x, t0, y :: t1, false, by simp [nextNode, hc], by simp; omega⟩

theorem buildStep_total (ls pend : List Node) (h : 2 ≤ ls.length + pend.length) :
    ∃ x y ls2 p2, buildStep ls pend = some (x, y, ls2, p2) ∧
      ls2.length + p2.length + 2 = ls.length + pend.length := by
  obtain ⟨x, ls1, p1, s, hx, hlen1⟩ := nextNode_total cmpN ls pend (by omega)
  obtain ⟨y, ls2, p2, s2, hy, hlen2⟩ := nextNode_total cmpN ls1 p1 (by omega)
  exact ⟨x, y, ls2, p2, by simp [buildStep, hx, hy], by omega⟩

theorem buildLoop_total (m : Nat) (ls pend : List Node)
    (h : ls.length + pend.length = m + 1) :
    ∃ ints, buildLoop m ls pend = some ints := by
  induction m generalizing ls pend with
  | zero => exact ⟨[], rfl⟩
  | succ m ih =>
    obtain ⟨x, y, ls2, p2, hs, hlen⟩ := buildStep_total ls pend (by omega)
    obtain ⟨ints, hr⟩ := ih ls2 (p2 ++ [opN x y]) (by simp; omega)
    exact ⟨opN x y :: ints, by simp only [buildLoop, hs, hr]⟩

theorem build_total (nodes : List Node) (h : 2 ≤ nodes.length) :
    ∃ ints, build_huffman_array nodes = some (nodes ++ ints) ∧
      ints.length = nodes.length - 1 := by
  match nodes with
  | a :: b :: rest =>
    obtain ⟨ints, hr⟩ := buildLoop_total rest.length rest [opN a b] (by simp)
    refine ⟨opN a b :: ints, by simp only [build_huffman_array, hr], ?_⟩
    simp [buildLoop_length _ _ _ _ hr]

theorem build_length (nodes arr : List Node) (h : build_huffman_array nodes = some arr) :
    arr.length = 2 * nodes.length - 1 ∧ arr.take nodes.length = nodes := by
  match nodes, h with
  | a :: b :: rest, h =>
    simp only [build_huffman_array] at h
    match hr : buildLoop rest.length rest [opN a b] with
    | none => simp only [hr] at h; exact absurd h (by simp)
    | some ints =>
      simp only [hr, Option.some.injEq] at h
      have := buildLoop_length _ _ _ _ hr
      constructor
      · simp [← h, this]; omega
      · rw [← h]
        rw [List.take_append_of_le_length (by simp)]
        simp

end Huff

namespace Huff

theorem unique_copy_mem_snd : ∀ (l : List Byte) (c : Byte),
    (c ∈ (unique_copy_with_count l).map Prod.snd ↔ c ∈ l) := by
  intro l
  induction l with
  | nil => intro c; simp [unique_copy_with_count]
  | cons x xs ih =>
    intro c
    have ihc := ih c
    rcases h : unique_copy_with_count xs with _ | ⟨⟨n, y⟩, rest⟩
    · rw [h] at ihc
      simp only [List.map_nil, List.not_mem_nil, false_iff] at ihc
      simp only [unique_copy_with_count, h]
      simp [ihc]
    · rw [h] at ihc
      simp only [unique_copy_with_count, h]
      by_cases hxy : x = y
      · subst hxy
        rw [if_pos rfl]
        simp only [List.map_cons, List.mem_cons] at ihc ⊢
        tauto
      · rw [if_neg hxy]
        simp only [List.map_cons, List.mem_cons] at ihc ⊢
        tauto

end Huff

namespace Huff

theorem unique_copy_cons (x : Byte) (xs : List Byte) :
    ∃ n rest, unique_copy_with_count (x :: xs) = (n, x) :: rest := by
  rcases h : unique_copy_with_count xs with _ | ⟨⟨n, y⟩, rest⟩
  · exact ⟨1, [], by simp only [unique_copy_with_count, h]⟩
  · by_cases hxy : x = y
    · subst hxy
      exact ⟨n + 1, rest, by simp [unique_copy_with_count, h]⟩
    · exact ⟨1, (n, y) :: rest, by simp [unique_copy_with_count, h, hxy]⟩

theorem unique_copy_counts_pos : ∀ (l : List Byte), ∀ p ∈ unique_copy_with_count l, 1 ≤ p.1 := by
  intro l
  induction l with
  | nil => simp [unique_copy_with_count]
  | cons x xs ih =>
    rcases h : unique_copy_with_count xs with _ | ⟨⟨n, y⟩, rest⟩
    · simp only [unique_copy_with_count, h]
      simp
    · have ih' : ∀ p ∈ (n, y) :: rest, 1 ≤ p.1 := h ▸ ih
      simp only [unique_copy_with_count, h]
      by_cases hxy : x = y
      · subst hxy
        rw [if_pos rfl]
        intro p hp
        rcases List.mem_cons.mp hp with hp | hp
        · simp [hp]
        · exact ih' p (List.mem_cons_of_mem _ hp)
      · rw [if_neg hxy]
        intro p hp
        rcases List.mem_cons.mp hp with hp | hp
        · simp [hp]
        · exact ih' p hp

theorem unique_copy_snd_nodup : ∀ (l : List Byte), l.Sorted (· ≤ ·) →
    ((unique_copy_with_count l).map Prod.snd).Nodup := by
  intro l
  induction l with
  | nil => intro _; simp [unique_copy_with_count]
  | cons x xs ih =>
    intro hs
    have hxall : ∀ b ∈ xs, x ≤ b := (List.sorted_cons.mp hs).1
    have hxs : xs.Sorted (· ≤ ·) := (List.sorted_cons.mp hs).2
    have ihn := ih hxs
    rcases h : unique_copy_with_count xs with _ | ⟨⟨n, y⟩, rest⟩
    · simp only [unique_copy_with_count, h]
      simp
    · rw [h] at ihn
      simp only [unique_copy_with_count, h]
      by_cases hxy : x = y
      · subst hxy
        rw [if_pos rfl]
        exact ihn
      · rw [if_neg hxy]
        simp only [List.map_cons, List.nodup_cons] at ihn ⊢
        refine ⟨?_, ihn⟩
        intro hmem
        have hx_xs : x ∈ xs := by
          have hiff := unique_copy_mem_snd xs x
          rw [h] at hiff
          exact hiff.mp (by simpa using hmem)
        rcases hxs' : xs with _ | ⟨z, xs'⟩
        · rw [hxs'] at hx_xs; simp at hx_xs
        · obtain ⟨n', rest', hz⟩ := unique_copy_cons z xs'
          have hyz : y = z := by
            have h2 : unique_copy_with_count (z :: xs') = (n, y) :: rest := by
              rw [← hxs', h]
            rw [hz] at h2
            exact (Prod.mk.injEq _ _ _ _ ▸ (List.cons.injEq _ _ _ _ ▸ h2).1).2.symm
          have hxz : x ≤ z := hxall z (by rw [hxs']; simp)
          have hzx : z ≤ x := by
            rw [hxs'] at hx_xs hxs
            rcases List.mem_cons.mp hx_xs with hx | hx
            · exact le_of_eq hx.symm
            · exact (List.sorted_cons.mp hxs).1 x hx
          exact hxy (hyz ▸ le_antisymm hxz hzx)

end Huff

namespace Huff

theorem compressFreqs_sorted (x : List Byte) :
    (compressFreqs x).Sorted (fun a b => a.1 ≤ b.1) :=
  List.sorted_insertionSort _ _

theorem compressFreqs_perm (x : List Byte) :
    (compressFreqs x).Perm (unique_copy_with_count (List.insertionSort (· ≤ ·) x)) :=
  List.perm_insertionSort _ _

theorem compressFreqs_counts_pos (x : List Byte) : ∀ p ∈ compressFreqs x, 1 ≤ p.1 :=
  fun p hp => unique_copy_counts_pos _ p ((compressFreqs_perm x).subset hp)

theorem compressFreqs_snd_nodup (x : List Byte) : ((compressFreqs x).map Prod.snd).Nodup := by
  have h1 := unique_copy_snd_nodup _ (List.sorted_insertionSort (· ≤ ·) x)
  exact (((compressFreqs_perm x).map Prod.snd).nodup_iff).mpr h1

theorem compressFreqs_mem_snd (x : List Byte) (c : Byte) :
    c ∈ (compressFreqs x).map Prod.snd ↔ c ∈ x := by
  rw [((compressFreqs_perm x).map Prod.snd).mem_iff, unique_copy_mem_snd]
  exact (List.perm_insertionSort (· ≤ ·) x).mem_iff

theorem compressFreqs_length_eq (x : List Byte) : (compressFreqs x).length = x.dedup.length := by
  have h1 : (compressFreqs x).length = ((compressFreqs x).map Prod.snd).length := by simp
  rw [h1, ← List.toFinset_card_of_nodup (compressFreqs_snd_nodup x),
    ← List.toFinset_card_of_nodup x.nodup_dedup]
  congr 1
  ext c
  simp only [List.mem_toFinset, List.mem_dedup]
  exact compressFreqs_mem_snd x c

theorem compressFreqs_length_le (x : List Byte) : (compressFreqs x).length ≤ 256 := by
  have h1 : (compressFreqs x).length = ((compressFreqs x).map Prod.snd).length := by simp
  have h2 := (compressFreqs_snd_nodup x).length_le_card
  rw [Fintype.card_fin] at h2
  omega

end Huff

namespace Huff

theorem compress_eq (x out : List Byte) (h : compress x = some out) :
    ∃ arr E, build_huffman_array (compressFreqs x) = some arr ∧
      encoderCodes x = some E ∧ out = header arr ++ payloadOf E x := by
  unfold compress at h
  rcases hb : build_huffman_array (compressFreqs x) with _ | arr <;>
    rcases he : encoderCodes x with _ | E <;>
      rw [hb, he] at h <;> simp at h
  exact ⟨arr, E, rfl, rfl, h.symm⟩

theorem build_needs_two (nodes : List Node) (h : build_huffman_array nodes ≠ none) :
    2 ≤ nodes.length := by
  match nodes with
  | [] => exact absurd rfl h
  | [a] => exact absurd rfl h
  | a :: b :: rest => simp

theorem header_length (arr : List Node) (k : Nat) (hlen : arr.length = 2 * k - 1)
    (hk : 2 ≤ k) : (header arr).length = 16 + (2 * k - 1) + 8 * k := by
  unfold header
  rw [List.length_append, toBitsW_length, headerLoop_length, List.length_take,
    List.length_drop, hlen]
  have h1 : (2 * k - 1) / 2 + 1 = k := by omega
  rw [h1]
  have h2 : min k (2 * k - 1) = k := by omega
  rw [h2]
  omega

end Huff

namespace Huff

theorem genLoop_emit_sorted {α : Type} (cmp : (Nat × α) → (Nat × α) → Bool) (lnodes : Nat) :
    ∀ (n : Nat) (f0 f1 : List (Nat × α)) (q out : List ((Nat × α) × List Byte)) (L : Nat),
    genLoop cmp lnodes n f0 f1 q = some out →
    q.Pairwise (fun a b => a.2.length ≤ b.2.length) →
    (∀ a ∈ q, ∀ b ∈ q, a.2.length ≤ b.2.length + 1) →
    (∀ a ∈ q, L ≤ a.2.length) →
    out.Pairwise (fun a b => a.2.length ≤ b.2.length) ∧ ∀ e ∈ out, L ≤ e.2.length := by
  intro n
  induction n with
  | zero =>
    intro f0 f1 q out L h _ _ _
    simp only [genLoop, Option.some.injEq] at h
    subst h
    simp
  | succ n ih =>
    intro f0 f1 q out L h hpw hwin hL
    match q with
    | [] => exact absurd h (by simp [genLoop])
    | (e, c) :: rest =>
      simp only [genLoop] at h
      by_cases hleaf : e.1 < lnodes
      · rw [if_pos hleaf] at h
        rcases hr : genLoop cmp lnodes n f0 f1 rest with _ | out' <;> rw [hr] at h
        · exact absurd h (by simp)
        simp only [Option.some.injEq] at h
        subst h
        have hrest_pw := hpw.of_cons
        have hhead := List.pairwise_cons.mp hpw |>.1
        obtain ⟨hpw', hge⟩ := ih f0 f1 rest out' c.length hr hrest_pw
          (fun a ha b hb => hwin a (by simp [ha]) b (by simp [hb]))
          (fun a ha => hhead a ha)
        refine ⟨List.pairwise_cons.mpr ⟨fun e' he' => hge e' he', hpw'⟩, ?_⟩
        intro e' he'
        rcases List.mem_cons.mp he' with he' | he'
        · subst he'
          exact hL (e, c) (by simp)
        · exact le_trans (hL (e, c) (by simp)) (hge e' he')
      · rw [if_neg hleaf] at h
        rcases hx : nextNode cmp f0 f1 with _ | ⟨x, f0x, f1x, sx⟩ <;> simp only [hx] at h
        · exact absurd h (by simp)
        rcases hy : nextNode cmp f0x f1x with _ | ⟨y, f0y, f1y, sy⟩ <;> simp only [hy] at h
        · exact absurd h (by simp)
        have hhead := List.pairwise_cons.mp hpw |>.1
        have hrest_pw := hpw.of_cons
        have hq' : (rest ++ [(x, c ++ [c1]), (y, c ++ [c0])]).Pairwise
            (fun a b => a.2.length ≤ b.2.length) := by
          rw [List.pairwise_append]
          refine ⟨hrest_pw, ?_, ?_⟩
          · refine List.pairwise_cons.mpr ⟨?_, ?_⟩
            · intro b hb
              simp at hb
              simp [hb]
            · simp
          · intro a ha b hb
            have := hwin a (by simp [ha]) (e, c) (by simp)
            simp at this
            rcases List.mem_cons.mp hb with hb | hb
            · simp [hb]; omega
            · simp at hb; simp [hb]; omega
        have hsplit : ∀ a : (Nat × α) × List Byte,
            a ∈ rest ++ [(x, c ++ [c1]), (y, c ++ [c0])] →
            a ∈ rest ∨ a = (x, c ++ [c1]) ∨ a = (y, c ++ [c0]) := by
          intro a ha
          rcases List.mem_append.mp ha with ha | ha
          · exact Or.inl ha
          · rcases List.mem_cons.mp ha with ha | ha
            · exact Or.inr (Or.inl ha)
            · exact Or.inr (Or.inr (by simpa using ha))
        have hwin' : ∀ a ∈ rest ++ [(x, c ++ [c1]), (y, c ++ [c0])],
            ∀ b ∈ rest ++ [(x, c ++ [c1]), (y, c ++ [c0])],
            a.2.length ≤ b.2.length + 1 := by
          intro a ha b hb
          rcases hsplit a ha with ha | ha | ha <;> rcases hsplit b hb with hb | hb | hb
          · exact hwin a (by simp [ha]) b (by simp [hb])
          · subst hb
            have h1 := hwin a (by simp [ha]) (e, c) (by simp)
            simp at h1 ⊢
            omega
          · subst hb
            have h1 := hwin a (by simp [ha]) (e, c) (by simp)
            simp at h1 ⊢
            omega
          · subst ha
            have h1 := hhead b hb
            simp at h1 ⊢
            omega
          · subst ha; subst hb; simp
          · subst ha; subst hb; simp
          · subst ha
            have h1 := hhead b hb
            simp at h1 ⊢
            omega
          · subst ha; subst hb; simp
          · subst ha; subst hb; simp
        have hL' : ∀ a ∈ rest ++ [(x, c ++ [c1]), (y, c ++ [c0])], L ≤ a.2.length := by
          intro a ha
          have hLc := hL (e, c) (by simp)
          simp only at hLc
          rcases hsplit a ha with ha | ha | ha
          · exact hL a (by simp [ha])
          · subst ha; simp; omega
          · subst ha; simp; omega
        exact ih f0y f1y _ out L h hq' hwin' hL'

end Huff

namespace Huff

theorem c1_c0_ne : c1 ≠ c0 := by decide

theorem genLoop_emit_antichain {α : Type} (cmp : (Nat × α) → (Nat × α) → Bool) (lnodes : Nat) :
    ∀ (n : Nat) (f0 f1 : List (Nat × α)) (q out : List ((Nat × α) × List Byte)),
    genLoop cmp lnodes n f0 f1 q = some out →
    q.Pairwise (fun a b => ¬(a.2 <+: b.2) ∧ ¬(b.2 <+: a.2)) →
    out.Pairwise (fun a b => ¬(a.2 <+: b.2) ∧ ¬(b.2 <+: a.2)) ∧
      ∀ e ∈ out, ∃ a ∈ q, a.2 <+: e.2 := by
  intro n
  induction n with
  | zero =>
    intro f0 f1 q out h _
    simp only [genLoop, Option.some.injEq] at h
    subst h
    simp
  | succ n ih =>
    intro f0 f1 q out h hpw
    match q with
    | [] => exact absurd h (by simp [genLoop])
    | (e, c) :: rest =>
      simp only [genLoop] at h
      have hhead := List.pairwise_cons.mp hpw |>.1
      have hrest_pw := hpw.of_cons
      by_cases hleaf : e.1 < lnodes
      · rw [if_pos hleaf] at h
        rcases hr : genLoop cmp lnodes n f0 f1 rest with _ | out' <;> rw [hr] at h
        · exact absurd h (by simp)
        simp only [Option.some.injEq] at h
        subst h
        obtain ⟨hpw', hcov⟩ := ih f0 f1 rest out' hr hrest_pw
        constructor
        · refine List.pairwise_cons.mpr ⟨?_, hpw'⟩
          intro e' he'
          obtain ⟨a, ha, hpref⟩ := hcov e' he'
          obtain ⟨h1, h2⟩ := hhead a ha
          constructor
          · intro hc
            rcases List.prefix_or_prefix_of_prefix hc hpref with hco | hco
            · exact h1 hco
            · exact h2 hco
          · intro hc
            exact h2 (hpref.trans hc)
        · intro e' he'
          rcases List.mem_cons.mp he' with he' | he'
          · exact ⟨(e, c), by simp, by simp [he']⟩
          · obtain ⟨a, ha, hpref⟩ := hcov e' he'
            exact ⟨a, by simp [ha], hpref⟩
      · rw [if_neg hleaf] at h
        rcases hx : nextNode cmp f0 f1 with _ | ⟨x, f0x, f1x, sx⟩ <;> simp only [hx] at h
        · exact absurd h (by simp)
        rcases hy : nextNode cmp f0x f1x with _ | ⟨y, f0y, f1y, sy⟩ <;> simp only [hy] at h
        · exact absurd h (by simp)
        have hcross : ∀ a ∈ rest, ∀ z : Byte,
            ¬(a.2 <+: c ++ [z]) ∧ ¬(c ++ [z] <+: a.2) := by
          intro a ha z
          obtain ⟨h1, h2⟩ := hhead a ha
          constructor
          · intro hc
            rcases List.prefix_concat_iff.mp hc with hco | hco
            · exact h1 (hco ▸ List.prefix_append c [z])
            · exact h2 hco
          · intro hc
            exact h1 ((List.prefix_append c [z]).trans hc)
        have hnewpair : ∀ z w : Byte, z ≠ w → ¬(c ++ [z] <+: c ++ [w]) := by
          intro z w hzw hc
          have heq := hc.eq_of_length (by simp)
          exact hzw (by simpa using heq)
        have hq' : (rest ++ [(x, c ++ [c1]), (y, c ++ [c0])]).Pairwise
            (fun a b => ¬(a.2 <+: b.2) ∧ ¬(b.2 <+: a.2)) := by
          rw [List.pairwise_append]
          refine ⟨hrest_pw, ?_, ?_⟩
          · refine List.pairwise_cons.mpr ⟨?_, by simp⟩
            intro b hb
            simp only [List.mem_singleton] at hb
            subst hb
            exact ⟨hnewpair c1 c0 c1_c0_ne, hnewpair c0 c1 (Ne.symm c1_c0_ne)⟩
          · intro a ha b hb
            rcases List.mem_cons.mp hb with hb | hb
            · subst hb
              exact hcross a ha c1
            · simp only [List.mem_singleton] at hb
              subst hb
              exact hcross a ha c0
        obtain ⟨hpw', hcov⟩ := ih f0y f1y _ out h hq'
        refine ⟨hpw', ?_⟩
        intro e' he'
        obtain ⟨a, ha, hpref⟩ := hcov e' he'
        rcases List.mem_append.mp ha with ha | ha
        · exact ⟨a, by simp [ha], hpref⟩
        · rcases List.mem_cons.mp ha with ha | ha
          · subst ha
            exact ⟨(e, c), by simp, (List.prefix_append c [c1]).trans hpref⟩
          · simp only [List.mem_singleton] at ha
            subst ha
            exact ⟨(e, c), by simp, (List.prefix_append c [c0]).trans hpref⟩

end Huff

namespace Huff

theorem genCodes_len_sorted {α : Type} (cmp : (Nat × α) → (Nat × α) → Bool)
    (lnodes : Nat) (arr : List α) (out : List ((Nat × α) × List Byte))
    (h : generate_codes cmp lnodes arr = some out) :
    out.Pairwise (fun a b => a.2.length ≤ b.2.length) := by
  unfold generate_codes at h
  rcases he : arr.enum.reverse with _ | ⟨root, revRest⟩ <;> simp only [he] at h
  · exact absurd h (by simp)
  · exact (genLoop_emit_sorted cmp lnodes arr.length _ _ _ out 0 h (by simp)
      (by simp) (by simp)).1

/-- C10: `generate_codes` emits its leaf (node, code) callbacks in non-decreasing order
of code-string length: queue entries are processed in append order and each child's code
is one character longer than its parent's, so every emitted code is at least as long as
every previously emitted one. -/
theorem generate_codes_emits_shortest_first {α : Type} (cmp : (Nat × α) → (Nat × α) → Bool)
    (lnodes : Nat) (arr : List α) (out : List ((Nat × α) × List Byte))
    (h : generate_codes cmp lnodes arr = some out) :
    out.Pairwise (fun a b => a.2.length ≤ b.2.length) :=
  genCodes_len_sorted cmp lnodes arr out h

theorem generate_codes_emits_shortest_first_witness :
    generate_codes cmpRev 2 [((1:Nat), (97:Byte)), (1, 98), (2, 0)] =
        some [((1, (1, 98)), [c1]), ((0, (1, 97)), [c0])] ∧
      ([((1, ((1:Nat), (98:Byte))), [c1]), ((0, (1, 97)), [c0])]).Pairwise
        (fun a b => a.2.length ≤ b.2.length) :=
  ⟨by decide,
    generate_codes_emits_shortest_first cmpRev 2 [((1:Nat), (97:Byte)), (1, 98), (2, 0)]
      [((1, (1, 98)), [c1]), ((0, (1, 97)), [c0])] (by decide)⟩

theorem generate_codes_antichain {α : Type} (cmp : (Nat × α) → (Nat × α) → Bool)
    (lnodes : Nat) (arr : List α) (out : List ((Nat × α) × List Byte))
    (h : generate_codes cmp lnodes arr = some out) :
    out.Pairwise (fun a b => ¬(a.2 <+: b.2) ∧ ¬(b.2 <+: a.2)) := by
  unfold generate_codes at h
  rcases he : arr.enum.reverse with _ | ⟨root, revRest⟩ <;> simp only [he] at h
  · exact absurd h (by simp)
  · exact (genLoop_emit_antichain cmp lnodes arr.length _ _ _ out h (by simp)).1

/-- C7: when payload matching begins in `decompress`, the candidate (leaf, code) list is
ordered ascending by code length; the list is exactly the decoder's `generate_codes`
emission sequence (the source's sort runs on the still-empty vector), so for equal
lengths the order is the generation order, and candidates are tried shortest-first. -/
theorem decoder_candidates_sorted (input : List Byte)
    (P : List ((Nat × (Nat × Byte)) × List Byte)) (rest : List Byte)
    (h : decoderPrefixes input = some (P, rest)) :
    P.Pairwise (fun a b => a.2.length ≤ b.2.length) ∧
      ∃ nodes, read_header input = some (nodes, rest) ∧
        generate_codes cmpRev (nodes.length / 2 + 1) nodes = some P := by
  unfold decoderPrefixes at h
  rcases hh : read_header input with _ | ⟨nodes, rest'⟩ <;> simp only [hh] at h
  · exact absurd h (by simp)
  rcases hg : generate_codes cmpRev (nodes.length / 2 + 1) nodes with _ | P' <;>
    simp only [hg] at h
  · exact absurd h (by simp)
  simp only [Option.some.injEq, Prod.mk.injEq] at h
  obtain ⟨hP, hrest⟩ := h
  subst hP
  subst hrest
  exact ⟨genCodes_len_sorted _ _ _ _ hg, nodes, by simp [hh], hg⟩

theorem decoder_candidates_sorted_witness :
    decoderPrefixes
        (toBitsW 16 3 ++ [c1] ++ toBits8 97 ++ [c1] ++ toBits8 98 ++ [c0] ++ [c0, c1]) =
      some ([((1, ((1:Nat), (98:Byte))), [c1]), ((0, (0, 97)), [c0])], [c0, c1]) ∧
      (([((1, ((1:Nat), (98:Byte))), [c1]), ((0, (0, 97)), [c0])]).Pairwise
          (fun a b => a.2.length ≤ b.2.length) ∧
        ∃ nodes,
          read_header
              (toBitsW 16 3 ++ [c1] ++ toBits8 97 ++ [c1] ++ toBits8 98 ++ [c0] ++ [c0, c1]) =
            some (nodes, [c0, c1]) ∧
          generate_codes cmpRev (nodes.length / 2 + 1) nodes =
            some [((1, (1, 98)), [c1]), ((0, (0, 97)), [c0])]) :=
  ⟨by decide, decoder_candidates_sorted _ _ _ (by decide)⟩

end Huff

namespace Huff

/-- C9: the decoder has no malformed-payload error path.  On a bitstream whose payload
matches no candidate even at the longest available code length the matching loop makes no
progress: on the concrete bitstream below (a valid two-symbol header followed by the
non-bit payload "xx") the loop reaches the state (current = "x", bits read = "x"), which
steps to itself, so `decodeLoop` yields `none` at every fuel — the source loops forever —
and `decompress` ends in fuel exhaustion, not in a `MalformedPayload` failure. -/
theorem decompress_malformed_payload_loops :
    (∀ fuel acc, decodeLoop [((1, ((1:Nat), (98:Byte))), [c1]), ((0, (0, 97)), [c0])]
        fuel [120, 120] [] acc = none) ∧
      decompress (toBitsW 16 3 ++ [c1] ++ toBits8 97 ++ [c1] ++ toBits8 98 ++ [c0] ++
        [120, 120]) = none := by
  have key : ∀ fuel acc, decodeLoop [((1, ((1:Nat), (98:Byte))), [c1]), ((0, (0, 97)), [c0])]
      fuel [(120 : Byte)] [(120 : Byte)] acc = none := by
    intro fuel
    induction fuel with
    | zero => intro acc; rfl
    | succ f ih =>
      intro acc
      have ht : tryCands [((1, ((1:Nat), (98:Byte))), [c1]), ((0, (0, 97)), [c0])]
          [(120 : Byte)] [(120 : Byte)] = some (ScanResult.fell [120] [120]) := by decide
      simp only [decodeLoop, ht]
      exact ih acc
  have start : ∀ fuel acc, decodeLoop [((1, ((1:Nat), (98:Byte))), [c1]), ((0, (0, 97)), [c0])]
      fuel [(120 : Byte), 120] [] acc = none := by
    intro fuel acc
    match fuel with
    | 0 => rfl
    | f + 1 =>
      have ht : tryCands [((1, ((1:Nat), (98:Byte))), [c1]), ((0, (0, 97)), [c0])]
          [(120 : Byte), 120] [] = some (ScanResult.fell [120] [120]) := by decide
      simp only [decodeLoop, ht]
      exact key f acc
  refine ⟨fun fuel acc => start fuel acc, ?_⟩
  have hdp : decoderPrefixes (toBitsW 16 3 ++ [c1] ++ toBits8 97 ++ [c1] ++ toBits8 98 ++
      [c0] ++ [120, 120]) =
      some ([((1, ((1:Nat), (98:Byte))), [c1]), ((0, (0, 97)), [c0])], [120, 120]) := by
    decide
  unfold decompress
  rw [hdp]
  exact start _ []

end Huff

namespace Huff

theorem mergeTag_nil_right {α : Type} (cmp : α → α → Bool) :
    ∀ (f0 : List α), mergeTag cmp f0 [] = f0.map (fun x => (false, x))
  | [] => by simp [mergeTag]
  | x :: t0 => by
    rw [mergeTag, mergeTag_nil_right cmp t0]
    simp

theorem mergeTag_nil_left {α : Type} (cmp : α → α → Bool) :
    ∀ (f1 : List α), mergeTag cmp [] f1 = f1.map (fun y => (true, y))
  | [] => by simp [mergeTag]
  | y :: t1 => by
    rw [mergeTag, mergeTag_nil_left cmp t1]
    simp

theorem mergeTag_cons_cons {α : Type} (cmp : α → α → Bool) (x y : α) (t0 t1 : List α) :
    mergeTag cmp (x :: t0) (y :: t1) =
      if cmp y x then (true, y) :: mergeTag cmp (x :: t0) t1
      else (false, x) :: mergeTag cmp t0 (y :: t1) := by
  rw [mergeTag]

theorem mergeTag_next {α : Type} (cmp : α → α → Bool) (f0 f1 : List α)
    (x : α) (f0x f1x : List α) (s : Bool)
    (h : nextNode cmp f0 f1 = some (x, f0x, f1x, s)) :
    mergeTag cmp f0 f1 = (s, x) :: mergeTag cmp f0x f1x := by
  match f0, f1 with
  | [], [] => exact absurd h (by simp [nextNode])
  | a :: t0, [] =>
    simp only [nextNode, Option.some.injEq, Prod.mk.injEq] at h
    obtain ⟨rfl, rfl, rfl, rfl⟩ := h
    rw [mergeTag]
  | [], b :: t1 =>
    simp only [nextNode, Option.some.injEq, Prod.mk.injEq] at h
    obtain ⟨rfl, rfl, rfl, rfl⟩ := h
    rw [mergeTag]
  | a :: t0, b :: t1 =>
    rw [mergeTag_cons_cons]
    simp only [nextNode] at h
    by_cases hc : cmp b a <;>
      simp only [hc, if_true, if_false, Option.some.injEq, Prod.mk.injEq] at h ⊢ <;>
      obtain ⟨rfl, rfl, rfl, rfl⟩ := h <;> simp

theorem mergeTag_length {α : Type} (cmp : α → α → Bool) (f0 f1 : List α) :
    (mergeTag cmp f0 f1).length = f0.length + f1.length := by
  induction f0, f1 using mergeTag.induct cmp with
  | case1 => simp [mergeTag]
  | case2 x t0 ih => rw [mergeTag]; simp [ih]
  | case3 y t1 ih => rw [mergeTag]; simp [ih]
  | case4 x t0 y t1 h ih => rw [mergeTag_cons_cons, if_pos h]; simp [ih]; omega
  | case5 x t0 y t1 h ih => rw [mergeTag_cons_cons, if_neg h]; simp [ih]; omega

end Huff

namespace Huff

theorem mergeTag_snoc_right {α : Type} (w : α → Nat) :
    ∀ (A B : List α) (b : α), (∀ a ∈ A, w a ≤ w b) →
    mergeTag (fun y x => decide (w y < w x)) A (B ++ [b]) =
      mergeTag (fun y x => decide (w y < w x)) A B ++ [(true, b)] := by
  intro A B
  induction A, B using mergeTag.induct (fun y x => decide (w y < w x)) with
  | case1 =>
    intro b _
    rw [List.nil_append, mergeTag_nil_left, mergeTag_nil_left]
    simp
  | case2 x t0 ih =>
    intro b hb
    have hx : ¬ (w b < w x) := by
      have := hb x (by simp)
      omega
    have h5 := ih b (fun a ha => hb a (by simp [ha]))
    simp only [List.nil_append] at h5 ⊢
    rw [mergeTag_cons_cons, if_neg (by simpa using hx), h5]
    rw [mergeTag_nil_right, mergeTag_nil_right]
    simp
  | case3 y t1 ih =>
    intro b hb
    rw [List.cons_append, mergeTag_nil_left, mergeTag_nil_left]
    simp [List.map_append]
  | case4 x t0 y t1 hc ih =>
    intro b hb
    rw [List.cons_append, mergeTag_cons_cons, if_pos hc, mergeTag_cons_cons, if_pos hc]
    rw [ih b hb]
    rfl
  | case5 x t0 y t1 hc ih =>
    intro b hb
    have h5 := ih b (fun a ha => hb a (by simp [ha]))
    rw [List.cons_append] at h5 ⊢
    rw [mergeTag_cons_cons, if_neg hc, mergeTag_cons_cons, if_neg hc, h5]
    rfl

theorem mergeTag_snoc_left {α : Type} (w : α → Nat) :
    ∀ (A B : List α) (a : α), (∀ b ∈ B, w b < w a) →
    mergeTag (fun y x => decide (w y < w x)) (A ++ [a]) B =
      mergeTag (fun y x => decide (w y < w x)) A B ++ [(false, a)] := by
  intro A B
  induction A, B using mergeTag.induct (fun y x => decide (w y < w x)) with
  | case1 =>
    intro a _
    rw [List.nil_append, mergeTag_nil_right, mergeTag_nil_right]
    simp
  | case2 x t0 ih =>
    intro a ha
    rw [List.cons_append, mergeTag_nil_right, mergeTag_nil_right]
    simp [List.map_append]
  | case3 y t1 ih =>
    intro a ha
    have hy : w y < w a := ha y (by simp)
    have h5 := ih a (fun b hb => ha b (by simp [hb]))
    simp only [List.nil_append] at h5 ⊢
    rw [mergeTag_cons_cons, if_pos (by simpa using hy), h5]
    rw [mergeTag_nil_left, mergeTag_nil_left]
    simp
  | case4 x t0 y t1 hc ih =>
    intro a ha
    have h5 := ih a (fun b hb => ha b (by simp [hb]))
    rw [List.cons_append] at h5 ⊢
    rw [mergeTag_cons_cons, if_pos hc, mergeTag_cons_cons, if_pos hc, h5]
    rfl
  | case5 x t0 y t1 hc ih =>
    intro a ha
    rw [List.cons_append, mergeTag_cons_cons, if_neg hc, mergeTag_cons_cons, if_neg hc]
    rw [ih a ha]
    rfl

end Huff

namespace Huff

theorem mergeTag_reverse {α : Type} (w : α → Nat) :
    ∀ (n : Nat) (A B : List α), A.length + B.length ≤ n →
    A.Sorted (fun x y => w x ≤ w y) → B.Sorted (fun x y => w x ≤ w y) →
    mergeTag (fun y x => ! decide (w y < w x)) A.reverse B.reverse =
      (mergeTag (fun y x => decide (w y < w x)) A B).reverse := by
  intro n
  induction n with
  | zero =>
    intro A B hlen _ _
    have hA : A = [] := List.length_eq_zero.mp (by omega)
    have hB : B = [] := List.length_eq_zero.mp (by omega)
    subst hA; subst hB
    simp [mergeTag]
  | succ n ih =>
    intro A B hlen hA hB
    rcases List.eq_nil_or_concat A with rfl | ⟨A', a, rfl⟩
    · rw [List.reverse_nil, mergeTag_nil_left, mergeTag_nil_left]
      simp
    · rcases List.eq_nil_or_concat B with rfl | ⟨B', b, rfl⟩
      · rw [List.reverse_nil, mergeTag_nil_right, mergeTag_nil_right]
        simp
      · simp only [List.concat_eq_append] at hA hB hlen ⊢
        have hsA := List.pairwise_append.mp hA
        have hsB := List.pairwise_append.mp hB
        have hA'bound : ∀ x ∈ A', w x ≤ w a := by
          intro x hx
          exact hsA.2.2 x hx a (by simp)
        have hB'bound : ∀ x ∈ B', w x ≤ w b := by
          intro x hx
          exact hsB.2.2 x hx b (by simp)
        have hrevA : (A' ++ [a]).reverse = a :: A'.reverse := by
          simp
        have hrevB : (B' ++ [b]).reverse = b :: B'.reverse := by
          simp
        by_cases hab : w b < w a
        · rw [mergeTag_snoc_left w A' (B' ++ [b]) a ?hblt]
          case hblt =>
            intro x hx
            rcases List.mem_append.mp hx with hx | hx
            · exact lt_of_le_of_lt (hB'bound x hx) hab
            · simp only [List.mem_singleton] at hx
              subst hx
              exact hab
          rw [hrevA, hrevB, mergeTag_cons_cons]
          rw [if_neg (by simp [hab])]
          rw [← hrevB]
          rw [ih A' (B' ++ [b]) (by simp at hlen ⊢; omega) hsA.1 hB]
          simp
        · rw [mergeTag_snoc_right w (A' ++ [a]) B' b ?hble]
          case hble =>
            intro x hx
            rcases List.mem_append.mp hx with hx | hx
            · have := hA'bound x hx
              omega
            · simp only [List.mem_singleton] at hx
              subst hx
              omega
          rw [hrevA, hrevB, mergeTag_cons_cons]
          rw [if_pos (by simp [hab])]
          rw [← hrevA]
          rw [ih (A' ++ [a]) B' (by simp at hlen ⊢; omega) hA hsB.1]
          simp

end Huff

namespace Huff

theorem mergeTag_head_left {α : Type} (cmp : α → α → Bool) (x : α) (t0 f1 : List α)
    (h : ∀ y ∈ f1, cmp y x = false) :
    mergeTag cmp (x :: t0) f1 = (false, x) :: mergeTag cmp t0 f1 := by
  cases f1 with
  | nil => rw [mergeTag_nil_right, mergeTag_nil_right]; rfl
  | cons y t1 => rw [mergeTag_cons_cons, if_neg (by simp [h y (by simp)])]

theorem mergeTag_head_right {α : Type} (cmp : α → α → Bool) (y : α) (f0 t1 : List α)
    (h : ∀ x ∈ f0, cmp y x = true) :
    mergeTag cmp f0 (y :: t1) = (true, y) :: mergeTag cmp f0 t1 := by
  cases f0 with
  | nil => rw [mergeTag_nil_left, mergeTag_nil_left]; rfl
  | cons x t0 => rw [mergeTag_cons_cons, if_pos (by simp [h x (by simp)])]

theorem mergeTag_of_strict_sorted {α : Type} (w : α → Nat) :
    ∀ (L : List (Bool × α)), L.Pairwise (fun x y => w x.2 < w y.2) →
    mergeTag (fun y x => decide (w y < w x))
        (L.filterMap (fun e => if e.1 then none else some e.2))
        (L.filterMap (fun e => if e.1 then some e.2 else none)) = L := by
  intro L
  induction L with
  | nil => intro _; simp [mergeTag]
  | cons e L ih =>
    intro hpw
    have hhead := List.pairwise_cons.mp hpw |>.1
    have htail := hpw.of_cons
    obtain ⟨tag, v⟩ := e
    cases tag
    · simp only [List.filterMap_cons, Bool.false_eq_true, if_neg, ite_false]
    
      rw [mergeTag_head_left]
      · rw [ih htail]
      · intro y hy
        obtain ⟨ey, hey, hfy⟩ := List.mem_filterMap.mp hy
        have : w v < w ey.2 := hhead ey hey
        have hy2 : ey.2 = y := by
          by_cases ht : ey.1 <;> simp [ht] at hfy
          exact hfy
        simp only [← hy2]
        simp
        omega
    · simp only [List.filterMap_cons, ite_true]
      rw [mergeTag_head_right]
      · rw [ih htail]
      · intro x hx
        obtain ⟨ex, hex, hfx⟩ := List.mem_filterMap.mp hx
        have : w v < w ex.2 := hhead ex hex
        have hx2 : ex.2 = x := by
          by_cases ht : ex.1 <;> simp [ht] at hfx
          exact hfx
        simp only [← hx2]
        simp
        omega

end Huff

namespace Huff

theorem tagZipT_true : ∀ {α : Type} (B : List α) (i0s i1s : List Nat),
    i1s.length = B.length →
    (i1s.zip B).map (fun y => (true, y)) = tagZipT i0s i1s (B.map (fun y => (true, y)))
  | _, [], i0s, i1s, h => by simp [tagZipT]
  | _, b :: B', i0s, i1s, h => by
    match i1s, h with
    | j :: j1s, h =>
      rw [List.zip_cons_cons, List.map_cons, List.map_cons]
      simp only [tagZipT, List.headD_cons, List.tail_cons]
      rw [tagZipT_true B' i0s j1s (by simpa using h)]

theorem tagZipT_false : ∀ {α : Type} (A : List α) (i0s i1s : List Nat),
    i0s.length = A.length →
    (i0s.zip A).map (fun x => (false, x)) = tagZipT i0s i1s (A.map (fun x => (false, x)))
  | _, [], i0s, i1s, h => by simp [tagZipT]
  | _, a :: A', i0s, i1s, h => by
    match i0s, h with
    | i :: i0s', h =>
      rw [List.zip_cons_cons, List.map_cons, List.map_cons]
      simp only [tagZipT, List.headD_cons, List.tail_cons]
      rw [tagZipT_false A' i0s' i1s (by simpa using h)]

theorem mergeTag_zip {α : Type} (cmpP : (Nat × α) → (Nat × α) → Bool) (cmpV : α → α → Bool)
    (hcmp : ∀ p a q b, cmpP (p, a) (q, b) = cmpV a b) :
    ∀ (n : Nat) (A B : List α) (i0s i1s : List Nat), A.length + B.length ≤ n →
    i0s.length = A.length → i1s.length = B.length →
    mergeTag cmpP (i0s.zip A) (i1s.zip B) = tagZipT i0s i1s (mergeTag cmpV A B) := by
  intro n
  induction n with
  | zero =>
    intro A B i0s i1s hlen h0 h1
    have hA : A = [] := List.length_eq_zero.mp (by omega)
    have hB : B = [] := List.length_eq_zero.mp (by omega)
    subst hA; subst hB
    simp [mergeTag, tagZipT]
  | succ n ih =>
    intro A B i0s i1s hlen h0 h1
    match A, B with
    | [], B =>
      have hz : i0s.zip ([] : List α) = [] := by simp
      rw [hz, mergeTag_nil_left, mergeTag_nil_left]
      exact tagZipT_true B i0s i1s h1
    | a :: A', [] =>
      have hz : i1s.zip ([] : List α) = [] := by simp
      rw [hz, mergeTag_nil_right, mergeTag_nil_right]
      exact tagZipT_false (a :: A') i0s i1s h0
    | a :: A', b :: B' =>
      match i0s, i1s, h0, h1 with
      | i :: i0s', j :: j1s', h0, h1 =>
        rw [List.zip_cons_cons, List.zip_cons_cons, mergeTag_cons_cons, mergeTag_cons_cons]
        rw [hcmp j b i a]
        by_cases hc : cmpV b a
        · rw [if_pos hc, if_pos hc]
          simp only [tagZipT, List.headD_cons, List.tail_cons]
          have ihh := ih (a :: A') B' (i :: i0s') j1s' (by simp at hlen ⊢; omega)
            (by simpa using h0) (by simpa using h1)
          rw [List.zip_cons_cons] at ihh
          rw [ihh]
        · rw [if_neg hc, if_neg hc]
          simp only [tagZipT, List.headD_cons, List.tail_cons]
          have ihh := ih A' (b :: B') i0s' (j :: j1s') (by simp at hlen ⊢; omega)
            (by simpa using h0) (by simpa using h1)
          rw [List.zip_cons_cons] at ihh
          rw [ihh]

end Huff

namespace Huff

theorem cmpN_eq : cmpN = fun y x => decide (y.1 < x.1) := rfl

theorem sorted_head_min (a : Node) (l : List Node)
    (h : (a :: l).Sorted (fun u v => u.1 ≤ v.1)) : ∀ b ∈ a :: l, a.1 ≤ b.1 := by
  intro b hb
  rcases List.mem_cons.mp hb with hb | hb
  · subst hb; exact le_refl _
  · exact (List.pairwise_cons.mp h).1 b hb

theorem nextNode_cases {α : Type} (cmp : α → α → Bool) (f0 f1 : List α)
    (x : α) (f0x f1x : List α) (s : Bool)
    (h : nextNode cmp f0 f1 = some (x, f0x, f1x, s)) :
    (s = false ∧ f0 = x :: f0x ∧ f1x = f1) ∨ (s = true ∧ f1 = x :: f1x ∧ f0x = f0) := by
  match f0, f1 with
  | [], [] => exact absurd h (by simp [nextNode])
  | a :: t0, [] =>
    simp only [nextNode, Option.some.injEq, Prod.mk.injEq] at h
    obtain ⟨rfl, rfl, rfl, rfl⟩ := h
    exact Or.inl ⟨rfl, rfl, rfl⟩
  | [], b :: t1 =>
    simp only [nextNode, Option.some.injEq, Prod.mk.injEq] at h
    obtain ⟨rfl, rfl, rfl, rfl⟩ := h
    exact Or.inr ⟨rfl, rfl, rfl⟩
  | a :: t0, b :: t1 =>
    simp only [nextNode] at h
    by_cases hc : cmp b a <;>
      simp only [hc, if_true, if_false, Option.some.injEq, Prod.mk.injEq] at h <;>
      obtain ⟨rfl, rfl, rfl, rfl⟩ := h
    · exact Or.inr ⟨rfl, rfl, rfl⟩
    · exact Or.inl ⟨rfl, rfl, rfl⟩

theorem nextNode_min (ls pend : List Node)
    (hls : ls.Sorted (fun u v => u.1 ≤ v.1)) (hp : pend.Sorted (fun u v => u.1 ≤ v.1))
    (x : Node) (ls1 p1 : List Node) (s : Bool)
    (h : nextNode cmpN ls pend = some (x, ls1, p1, s)) :
    IsMinOf x (ls ++ pend) ∧ (ls ++ pend).erase x = ls1 ++ p1 ∧
      ls1.Sorted (fun u v => u.1 ≤ v.1) ∧ p1.Sorted (fun u v => u.1 ≤ v.1) ∧
      (ls1 = ls ∨ ls1 = ls.tail) ∧ (p1 = pend ∨ p1 = pend.tail) ∧
      ls1.length + p1.length + 1 = ls.length + pend.length := by
  match ls, pend with
  | [], [] => exact absurd h (by simp [nextNode])
  | lh :: lt, [] =>
    simp only [nextNode, Option.some.injEq, Prod.mk.injEq] at h
    obtain ⟨rfl, rfl, rfl, rfl⟩ := h
    refine ⟨⟨by simp, ?_⟩, ?_, (List.pairwise_cons.mp hls).2, hp, Or.inr rfl, Or.inl rfl, by simp⟩
    · intro b hb
      exact sorted_head_min lh lt hls b (by simpa using hb)
    · rw [List.append_nil, List.append_nil, List.erase_cons_head]
  | [], ph :: pt =>
    simp only [nextNode, Option.some.injEq, Prod.mk.injEq] at h
    obtain ⟨rfl, rfl, rfl, rfl⟩ := h
    refine ⟨⟨by simp, ?_⟩, ?_, hls, (List.pairwise_cons.mp hp).2, Or.inl rfl, Or.inr rfl, by simp⟩
    · intro b hb
      exact sorted_head_min ph pt hp b (by simpa using hb)
    · rw [List.nil_append, List.nil_append, List.erase_cons_head]
  | lh :: lt, ph :: pt =>
    simp only [nextNode] at h
    by_cases hc : cmpN ph lh
    · simp only [hc, if_true, Option.some.injEq, Prod.mk.injEq] at h
      obtain ⟨rfl, rfl, rfl, rfl⟩ := h
      have hplh : ph.1 < lh.1 := by simpa [cmpN] using hc
      have hnotls : ph ∉ lh :: lt := by
        intro hmem
        have := sorted_head_min lh lt hls ph hmem
        omega
      refine ⟨⟨by simp, ?_⟩, ?_, hls, (List.pairwise_cons.mp hp).2, Or.inl rfl, Or.inr rfl,
        by simp; omega⟩
      · intro b hb
        rcases List.mem_append.mp hb with hb | hb
        · exact le_trans (le_of_lt hplh) (sorted_head_min lh lt hls b hb)
        · exact sorted_head_min ph pt hp b hb
      · rw [List.erase_append_right _ hnotls, List.erase_cons_head]
    · simp only [hc, if_false, Option.some.injEq, Prod.mk.injEq, Bool.false_eq_true] at h
      obtain ⟨rfl, rfl, rfl, rfl⟩ := h
      have hlph : lh.1 ≤ ph.1 := by
        simp only [cmpN, decide_eq_true_eq] at hc
        omega
      refine ⟨⟨by simp, ?_⟩, ?_, (List.pairwise_cons.mp hls).2, hp, Or.inr rfl, Or.inl rfl,
        by simp; omega⟩
      · intro b hb
        rcases List.mem_append.mp hb with hb | hb
        · exact sorted_head_min lh lt hls b hb
        · exact le_trans hlph (sorted_head_min ph pt hp b hb)
      · rw [List.cons_append, List.erase_cons_head]

end Huff

namespace Huff

theorem mergeTag_filterMap_false {α : Type} (cmp : α → α → Bool) :
    ∀ (f0 f1 : List α),
    (mergeTag cmp f0 f1).filterMap (fun e => if e.1 then none else some e.2) = f0 := by
  intro f0 f1
  induction f0, f1 using mergeTag.induct cmp with
  | case1 => simp [mergeTag]
  | case2 x t0 ih => rw [mergeTag]; simpa using ih
  | case3 y t1 ih => rw [mergeTag]; simpa using ih
  | case4 x t0 y t1 h ih => rw [mergeTag_cons_cons, if_pos h]; simpa using ih
  | case5 x t0 y t1 h ih => rw [mergeTag_cons_cons, if_neg h]; simpa using ih

theorem mergeTag_filterMap_true {α : Type} (cmp : α → α → Bool) :
    ∀ (f0 f1 : List α),
    (mergeTag cmp f0 f1).filterMap (fun e => if e.1 then some e.2 else none) = f1 := by
  intro f0 f1
  induction f0, f1 using mergeTag.induct cmp with
  | case1 => simp [mergeTag]
  | case2 x t0 ih => rw [mergeTag]; simpa using ih
  | case3 y t1 ih => rw [mergeTag]; simpa using ih
  | case4 x t0 y t1 h ih => rw [mergeTag_cons_cons, if_pos h]; simpa using ih
  | case5 x t0 y t1 h ih => rw [mergeTag_cons_cons, if_neg h]; simpa using ih

theorem merge_step_next (ls pend F : List Node) (x : Node) (ls1 p1 : List Node) (sx : Bool)
    (h : nextNode cmpN ls pend = some (x, ls1, p1, sx))
    (hF : ∀ f ∈ F.head?, x.1 ≤ f.1) :
    mergeTag cmpN ls (pend ++ F) = (sx, x) :: mergeTag cmpN ls1 (p1 ++ F) := by
  match ls, pend with
  | [], [] => exact absurd h (by simp [nextNode])
  | lh :: lt, [] =>
    simp only [nextNode, Option.some.injEq, Prod.mk.injEq] at h
    obtain ⟨rfl, rfl, rfl, rfl⟩ := h
    simp only [List.nil_append]
    match F with
    | [] => rw [mergeTag_nil_right, mergeTag_nil_right]; rfl
    | f :: F' =>
      have hf : lh.1 ≤ f.1 := hF f (by simp)
      rw [mergeTag_cons_cons, if_neg (by simp [cmpN]; omega)]
  | [], ph :: pt =>
    simp only [nextNode, Option.some.injEq, Prod.mk.injEq] at h
    obtain ⟨rfl, rfl, rfl, rfl⟩ := h
    rw [List.cons_append, mergeTag_head_right cmpN ph [] (pt ++ F) (by intro a ha; simp at ha)]
  | lh :: lt, ph :: pt =>
    simp only [nextNode] at h
    by_cases hc : cmpN ph lh
    · simp only [hc, if_true, Option.some.injEq, Prod.mk.injEq] at h
      obtain ⟨rfl, rfl, rfl, rfl⟩ := h
      rw [List.cons_append, mergeTag_cons_cons, if_pos hc]
    · simp only [hc, if_false, Option.some.injEq, Prod.mk.injEq, Bool.false_eq_true] at h
      obtain ⟨rfl, rfl, rfl, rfl⟩ := h
      rw [List.cons_append, mergeTag_cons_cons, if_neg hc]

theorem getLast_append_cons {α : Type} (X : List α) (a : α) (Y : List α) :
    (X ++ a :: Y).getLast? = (a :: Y).getLast? := by
  induction X with
  | nil => rfl
  | cons x X ih =>
    rw [List.cons_append]
    rw [← ih]
    match X ++ a :: Y, ih with
    | b :: L, _ => rw [List.getLast?_cons_cons]

end Huff

namespace Huff

theorem nextNode_mem {α : Type} (cmp : α → α → Bool) (f0 f1 : List α)
    (x : α) (f0x f1x : List α) (s : Bool)
    (h : nextNode cmp f0 f1 = some (x, f0x, f1x, s)) :
    (x ∈ f0 ∨ x ∈ f1) ∧ (∀ a ∈ f0x, a ∈ f0) ∧ (∀ a ∈ f1x, a ∈ f1) := by
  rcases nextNode_cases cmp f0 f1 x f0x f1x s h with ⟨_, h2, h3⟩ | ⟨_, h2, h3⟩
  · subst h2
    exact ⟨Or.inl (by simp), fun a ha => by simp [ha], fun a ha => h3 ▸ ha⟩
  · subst h2
    exact ⟨Or.inr (by simp), fun a ha => h3 ▸ ha, fun a ha => by simp [ha]⟩

theorem beq_bridge (I1 I2 : BEq Node) (h1 : @LawfulBEq Node I1) (h2 : @LawfulBEq Node I2)
    (a b : Node) : @BEq.beq Node I1 a b = @BEq.beq Node I2 a b := by
  by_cases h : a = b
  · subst h
    rw [@beq_self_eq_true Node I1 h1, @beq_self_eq_true Node I2 h2]
  · rw [(@beq_eq_false_iff_ne Node I1 h1 a b).mpr h, (@beq_eq_false_iff_ne Node I2 h2 a b).mpr h]

theorem erase_beq_eq : ∀ (l : List Node) (a : Node),
    @List.erase Node instBEqProd l a = @List.erase Node instBEqOfDecidableEq l a := by
  intro l a
  rw [@List.erase_eq_eraseP' Node instBEqProd, @List.erase_eq_eraseP' Node instBEqOfDecidableEq]
  congr 1
  funext b
  exact beq_bridge instBEqProd instBEqOfDecidableEq inferInstance (@instLawfulBEq Node _) b a

theorem buildLoopP_main : ∀ (m : Nat) (ls pend : List Node),
    ls.Sorted (fun u v => u.1 ≤ v.1) →
    pend.Sorted (fun u v => u.1 ≤ v.1) →
    pend ≠ [] →
    ls.length + pend.length = m + 1 →
    (∀ p ∈ ls ++ pend, 1 ≤ p.1) →
    (∀ p ∈ pend, ∀ x y ls2 p2, buildStep ls pend = some (x, y, ls2, p2) → p.1 ≤ x.1 + y.1) →
    ∃ ints picks pendE z,
      buildLoopP m ls pend = some (ints, picks, [], pendE) ∧
      TwoSmallestRun ls pend ints ∧
      (pend ++ ints).Sorted (fun u v => u.1 ≤ v.1) ∧
      mergeTag cmpN ls (pend ++ ints) = picks ++ mergeTag cmpN [] pendE ∧
      pendE = [z] ∧ (pend ++ ints).getLast? = some z ∧
      ((ls ++ pend).map Prod.fst).sum = z.1 ∧
      (∀ q ∈ ints, 1 ≤ q.1) ∧
      ints.length = m ∧
      picks.countP (fun e => !e.1) = ls.length ∧
      picks.countP (fun e => e.1) = pend.length + ints.length - 1 ∧
      (∀ s, (picks.drop s).countP (fun e => !e.1) ≤ (picks.drop s).countP (fun e => e.1) + 1) := by
  intro m
  induction m with
  | zero =>
    intro ls pend hls hp hpne hlen hpos hsmall
    have hls0 : ls = [] := by
      match pend, hpne with
      | q :: pend', _ =>
        have : ls.length = 0 := by simp at hlen; omega
        exact List.length_eq_zero.mp this
    subst hls0
    match pend, hpne with
    | [z], _ =>
      refine ⟨[], [], [z], z, rfl, trivial, by simpa using hp, by simp, rfl, by simp, by simp,
        by simp, by simp, by simp, by simp, by intro s; simp⟩
    | q₁ :: q₂ :: pend', _ => simp at hlen
  | succ m ih =>
    intro ls pend hls hp hpne hlen hpos hsmall
    obtain ⟨x, ls1, p1, sx, hx, hlen1⟩ := nextNode_total cmpN ls pend (by omega)
    obtain ⟨y, ls2, p2, sy, hy, hlen2⟩ := nextNode_total cmpN ls1 p1 (by omega)
    obtain ⟨hminx, herasex, hsls1, hsp1, hcase01, hcase11, hlen1'⟩ :=
      nextNode_min ls pend hls hp x ls1 p1 sx hx
    obtain ⟨hminy, herasey, hsls2, hsp2, hcase02, hcase12, hlen2'⟩ :=
      nextNode_min ls1 p1 hsls1 hsp1 y ls2 p2 sy hy
    have hbs : buildStep ls pend = some (x, y, ls2, p2) := by
      simp only [buildStep, hx, hy]
    set z := opN x y with hz
    have hz1 : z.1 = x.1 + y.1 := rfl
    have hxmem : x ∈ ls ++ pend := hminx.1
    have hymem0 : y ∈ ls1 ++ p1 := hminy.1
    have hymem : y ∈ ls ++ pend := by
      have h6 : y ∈ (ls ++ pend).erase x := herasex ▸ hymem0
      exact List.mem_of_mem_erase h6
    have hxy : x.1 ≤ y.1 := hminx.2 y hymem
    have hmem1 := nextNode_mem cmpN ls pend x ls1 p1 sx hx
    have hmem2 := nextNode_mem cmpN ls1 p1 y ls2 p2 sy hy
    have hls2sub : ∀ p ∈ ls2, p ∈ ls := fun p hq => hmem1.2.1 p (hmem2.2.1 p hq)
    have hp2sub : ∀ p ∈ p2, p ∈ pend := fun p hq => hmem1.2.2 p (hmem2.2.2 p hq)
    have hxpos : 1 ≤ x.1 := hpos x hxmem
    have hzpos : 1 ≤ z.1 := by omega
    have hp2small : ∀ p ∈ p2, p.1 ≤ z.1 := by
      intro p hq
      have := hsmall p (hp2sub p hq) x y ls2 p2 hbs
      omega
    have hsortedpend' : (p2 ++ [z]).Sorted (fun u v => u.1 ≤ v.1) := by
      refine List.pairwise_append.mpr ⟨hsp2, by simp, ?_⟩
      intro a ha b hb
      simp only [List.mem_singleton] at hb
      subst hb
      exact hp2small a ha
    have hlen' : ls2.length + (p2 ++ [z]).length = m + 1 := by
      simp only [List.length_append, List.length_singleton]
      omega
    have hpos' : ∀ p ∈ ls2 ++ (p2 ++ [z]), 1 ≤ p.1 := by
      intro p hq
      rcases List.mem_append.mp hq with hq | hq
      · exact hpos p (List.mem_append_left _ (hls2sub p hq))
      · rcases List.mem_append.mp hq with hq | hq
        · exact hpos p (List.mem_append_right _ (hp2sub p hq))
        · simp only [List.mem_singleton] at hq
          subst hq
          exact hzpos
    have hymin2 : ∀ a ∈ ls2 ++ p2, y.1 ≤ a.1 := by
      intro a ha
      have h6 : a ∈ (ls1 ++ p1).erase y := herasey ▸ ha
      exact hminy.2 a (List.mem_of_mem_erase h6)
    have havail : ∀ a ∈ ls2 ++ (p2 ++ [z]), y.1 ≤ a.1 := by
      intro a ha
      rcases List.mem_append.mp ha with ha | ha
      · exact hymin2 a (List.mem_append_left _ ha)
      · rcases List.mem_append.mp ha with ha | ha
        · exact hymin2 a (List.mem_append_right _ ha)
        · simp only [List.mem_singleton] at ha
          subst ha
          omega
    have hsmall' : ∀ p ∈ p2 ++ [z], ∀ x' y' l' p',
        buildStep ls2 (p2 ++ [z]) = some (x', y', l', p') → p.1 ≤ x'.1 + y'.1 := by
      intro p hq x' y' l' p' hbs'
      simp only [buildStep] at hbs'
      rcases hx' : nextNode cmpN ls2 (p2 ++ [z]) with _ | ⟨x1, ls1', p1', sx'⟩
      · simp only [hx'] at hbs'
        exact Option.noConfusion hbs'
      simp only [hx'] at hbs'
      rcases hy' : nextNode cmpN ls1' p1' with _ | ⟨y1, ls2', p2', sy'⟩
      · simp only [hy'] at hbs'
        exact Option.noConfusion hbs'
      simp only [hy'] at hbs'
      simp only [Option.some.injEq, Prod.mk.injEq] at hbs'
      obtain ⟨rfl, rfl, rfl, rfl⟩ := hbs'
      obtain ⟨hminx', _, _, _, _, _, _⟩ :=
        nextNode_min ls2 (p2 ++ [z]) hsls2 hsortedpend' _ _ _ _ hx'
      have hmem1' := nextNode_mem cmpN ls2 (p2 ++ [z]) _ _ _ _ hx'
      have hmem2' := nextNode_mem cmpN ls1' p1' _ _ _ _ hy'
      have hyx' : y.1 ≤ x1.1 := havail x1 hminx'.1
      have hyy' : y.1 ≤ y1.1 := by
        rcases hmem2'.1 with hm | hm
        · exact havail y1 (List.mem_append_left _ (hmem1'.2.1 y1 hm))
        · exact havail y1 (List.mem_append_right _ (hmem1'.2.2 y1 hm))
      rcases List.mem_append.mp hq with hq | hq
      · have := hsmall p (hp2sub p hq) x y ls2 p2 hbs
        omega
      · simp only [List.mem_singleton] at hq
        subst hq
        omega
    obtain ⟨ints₂, picks₂, pendE, zE, hrec, hts₂, hsorted₂, hmerge₂, hpE, hlast₂, hsum₂,
      hqpos₂, hil₂, hcf₂, hct₂, hdens₂⟩ :=
      ih ls2 (p2 ++ [z]) hsls2 hsortedpend' (by simp) hlen' hpos' hsmall'
    have hxlen : (sx = false ∧ ls.length = ls1.length + 1 ∧ p1 = pend) ∨
        (sx = true ∧ pend.length = p1.length + 1 ∧ ls1 = ls) := by
      rcases nextNode_cases cmpN ls pend x ls1 p1 sx hx with ⟨h1, h2, h3⟩ | ⟨h1, h2, h3⟩
      · exact Or.inl ⟨h1, by rw [h2]; simp, h3⟩
      · exact Or.inr ⟨h1, by rw [h2]; simp, h3⟩
    have hylen : (sy = false ∧ ls1.length = ls2.length + 1 ∧ p2 = p1) ∨
        (sy = true ∧ p1.length = p2.length + 1 ∧ ls2 = ls1) := by
      rcases nextNode_cases cmpN ls1 p1 y ls2 p2 sy hy with ⟨h1, h2, h3⟩ | ⟨h1, h2, h3⟩
      · exact Or.inl ⟨h1, by rw [h2]; simp, h3⟩
      · exact Or.inr ⟨h1, by rw [h2]; simp, h3⟩
    have hpendlen : 1 ≤ pend.length := List.length_pos.mpr hpne
    have hz_ints_sorted : (z :: ints₂).Sorted (fun u v => u.1 ≤ v.1) := by
      have hsub : List.Sublist (z :: ints₂) ((p2 ++ [z]) ++ ints₂) := by
        have he : (p2 ++ [z]) ++ ints₂ = p2 ++ (z :: ints₂) := by simp
        rw [he]
        exact (List.suffix_append p2 (z :: ints₂)).sublist
      exact hsorted₂.sublist hsub
    have hcf : ((sx, x) :: (sy, y) :: picks₂).countP (fun e => !e.1) = ls.length := by
      rcases hxlen with ⟨h1, h2, h3⟩ | ⟨h1, h2, h3⟩ <;>
        rcases hylen with ⟨h4, h5, h6⟩ | ⟨h4, h5, h6⟩ <;>
        subst h1 <;> subst h4 <;>
        have h3l := congrArg List.length h3 <;>
        have h6l := congrArg List.length h6 <;>
        simp [List.countP_cons, hcf₂] <;> omega
    have hct : ((sx, x) :: (sy, y) :: picks₂).countP (fun e => e.1) =
        pend.length + (z :: ints₂).length - 1 := by
      have hct₂l : picks₂.countP (fun e => e.1) = p2.length + 1 + ints₂.length - 1 := by
        rw [hct₂]
        simp
      rcases hxlen with ⟨h1, h2, h3⟩ | ⟨h1, h2, h3⟩ <;>
        rcases hylen with ⟨h4, h5, h6⟩ | ⟨h4, h5, h6⟩ <;>
        subst h1 <;> subst h4 <;>
        have h3l := congrArg List.length h3 <;>
        have h6l := congrArg List.length h6 <;>
        simp [List.countP_cons, hct₂l] <;> omega
    refine ⟨z :: ints₂, (sx, x) :: (sy, y) :: picks₂, pendE, zE,
      ?_, ?_, ?_, ?_, hpE, ?_, ?_, ?_, ?_, hcf, hct, ?_⟩
    · simp only [buildLoopP, hx, hy, hrec]
    · exact ⟨x, y, ls2, p2, hbs, rfl, hminx, by rw [herasex]; exact hminy, hts₂⟩
    · refine List.pairwise_append.mpr ⟨hp, hz_ints_sorted, ?_⟩
      intro a ha b hb
      have haz : a.1 ≤ z.1 := by
        have := hsmall a ha x y ls2 p2 hbs
        omega
      exact le_trans haz (sorted_head_min z ints₂ hz_ints_sorted b hb)
    · have hs1 : mergeTag cmpN ls (pend ++ (z :: ints₂)) =
          (sx, x) :: mergeTag cmpN ls1 (p1 ++ (z :: ints₂)) := by
        refine merge_step_next ls pend _ x ls1 p1 sx hx ?_
        intro f hf
        simp only [List.head?_cons, Option.mem_some_iff] at hf
        subst hf
        omega
      have hs2 : mergeTag cmpN ls1 (p1 ++ (z :: ints₂)) =
          (sy, y) :: mergeTag cmpN ls2 (p2 ++ (z :: ints₂)) := by
        refine merge_step_next ls1 p1 _ y ls2 p2 sy hy ?_
        intro f hf
        simp only [List.head?_cons, Option.mem_some_iff] at hf
        subst hf
        omega
      rw [hs1, hs2]
      have he : p2 ++ (z :: ints₂) = (p2 ++ [z]) ++ ints₂ := by simp
      rw [he, hmerge₂]
      rfl
    · rw [getLast_append_cons]
      have he : (p2 ++ [z]) ++ ints₂ = p2 ++ (z :: ints₂) := by simp
      rw [he, getLast_append_cons] at hlast₂
      exact hlast₂
    · have hperm1 : (ls ++ pend).Perm (x :: (ls ++ pend).erase x) := by
        rw [erase_beq_eq]
        exact List.perm_cons_erase hxmem
      have hperm2 : ((ls ++ pend).erase x).Perm (y :: ((ls ++ pend).erase x).erase y) := by
        rw [erase_beq_eq ((ls ++ pend).erase x) y]
        refine List.perm_cons_erase ?_
        rw [herasex]
        exact hymem0
      have h1 := (hperm1.map Prod.fst).sum_eq
      have h2 := (hperm2.map Prod.fst).sum_eq
      rw [herasex] at h1
      rw [herasex, herasey] at h2
      simp only [List.map_cons, List.sum_cons] at h1 h2
      rw [← hsum₂]
      have he : ls2 ++ (p2 ++ [z]) = (ls2 ++ p2) ++ [z] := by simp
      rw [he]
      simp only [List.map_append, List.sum_append, List.map_cons, List.map_nil, List.sum_cons,
        List.sum_nil] at *
      omega
    · intro q hq
      rcases List.mem_cons.mp hq with hq | hq
      · subst hq
        exact hzpos
      · exact hqpos₂ q hq
    · simp [hil₂]
    · intro s
      match s with
      | 0 =>
        simp only [List.drop_zero]
        rw [hcf, hct]
        simp only [List.length_cons, hil₂]
        omega
      | 1 =>
        have hct₂l : picks₂.countP (fun e => e.1) = p2.length + 1 + ints₂.length - 1 := by
          rw [hct₂]
          simp
        simp only [List.drop_succ_cons, List.drop_zero]
        rcases hylen with ⟨h4, h5, h6⟩ | ⟨h4, h5, h6⟩ <;> subst h4 <;>
          have h6l := congrArg List.length h6 <;>
          simp [List.countP_cons, hcf₂, hct₂l] <;> omega
      | Nat.succ (Nat.succ t) =>
        simpa using hdens₂ t

end Huff

namespace Huff

theorem buildLoopP_fst : ∀ (m : Nat) (ls pend : List Node),
    buildLoop m ls pend = (buildLoopP m ls pend).map (fun r => r.1) := by
  intro m
  induction m with
  | zero => intro ls pend; rfl
  | succ m ih =>
    intro ls pend
    cases h1 : nextNode cmpN ls pend with
    | none => simp [buildLoop, buildLoopP, buildStep, h1]
    | some v =>
      obtain ⟨x, ls1, p1, sx⟩ := v
      cases h2 : nextNode cmpN ls1 p1 with
      | none => simp [buildLoop, buildLoopP, buildStep, h1, h2]
      | some w =>
        obtain ⟨y, ls2, p2, sy⟩ := w
        simp only [buildLoop, buildLoopP, buildStep, h1, h2]
        rw [ih ls2 (p2 ++ [opN x y])]
        cases h3 : buildLoopP m ls2 (p2 ++ [opN x y]) with
        | none => simp [h3]
        | some r =>
          obtain ⟨ints, picks, lsE, pendE⟩ := r
          simp [h3]

/-- C3: for every weight-sorted leaf sequence of length `k ≥ 2` (with positive
weights, as frequency counts always are), `build_huffman_array` succeeds and
produces the array `nodes ++ ints` of length `2k - 1`: positions `[0, k)` are
the original sorted leaves, positions `[k, 2k-1)` are the internal nodes in
creation order, each internal node combining (via `opN`) the two weight-minimal
not-yet-consumed nodes at its creation time (`TwoSmallestRun`), and the final
element is the root whose weight is the sum of all leaf weights. -/
theorem build_huffman_array_invariants (nodes : List Node)
    (hsort : nodes.Sorted (fun u v => u.1 ≤ v.1))
    (hlen : 2 ≤ nodes.length)
    (hpos : ∀ p ∈ nodes, 1 ≤ p.1) :
    ∃ ints root,
      build_huffman_array nodes = some (nodes ++ ints) ∧
      (nodes ++ ints).length = 2 * nodes.length - 1 ∧
      (nodes ++ ints).take nodes.length = nodes ∧
      TwoSmallestRun nodes [] ints ∧
      (nodes ++ ints).getLast? = some root ∧
      root.1 = (nodes.map Prod.fst).sum := by
  match nodes, hlen with
  | a :: b :: rest, _ =>
    have hab : a.1 ≤ b.1 := (List.pairwise_cons.mp hsort).1 b (by simp)
    have hsort1 : (b :: rest).Sorted (fun u v => u.1 ≤ v.1) := (List.pairwise_cons.mp hsort).2
    have hrest : rest.Sorted (fun u v => u.1 ≤ v.1) := (List.pairwise_cons.mp hsort1).2
    have hbrest : ∀ r ∈ rest, b.1 ≤ r.1 := (List.pairwise_cons.mp hsort1).1
    have hapos : 1 ≤ a.1 := hpos a (by simp)
    have hpos' : ∀ p ∈ rest ++ [opN a b], 1 ≤ p.1 := by
      intro p hp
      rcases List.mem_append.mp hp with hp | hp
      · exact hpos p (by simp [hp])
      · have he : p = opN a b := by simpa using hp
        subst he
        simp only [opN]
        omega
    have hsmall : ∀ p ∈ [opN a b], ∀ x y ls2 p2,
        buildStep rest [opN a b] = some (x, y, ls2, p2) → p.1 ≤ x.1 + y.1 := by
      intro p hp x y ls2 p2 hbs
      have hpe : p = opN a b := by simpa using hp
      subst hpe
      simp only [buildStep] at hbs
      cases h1 : nextNode cmpN rest [opN a b] with
      | none => simp [h1] at hbs
      | some v =>
        obtain ⟨x0, ls1, p1, sx⟩ := v
        simp only [h1] at hbs
        cases h2 : nextNode cmpN ls1 p1 with
        | none => simp [h2] at hbs
        | some w =>
          obtain ⟨y0, ls2', p2', sy⟩ := w
          simp only [h2, Option.some.injEq, Prod.mk.injEq] at hbs
          obtain ⟨rfl, rfl, rfl, rfl⟩ := hbs
          have hm1 := nextNode_min rest [opN a b] hrest (by simp) x0 ls1 p1 sx h1
          obtain ⟨hminx, herasex, hls1, hp1, _, _, _⟩ := hm1
          have hm2 := nextNode_min ls1 p1 hls1 hp1 y0 ls2' p2' sy h2
          obtain ⟨hminy, _⟩ := hm2
          have hymem : y0 ∈ rest ++ [opN a b] := by
            have h9 : y0 ∈ (rest ++ [opN a b]).erase x0 := by
              rw [herasex]
              exact hminy.1
            exact List.mem_of_mem_erase h9
          rcases List.mem_append.mp hminx.1 with hx | hx
          · have hxb : b.1 ≤ x0.1 := hbrest x0 hx
            rcases List.mem_append.mp hymem with hy | hy
            · have hyb : b.1 ≤ y0.1 := hbrest y0 hy
              simp only [opN]
              omega
            · have hye : y0 = opN a b := by simpa using hy
              subst hye
              simp only [opN]
              omega
          · have hxe : x0 = opN a b := by simpa using hx
            subst hxe
            simp only [opN]
            omega
    obtain ⟨ints₀, picks, pendE, z, hbl, hrun, hsorted, hmerge, hpE, hlast, hsum,
        hqpos, hilen, hc0, hc1, hdens⟩ :=
      buildLoopP_main rest.length rest [opN a b] hrest (by simp) (by simp)
        (by simp) hpos' hsmall
    have hloop : buildLoop rest.length rest [opN a b] = some ints₀ := by
      rw [buildLoopP_fst, hbl]
      rfl
    refine ⟨opN a b :: ints₀, z, ?_, ?_, ?_, ?_, ?_, ?_⟩
    · simp only [build_huffman_array, hloop]
    · simp only [List.length_append, List.length_cons]
      omega
    · exact List.take_left _ _
    · refine ⟨a, b, rest, [], ?_, rfl, ?_, ?_, ?_⟩
      · rfl
      · rw [List.append_nil]
        exact ⟨by simp, sorted_head_min a (b :: rest) hsort⟩
      · rw [List.append_nil]
        have he : (a :: b :: rest).erase a = b :: rest := List.erase_cons_head a (b :: rest)
        rw [he]
        exact ⟨by simp, sorted_head_min b rest hsort1⟩
      · simpa using hrun
    · rw [getLast_append_cons]
      have he : ([opN a b] ++ ints₀ : List Node) = opN a b :: ints₀ := by simp
      rw [he] at hlast
      exact hlast
    · simp only [List.map_append, List.sum_append, List.map_cons, List.map_nil,
        List.sum_cons, List.sum_nil, opN] at hsum ⊢
      omega

theorem build_huffman_array_invariants_witness :
    (([(1, 97), (2, 98), (4, 99)] : List Node).Sorted (fun u v => u.1 ≤ v.1) ∧
      2 ≤ ([(1, 97), (2, 98), (4, 99)] : List Node).length ∧
      ∀ p ∈ ([(1, 97), (2, 98), (4, 99)] : List Node), 1 ≤ p.1) ∧
    (∃ ints root,
      build_huffman_array [(1, 97), (2, 98), (4, 99)] =
        some ([(1, 97), (2, 98), (4, 99)] ++ ints) ∧
      (([(1, 97), (2, 98), (4, 99)] : List Node) ++ ints).length =
        2 * ([(1, 97), (2, 98), (4, 99)] : List Node).length - 1 ∧
      (([(1, 97), (2, 98), (4, 99)] : List Node) ++ ints).take
        ([(1, 97), (2, 98), (4, 99)] : List Node).length = [(1, 97), (2, 98), (4, 99)] ∧
      TwoSmallestRun [(1, 97), (2, 98), (4, 99)] [] ints ∧
      (([(1, 97), (2, 98), (4, 99)] : List Node) ++ ints).getLast? = some root ∧
      root.1 = (([(1, 97), (2, 98), (4, 99)] : List Node).map Prod.fst).sum) :=
  ⟨⟨by decide, by decide, by decide⟩,
    build_huffman_array_invariants [(1, 97), (2, 98), (4, 99)]
      (by decide) (by decide) (by decide)⟩

end Huff

namespace Huff

theorem toBitsW_succ (w x : Nat) :
    toBitsW (w + 1) x = (if x / 2 ^ w % 2 = 1 then c1 else c0) :: toBitsW w x := by
  simp only [toBitsW, List.range_succ_eq_map, List.map_cons, List.map_map]
  rw [show w + 1 - 1 - 0 = w by omega]
  congr 1
  apply List.map_congr_left
  intro i hi
  have he : w - (i + 1) = w - 1 - i := by omega
  simp [Function.comp, he]

theorem bitsVal_cons1 (rest : List Byte) :
    bitsVal (c1 :: rest) = (fun v => 2 ^ rest.length + v) <$> bitsVal rest := rfl

theorem bitsVal_cons0 (rest : List Byte) : bitsVal (c0 :: rest) = bitsVal rest := rfl

theorem stoi2Go_cons1 (rest : List Byte) (acc cnt : Nat) :
    stoi2Go (c1 :: rest) acc cnt = stoi2Go rest (2 * acc + 1) (cnt + 1) := rfl

theorem stoi2Go_cons0 (rest : List Byte) (acc cnt : Nat) :
    stoi2Go (c0 :: rest) acc cnt = stoi2Go rest (2 * acc) (cnt + 1) := rfl

theorem bitsVal_toBitsW : ∀ (w x : Nat), bitsVal (toBitsW w x) = some (x % 2 ^ w) := by
  intro w
  induction w with
  | zero => intro x; simp [toBitsW, bitsVal, Nat.mod_one]
  | succ w ih =>
    intro x
    rw [toBitsW_succ]
    have hlen : (toBitsW w x).length = w := toBitsW_length w x
    have hsplit : x % 2 ^ (w + 1) = x % 2 ^ w + 2 ^ w * (x / 2 ^ w % 2) :=
      Nat.mod_pow_succ
    by_cases h : x / 2 ^ w % 2 = 1
    · rw [if_pos h, bitsVal_cons1, ih x, hlen]
      simp only [Option.map_eq_map, Option.map_some, Option.some.injEq]
      rw [hsplit, h]
      omega
    · have h0 : x / 2 ^ w % 2 = 0 := by omega
      rw [if_neg h, bitsVal_cons0, ih x]
      rw [hsplit, h0]
      simp

theorem stoi2Go_bits : ∀ (bs : List Byte) (v : Nat), bitsVal bs = some v →
    ∀ (acc cnt : Nat), stoi2Go bs acc cnt = (acc * 2 ^ bs.length + v, cnt + bs.length) := by
  intro bs
  induction bs with
  | nil =>
    intro v hv acc cnt
    simp only [bitsVal, Option.some.injEq] at hv
    simp [stoi2Go, ← hv]
  | cons b rest ih =>
    intro v hv acc cnt
    by_cases h1 : b = c1
    · subst h1
      rw [bitsVal_cons1] at hv
      cases hrest : bitsVal rest with
      | none => rw [hrest] at hv; exact Option.noConfusion hv
      | some v0 =>
        rw [hrest] at hv
        simp only [Option.map_eq_map, Option.map_some, Option.some.injEq] at hv
        rw [stoi2Go_cons1, ih v0 hrest]
        simp only [Prod.mk.injEq, List.length_cons]
        constructor
        · rw [← hv, Nat.pow_succ]
          ring
        · omega
    · by_cases h0 : b = c0
      · subst h0
        rw [bitsVal_cons0] at hv
        rw [stoi2Go_cons0, ih v hv]
        simp only [Prod.mk.injEq, List.length_cons]
        constructor
        · rw [Nat.pow_succ]
          ring
        · omega
      · simp only [bitsVal, if_neg h1, if_neg h0] at hv
        exact Option.noConfusion hv

theorem stoi2_bits (bs : List Byte) (v : Nat) (hne : bs ≠ []) (hv : bitsVal bs = some v) :
    stoi2 bs = some v := by
  rw [stoi2, stoi2Go_bits bs v hv 0 0]
  match bs, hne with
  | b :: rest, _ =>
    simp

theorem ofBits8_toBits8 (c : Byte) : ofBits8 (toBits8 c) = some c := by
  have h1 : bitsVal (toBits8 c) = some c.val := by
    rw [toBits8, bitsVal_toBitsW]
    congr 1
    exact Nat.mod_eq_of_lt c.isLt
  have h2 : stoi2 (toBits8 c) = some c.val := by
    refine stoi2_bits _ _ ?_ h1
    have h3 := toBits8_length c
    intro hc
    rw [hc] at h3
    simp at h3
  rw [ofBits8, h2]
  simp only [Option.map_eq_map, Option.map_some, Option.some.injEq]
  exact Fin.ext (Nat.mod_eq_of_lt c.isLt)

theorem headerLoop_eq_renderTag (f0 f1 : List Node) :
    headerLoop f0 f1 = renderTag (mergeTag cmpN f0 f1) := by
  induction f0, f1 using headerLoop.induct with
  | case1 => simp [headerLoop, mergeTag, renderTag]
  | case2 x t0 ih => simp only [headerLoop, mergeTag, renderTag, ih]
  | case3 y t1 ih => simp only [headerLoop, mergeTag, renderTag, ih]
  | case4 x t0 y t1 h ih =>
    simp only [headerLoop, mergeTag_cons_cons, h, if_true, renderTag, ih]
  | case5 x t0 y t1 h ih =>
    simp only [headerLoop, mergeTag_cons_cons, h, Bool.false_eq_true, if_false,
      renderTag, ih]

theorem mergeTag_count_false {α : Type} (cmp : α → α → Bool) (f0 f1 : List α) :
    (mergeTag cmp f0 f1).countP (fun e => ! e.1) = f0.length := by
  have h1 := mergeTag_filterMap_false cmp f0 f1
  have h2 : ∀ (L : List (Bool × α)),
      (L.filterMap (fun e => if e.1 then none else some e.2)).length =
        L.countP (fun e => ! e.1) := by
    intro L
    induction L with
    | nil => rfl
    | cons e L ih =>
      cases he : e.1 <;>
        simp [List.filterMap_cons, List.countP_cons, he, ih]
  rw [← h2, h1]

theorem mergeTag_count_true {α : Type} (cmp : α → α → Bool) (f0 f1 : List α) :
    (mergeTag cmp f0 f1).countP (fun e => e.1) = f1.length := by
  have h1 := mergeTag_filterMap_true cmp f0 f1
  have h2 : ∀ (L : List (Bool × α)),
      (L.filterMap (fun e => if e.1 then some e.2 else none)).length =
        L.countP (fun e => e.1) := by
    intro L
    induction L with
    | nil => rfl
    | cons e L ih =>
      cases he : e.1 <;>
        simp [List.filterMap_cons, List.countP_cons, he, ih]
  rw [← h2, h1]

end Huff

namespace Huff

theorem set_take_succ {γ : Type} (l : List γ) (n : Nat) (v : γ) (h : n < l.length) :
    (l.set n v).take (n + 1) = l.take n ++ [v] := by
  rw [List.take_succ, List.set_take]
  have h1 : (l.take n).set n v = l.take n :=
    List.set_eq_of_length_le (by rw [List.length_take]; omega)
  have h2 : (l.set n v)[n]? = some v := List.getElem?_set_self h
  rw [h1, h2]
  rfl

theorem readNodesGo_render : ∀ (T : List (Bool × Node)) (rest : List Byte)
    (ln ind i : Nat) (nodes : List (Nat × Byte)),
    ln + T.countP (fun e => ! e.1) ≤ nodes.length →
    ind + T.countP (fun e => e.1) ≤ nodes.length →
    readNodesGo T.length (renderTag T ++ rest) ln ind i nodes =
      some (placeTags T ln ind i nodes, rest) := by
  intro T
  induction T with
  | nil =>
    intro rest ln ind i nodes h0 h1
    simp [readNodesGo, renderTag, placeTags]
  | cons e T ih =>
    intro rest ln ind i nodes h0 h1
    obtain ⟨tag, nd⟩ := e
    cases tag with
    | false =>
      have hcF : ((false, nd) :: T).countP (fun e => ! e.1) =
          T.countP (fun e => ! e.1) + 1 := by simp [List.countP_cons]
      have hcT : ((false, nd) :: T).countP (fun e => e.1) =
          T.countP (fun e => e.1) := by simp [List.countP_cons]
      rw [hcF] at h0
      rw [hcT] at h1
      have hln : ln < nodes.length := by omega
      have hrender : renderTag ((false, nd) :: T) ++ rest =
          c1 :: (toBits8 nd.2 ++ (renderTag T ++ rest)) := by
        simp [renderTag, List.append_assoc]
      rw [hrender, List.length_cons, readNodesGo]
      rw [if_pos rfl]
      have hlen8 : (toBits8 nd.2).length = 8 := toBits8_length nd.2
      have hge : 8 ≤ (toBits8 nd.2 ++ (renderTag T ++ rest)).length := by
        simp [hlen8]
      rw [if_pos hge]
      have htake : (toBits8 nd.2 ++ (renderTag T ++ rest)).take 8 = toBits8 nd.2 :=
        List.take_left' hlen8
      have hdrop : (toBits8 nd.2 ++ (renderTag T ++ rest)).drop 8 = renderTag T ++ rest :=
        List.drop_left' hlen8
      simp only [htake, ofBits8_toBits8, hdrop]
      rw [if_pos hln]
      rw [ih rest (ln + 1) ind (i + 1) (nodes.set ln (i, nd.2))
        (by rw [List.length_set]; omega) (by rw [List.length_set]; omega)]
      rfl
    | true =>
      have hcF : ((true, nd) :: T).countP (fun e => ! e.1) =
          T.countP (fun e => ! e.1) := by simp [List.countP_cons]
      have hcT : ((true, nd) :: T).countP (fun e => e.1) =
          T.countP (fun e => e.1) + 1 := by simp [List.countP_cons]
      rw [hcF] at h0
      rw [hcT] at h1
      have hind : ind < nodes.length := by omega
      have hrender : renderTag ((true, nd) :: T) ++ rest =
          c0 :: (renderTag T ++ rest) := by
        simp [renderTag]
      rw [hrender, List.length_cons, readNodesGo]
      rw [if_neg (show ¬ ((c0 : Byte) = c1) by decide), if_pos hind]
      rw [ih rest ln (ind + 1) (i + 1) (nodes.set ind (i, (0 : Byte)))
        (by rw [List.length_set]; omega) (by rw [List.length_set]; omega)]
      rfl

theorem placeTags_eq : ∀ (T : List (Bool × Node)) (ln ind i : Nat)
    (nodes : List (Nat × Byte)),
    ln + T.countP (fun e => ! e.1) ≤ ind →
    ind + T.countP (fun e => e.1) ≤ nodes.length →
    placeTags T ln ind i nodes =
      nodes.take ln ++ leafVals T i ++
        (nodes.drop (ln + T.countP (fun e => ! e.1))).take
          (ind - (ln + T.countP (fun e => ! e.1))) ++
        intVals T i ++ nodes.drop (ind + T.countP (fun e => e.1)) := by
  intro T
  induction T with
  | nil =>
    intro ln ind i nodes h0 h1
    simp only [placeTags, leafVals, intVals, List.countP_nil, Nat.add_zero]
    rw [List.take_drop]
    have he : ln + (ind - ln) = ind := by omega
    rw [he]
    have h3 : nodes.take ln = (nodes.take ind).take ln := by
      rw [List.take_take]
      congr 1
      omega
    rw [h3]
    simp only [List.append_nil]
    rw [List.take_append_drop, List.take_append_drop]
  | cons e T ih =>
    intro ln ind i nodes h0 h1
    obtain ⟨tag, nd⟩ := e
    cases tag with
    | false =>
      have hcF : ((false, nd) :: T).countP (fun e => ! e.1) =
          T.countP (fun e => ! e.1) + 1 := by simp [List.countP_cons]
      have hcT : ((false, nd) :: T).countP (fun e => e.1) =
          T.countP (fun e => e.1) := by simp [List.countP_cons]
      rw [hcF] at h0 ⊢
      rw [hcT] at h1 ⊢
      have hln : ln < nodes.length := by omega
      rw [placeTags]
      rw [ih (ln + 1) ind (i + 1) (nodes.set ln (i, nd.2))
        (by omega) (by rw [List.length_set]; omega)]
      have ha : (nodes.set ln (i, nd.2)).take (ln + 1) = nodes.take ln ++ [(i, nd.2)] :=
        set_take_succ nodes ln (i, nd.2) hln
      have hb : (nodes.set ln (i, nd.2)).drop (ln + 1 + T.countP (fun e => ! e.1)) =
          nodes.drop (ln + 1 + T.countP (fun e => ! e.1)) := by
        rw [List.drop_set, if_pos (by omega)]
      have hc : (nodes.set ln (i, nd.2)).drop (ind + T.countP (fun e => e.1)) =
          nodes.drop (ind + T.countP (fun e => e.1)) := by
        rw [List.drop_set, if_pos (by omega)]
      rw [ha, hb, hc]
      have he : ln + 1 + T.countP (fun e => ! e.1) =
          ln + (T.countP (fun e => ! e.1) + 1) := by omega
      rw [he]
      simp [leafVals, intVals, List.append_assoc]
    | true =>
      have hcF : ((true, nd) :: T).countP (fun e => ! e.1) =
          T.countP (fun e => ! e.1) := by simp [List.countP_cons]
      have hcT : ((true, nd) :: T).countP (fun e => e.1) =
          T.countP (fun e => e.1) + 1 := by simp [List.countP_cons]
      rw [hcF] at h0 ⊢
      rw [hcT] at h1 ⊢
      have hind : ind < nodes.length := by omega
      rw [placeTags]
      rw [ih ln (ind + 1) (i + 1) (nodes.set ind (i, (0 : Byte)))
        (by omega) (by rw [List.length_set]; omega)]
      have ha : (nodes.set ind (i, (0 : Byte))).take ln = nodes.take ln := by
        rw [List.set_take]
        exact List.set_eq_of_length_le (by simp [List.length_take]; omega)
      have hdropset : (nodes.set ind (i, (0 : Byte))).drop
          (ln + T.countP (fun e => ! e.1)) =
          (nodes.drop (ln + T.countP (fun e => ! e.1))).set
            (ind - (ln + T.countP (fun e => ! e.1))) (i, (0 : Byte)) := by
        rw [List.drop_set, if_neg (by omega)]
      have hb : ((nodes.set ind (i, (0 : Byte))).drop
            (ln + T.countP (fun e => ! e.1))).take
            (ind + 1 - (ln + T.countP (fun e => ! e.1))) =
          (nodes.drop (ln + T.countP (fun e => ! e.1))).take
            (ind - (ln + T.countP (fun e => ! e.1))) ++ [(i, (0 : Byte))] := by
        rw [hdropset]
        have hm : ind + 1 - (ln + T.countP (fun e => ! e.1)) =
            (ind - (ln + T.countP (fun e => ! e.1))) + 1 := by omega
        rw [hm]
        refine set_take_succ _ _ _ ?_
        simp only [List.length_drop]
        omega
      have hc : (nodes.set ind (i, (0 : Byte))).drop
          (ind + 1 + T.countP (fun e => e.1)) =
          nodes.drop (ind + (T.countP (fun e => e.1) + 1)) := by
        rw [List.drop_set, if_pos (by omega)]
        congr 1
        omega
      rw [ha, hb, hc]
      simp [leafVals, intVals, List.append_assoc]

end Huff

namespace Huff

theorem leafVals_length : ∀ (T : List (Bool × Node)) (i : Nat),
    (leafVals T i).length = T.countP (fun e => ! e.1) := by
  intro T
  induction T with
  | nil => intro i; rfl
  | cons e T ih =>
    intro i
    obtain ⟨tag, nd⟩ := e
    cases tag <;> simp [leafVals, List.countP_cons, ih]

theorem intVals_length : ∀ (T : List (Bool × Node)) (i : Nat),
    (intVals T i).length = T.countP (fun e => e.1) := by
  intro T
  induction T with
  | nil => intro i; rfl
  | cons e T ih =>
    intro i
    obtain ⟨tag, nd⟩ := e
    cases tag <;> simp [intVals, List.countP_cons, ih]

theorem read_header_eq (arr : List Node) (rest : List Byte) (k : Nat)
    (hk : 2 ≤ k) (hk2 : k ≤ 256) (hlen : arr.length = 2 * k - 1) :
    read_header (header arr ++ rest) =
      some (leafVals (mergeTag cmpN (arr.take k) (arr.drop k)) 0 ++
        intVals (mergeTag cmpN (arr.take k) (arr.drop k)) 0, rest) := by
  have hcursor : arr.length / 2 + 1 = k := by omega
  have hTlen : (mergeTag cmpN (arr.take k) (arr.drop k)).length = arr.length := by
    rw [mergeTag_length, List.length_take, List.length_drop]
    omega
  have hcF : (mergeTag cmpN (arr.take k) (arr.drop k)).countP (fun e => ! e.1) = k := by
    rw [mergeTag_count_false, List.length_take]
    omega
  have hcT : (mergeTag cmpN (arr.take k) (arr.drop k)).countP (fun e => e.1) =
      arr.length - k := by
    rw [mergeTag_count_true, List.length_drop]
  have hhdr : header arr ++ rest =
      toBitsW 16 arr.length ++
        (renderTag (mergeTag cmpN (arr.take k) (arr.drop k)) ++ rest) := by
    rw [header, hcursor, headerLoop_eq_renderTag, List.append_assoc]
  rw [hhdr, read_header]
  have h16 : (toBitsW 16 arr.length).length = 16 := toBitsW_length 16 arr.length
  rw [if_neg (by simp [h16])]
  have htake : (toBitsW 16 arr.length ++
      (renderTag (mergeTag cmpN (arr.take k) (arr.drop k)) ++ rest)).take 16 =
      toBitsW 16 arr.length := List.take_left' h16
  have hdrop : (toBitsW 16 arr.length ++
      (renderTag (mergeTag cmpN (arr.take k) (arr.drop k)) ++ rest)).drop 16 =
      renderTag (mergeTag cmpN (arr.take k) (arr.drop k)) ++ rest := List.drop_left' h16
  have hbits : bitsVal (toBitsW 16 arr.length) = some arr.length := by
    rw [bitsVal_toBitsW]
    congr 1
    apply Nat.mod_eq_of_lt
    calc arr.length = 2 * k - 1 := hlen
    _ < 2 ^ 16 := by omega
  simp only [htake, hbits, hdrop]
  have hcnt : arr.length = (mergeTag cmpN (arr.take k) (arr.drop k)).length := hTlen.symm
  rw [hcursor]
  nth_rewrite 1 [hcnt]
  rw [readNodesGo_render _ rest 0 k 0 _
    (by rw [hcF, List.length_replicate]; omega)
    (by rw [hcT, List.length_replicate]; omega)]
  rw [placeTags_eq _ 0 k 0 _ (by rw [hcF]; omega)
    (by rw [hcT, List.length_replicate]; omega)]
  rw [hcF, hcT]
  simp only [List.take_zero, List.nil_append, Nat.zero_add]
  have hz : k - k = 0 := by omega
  rw [hz]
  simp only [List.take_zero, List.append_nil]
  have hd : (List.replicate arr.length ((0 : Nat), (0 : Byte))).drop
      (k + (arr.length - k)) = [] := by
    apply List.drop_eq_nil_of_le
    rw [List.length_replicate]
    omega
  rw [hd]
  simp

end Huff

namespace Huff

theorem nextNode_none {α : Type} (cmp : α → α → Bool) (f0 f1 : List α)
    (h : nextNode cmp f0 f1 = none) : f0 = [] ∧ f1 = [] := by
  match f0, f1 with
  | [], [] => exact ⟨rfl, rfl⟩
  | x :: t0, [] => exact absurd h (by simp [nextNode])
  | [], y :: t1 => exact absurd h (by simp [nextNode])
  | x :: t0, y :: t1 =>
    exact absurd h (by by_cases hc : cmp y x <;> simp [nextNode, hc])

theorem mergeNN_next {α : Type} (cmp : α → α → Bool) (f0 f1 : List α)
    (x : α) (f0x f1x : List α) (s : Bool)
    (h : nextNode cmp f0 f1 = some (x, f0x, f1x, s)) :
    mergeNN cmp f0 f1 = x :: mergeNN cmp f0x f1x := by
  rw [mergeNN, mergeTag_next cmp f0 f1 x f0x f1x s h]
  rfl

theorem mergeNN_nil {α : Type} (cmp : α → α → Bool) : mergeNN cmp [] [] = [] := by
  rw [mergeNN, mergeTag_nil_left]
  rfl

theorem genLoop_eq_streamLoop {α : Type} (cmp : (Nat × α) → (Nat × α) → Bool)
    (lnodes : Nat) : ∀ (n : Nat) (f0 f1 : List (Nat × α))
    (q : List ((Nat × α) × List Byte)),
    genLoop cmp lnodes n f0 f1 q = streamLoop lnodes n (mergeNN cmp f0 f1) q := by
  intro n
  induction n with
  | zero => intro f0 f1 q; rfl
  | succ n ih =>
    intro f0 f1 q
    match q with
    | [] => rfl
    | (e, c) :: rest =>
      simp only [genLoop, streamLoop]
      by_cases hleaf : e.1 < lnodes
      · rw [if_pos hleaf, if_pos hleaf, ih]
      · rw [if_neg hleaf, if_neg hleaf]
        cases h1 : nextNode cmp f0 f1 with
        | none =>
          obtain ⟨he0, he1⟩ := nextNode_none cmp f0 f1 h1
          subst he0
          subst he1
          simp [h1, mergeNN_nil]
        | some v =>
          obtain ⟨x, f0x, f1x, sx⟩ := v
          rw [mergeNN_next cmp f0 f1 x f0x f1x sx h1]
          simp only [h1]
          cases h2 : nextNode cmp f0x f1x with
          | none =>
            obtain ⟨he0, he1⟩ := nextNode_none cmp f0x f1x h2
            subst he0
            subst he1
            simp [h2, mergeNN_nil]
          | some w =>
            obtain ⟨y, f0y, f1y, sy⟩ := w
            rw [mergeNN_next cmp f0x f1x y f0y f1y sy h2]
            simp only [h2]
            exact ih f0y f1y (rest ++ [(x, c ++ [c1]), (y, c ++ [c0])])

theorem streamLoop_map {α β : Type} (F : (Nat × α) → (Nat × β))
    (hF : ∀ p, (F p).1 = p.1) (lnodes : Nat) :
    ∀ (n : Nat) (S : List (Nat × α)) (q : List ((Nat × α) × List Byte)),
    streamLoop lnodes n (S.map F) (q.map (fun ec => (F ec.1, ec.2))) =
      (streamLoop lnodes n S q).map (List.map (fun ec => (F ec.1, ec.2))) := by
  intro n
  induction n with
  | zero => intro S q; rfl
  | succ n ih =>
    intro S q
    match q with
    | [] => rfl
    | (e, c) :: rest =>
      simp only [List.map_cons, streamLoop, hF e]
      by_cases hleaf : e.1 < lnodes
      · rw [if_pos hleaf, if_pos hleaf, ih S rest]
        cases h1 : streamLoop lnodes n S rest with
        | none => rfl
        | some out => rfl
      · rw [if_neg hleaf, if_neg hleaf]
        match S with
        | [] => rfl
        | [x] => rfl
        | x :: y :: S2 =>
          simp only [List.map_cons]
          have h2 := ih S2 (rest ++ [(x, c ++ [c1]), (y, c ++ [c0])])
          simp only [List.map_append, List.map_cons, List.map_nil] at h2
          exact h2

theorem streamLoop_all {α : Type} (lnodes : Nat) :
    ∀ (n : Nat) (S : List (Nat × α)) (q : List ((Nat × α) × List Byte)),
    n = q.length + S.length →
    (∀ j, j < n → j < q.length +
      2 * ((q.map Prod.fst ++ S).take j).countP (fun e => ! decide (e.1 < lnodes))) →
    (∀ j, j < n →
      2 * ((q.map Prod.fst ++ S).take (j + 1)).countP (fun e => ! decide (e.1 < lnodes))
        ≤ S.length) →
    ∃ out, streamLoop lnodes n S q = some out ∧
      out.map Prod.fst = (q.map Prod.fst ++ S).filter (fun e => decide (e.1 < lnodes)) := by
  intro n
  induction n with
  | zero =>
    intro S q hlen hA hB
    match q, S with
    | [], [] => exact ⟨[], rfl, rfl⟩
    | a :: q, S =>
      simp only [List.length_cons] at hlen
      omega
    | [], a :: S =>
      simp only [List.length_nil, List.length_cons] at hlen
      omega
  | succ n ih =>
    intro S q hlen hA hB
    match q with
    | [] =>
      have h0 := hA 0 (by omega)
      simp at h0
    | (e, c) :: rest =>
      by_cases hleaf : e.1 < lnodes
      · have hc1 : ∀ (L : List (Nat × α)) (j : Nat),
            ((e :: L).take (j + 1)).countP (fun x => ! decide (x.1 < lnodes)) =
              (L.take j).countP (fun x => ! decide (x.1 < lnodes)) := by
          intro L j
          rw [List.take_succ_cons, List.countP_cons]
          simp [hleaf]
        obtain ⟨out', hrun, hout⟩ := ih S rest
          (by simp at hlen ⊢; omega)
          (by
            intro j hj
            have := hA (j + 1) (by omega)
            simp only [List.map_cons, List.cons_append, hc1] at this
            simp only [List.length_cons] at this
            omega)
          (by
            intro j hj
            have := hB (j + 1) (by omega)
            simp only [List.map_cons, List.cons_append, hc1] at this
            exact this)
        refine ⟨(e, c) :: out', ?_, ?_⟩
        · simp only [streamLoop, if_pos hleaf, hrun]
        · simp only [List.map_cons, List.cons_append, List.filter_cons, hout]
          simp [hleaf]
      · have hc1 : ∀ (L : List (Nat × α)) (j : Nat),
            ((e :: L).take (j + 1)).countP (fun x => ! decide (x.1 < lnodes)) =
              (L.take j).countP (fun x => ! decide (x.1 < lnodes)) + 1 := by
          intro L j
          rw [List.take_succ_cons, List.countP_cons]
          simp [hleaf]
        have hS2 : 2 ≤ S.length := by
          have := hB 0 (by omega)
          simp only [List.map_cons, List.cons_append, List.take_succ_cons,
            List.take_zero, List.countP_cons, List.countP_nil] at this
          simp only [hleaf] at this
          simp at this
          omega
        match S with
        | [] => simp at hS2
        | [x] => simp at hS2
        | x :: y :: S2 =>
          have hkey : (rest ++ [(x, c ++ [c1]), (y, c ++ [c0])]).map Prod.fst ++ S2 =
              rest.map Prod.fst ++ (x :: y :: S2) := by
            simp
          obtain ⟨out', hrun, hout⟩ := ih S2
            (rest ++ [(x, c ++ [c1]), (y, c ++ [c0])])
            (by simp at hlen ⊢; omega)
            (by
              intro j hj
              have := hA (j + 1) (by omega)
              simp only [List.map_cons, List.cons_append, hc1] at this
              simp only [List.length_cons] at this
              rw [hkey]
              simp only [List.length_append, List.length_cons, List.length_nil]
              omega)
            (by
              intro j hj
              have := hB (j + 1) (by omega)
              simp only [List.map_cons, List.cons_append, hc1] at this
              rw [hkey]
              simp only [List.length_cons] at this ⊢
              omega)
          refine ⟨out', ?_, ?_⟩
          · simp only [streamLoop, if_neg hleaf, hrun]
          · rw [hout, hkey]
            simp only [List.map_cons, List.cons_append, List.filter_cons]
            simp [hleaf]

end Huff

namespace Huff

theorem streamLoop_skeleton {α β : Type} (lnodes : Nat) :
    ∀ (n : Nat) (SA : List (Nat × α)) (SB : List (Nat × β))
    (qA : List ((Nat × α) × List Byte)) (qB : List ((Nat × β) × List Byte)),
    SA.map Prod.fst = SB.map Prod.fst →
    qA.map (fun ec => (ec.1.1, ec.2)) = qB.map (fun ec => (ec.1.1, ec.2)) →
    Option.map (List.map (fun ec => (ec.1.1, ec.2))) (streamLoop lnodes n SA qA) =
      Option.map (List.map (fun ec => (ec.1.1, ec.2))) (streamLoop lnodes n SB qB) := by
  intro n
  induction n with
  | zero => intro SA SB qA qB hS hq; rfl
  | succ n ih =>
    intro SA SB qA qB hS hq
    match qA, qB, hq with
    | [], [], _ => rfl
    | [], (eB, cB) :: restB, hq => simp at hq
    | (eA, cA) :: restA, [], hq => simp at hq
    | (eA, cA) :: restA, (eB, cB) :: restB, hq =>
      simp only [List.map_cons, List.cons.injEq, Prod.mk.injEq] at hq
      obtain ⟨⟨hpos, hcode⟩, hrest⟩ := hq
      simp only [streamLoop]
      by_cases hleaf : eA.1 < lnodes
      · rw [if_pos hleaf, if_pos (by rw [← hpos]; exact hleaf)]
        have h1 := ih SA SB restA restB hS hrest
        cases hA : streamLoop lnodes n SA restA with
        | none =>
          rw [hA] at h1
          cases hB : streamLoop lnodes n SB restB with
          | none => rfl
          | some oB =>
            rw [hB] at h1
            simp at h1
        | some oA =>
          rw [hA] at h1
          cases hB : streamLoop lnodes n SB restB with
          | none =>
            rw [hB] at h1
            simp at h1
          | some oB =>
            rw [hB] at h1
            simp only [Option.map_some', Option.some.injEq] at h1
            simp only [hA, hB, Option.map_some', Option.some.injEq, List.map_cons]
            rw [h1, hpos, hcode]
      · rw [if_neg hleaf, if_neg (by rw [← hpos]; exact hleaf)]
        match SA, SB, hS with
        | [], [], _ => rfl
        | [x], [x'], hS => rfl
        | x :: y :: S2, x' :: y' :: S2', hS =>
          simp only [List.map_cons, List.cons.injEq] at hS
          obtain ⟨hx, hy, hS2⟩ := hS
          refine ih S2 S2' (restA ++ [(x, cA ++ [c1]), (y, cA ++ [c0])])
            (restB ++ [(x', cB ++ [c1]), (y', cB ++ [c0])]) hS2 ?_
          simp only [List.map_append, List.map_cons, List.map_nil, hrest, hcode,
            hx, hy]
        | [], x' :: S2', hS => simp at hS
        | x :: S2, [], hS => simp at hS
        | [x], x' :: y' :: S2', hS => simp at hS
        | x :: y :: S2, [x'], hS => simp at hS

theorem streamLoop_mem {α : Type} (lnodes : Nat) :
    ∀ (n : Nat) (S : List (Nat × α)) (q : List ((Nat × α) × List Byte)) (out : _)
    (e : (Nat × α) × List Byte),
    streamLoop lnodes n S q = some out → e ∈ out →
    e.1 ∈ S ∨ e.1 ∈ q.map Prod.fst := by
  intro n
  induction n with
  | zero =>
    intro S q out e h he
    simp only [streamLoop, Option.some.injEq] at h
    subst h
    simp at he
  | succ n ih =>
    intro S q out e h he
    match q with
    | [] => exact absurd h (by simp [streamLoop])
    | (e0, c) :: rest =>
      simp only [streamLoop] at h
      by_cases hleaf : e0.1 < lnodes
      · rw [if_pos hleaf] at h
        cases h1 : streamLoop lnodes n S rest with
        | none => rw [h1] at h; exact Option.noConfusion h
        | some out' =>
          rw [h1] at h
          simp only [Option.some.injEq] at h
          subst h
          rcases List.mem_cons.mp he with he | he
          · subst he
            exact Or.inr (by simp)
          · rcases ih S rest out' e h1 he with hm | hm
            · exact Or.inl hm
            · exact Or.inr (by simp [hm])
      · rw [if_neg hleaf] at h
        match S with
        | [] => exact absurd h (by simp)
        | [x] => exact absurd h (by simp)
        | x :: y :: S2 =>
          rcases ih S2 (rest ++ [(x, c ++ [c1]), (y, c ++ [c0])]) out e h he with hm | hm
          · exact Or.inl (by simp [hm])
          · simp only [List.map_append, List.map_cons, List.map_nil,
              List.mem_append, List.mem_cons] at hm
            rcases hm with hm | hm
            · exact Or.inr (by simp [hm])
            · rcases hm with hm | hm
              · subst hm; exact Or.inl (by simp)
              · rcases hm with hm | hm
                · subst hm; exact Or.inl (by simp)
                · simp at hm

theorem tagZipT_map_fst {α : Type} :
    ∀ (L : List (Bool × α)) (i0s i1s : List Nat),
    (tagZipT i0s i1s L).map Prod.fst = L.map Prod.fst := by
  intro L
  induction L with
  | nil => intro i0s i1s; rfl
  | cons e L ih =>
    intro i0s i1s
    obtain ⟨tag, v⟩ := e
    cases tag <;> simp [tagZipT, ih]

theorem tagZipT_pos_skeleton {α β : Type} :
    ∀ (L : List (Bool × α)) (L' : List (Bool × β)) (i0s i1s : List Nat),
    L.map Prod.fst = L'.map Prod.fst →
    (tagZipT i0s i1s L).map (fun e => (e.1, e.2.1)) =
      (tagZipT i0s i1s L').map (fun e => (e.1, e.2.1)) := by
  intro L
  induction L with
  | nil =>
    intro L' i0s i1s h
    match L' with
    | [] => rfl
    | e' :: L' => simp at h
  | cons e L ih =>
    intro L' i0s i1s h
    match L' with
    | [] => simp at h
    | e' :: L'' =>
      simp only [List.map_cons, List.cons.injEq] at h
      obtain ⟨h1, h2⟩ := h
      obtain ⟨tag, v⟩ := e
      obtain ⟨tag', v'⟩ := e'
      simp only at h1
      subst h1
      cases tag with
      | false =>
        simp only [tagZipT, List.map_cons, List.cons.injEq]
        exact ⟨trivial, ih L'' i0s.tail i1s h2⟩
      | true =>
        simp only [tagZipT, List.map_cons, List.cons.injEq]
        exact ⟨trivial, ih L'' i0s i1s.tail h2⟩

theorem tagZipT_mem {α : Type} :
    ∀ (L : List (Bool × α)) (i0s i1s : List Nat),
    L.countP (fun e => ! e.1) ≤ i0s.length →
    L.countP (fun e => e.1) ≤ i1s.length →
    ∀ te ∈ tagZipT i0s i1s L,
      (te.1 = false → te.2.1 ∈ i0s) ∧ (te.1 = true → te.2.1 ∈ i1s) := by
  intro L
  induction L with
  | nil =>
    intro i0s i1s h0 h1 te hte
    simp [tagZipT] at hte
  | cons e L ih =>
    intro i0s i1s h0 h1 te hte
    obtain ⟨tag, v⟩ := e
    cases tag with
    | false =>
      simp only [List.countP_cons] at h0 h1
      simp only [Bool.not_false, decide_eq_true_eq] at h0
      have hne : i0s ≠ [] := by
        intro hc
        rw [hc] at h0
        simp at h0
      match i0s, hne with
      | i :: i0s', _ =>
        simp only [tagZipT, List.headD_cons, List.tail_cons, List.mem_cons] at hte
        rcases hte with hte | hte
        · subst hte
          exact ⟨fun _ => by simp, fun hc => by simp at hc⟩
        · have := ih i0s' i1s (by simp at h0 ⊢; omega) (by simpa using h1) te hte
          exact ⟨fun h => List.mem_cons_of_mem _ (this.1 h), this.2⟩
    | true =>
      simp only [List.countP_cons] at h0 h1
      have hne : i1s ≠ [] := by
        intro hc
        rw [hc] at h1
        simp at h1
      match i1s, hne with
      | i :: i1s', _ =>
        simp only [tagZipT, List.headD_cons, List.tail_cons, List.mem_cons] at hte
        rcases hte with hte | hte
        · subst hte
          exact ⟨fun hc => by simp at hc, fun _ => by simp⟩
        · have := ih i0s i1s' (by simpa using h0) (by simp at h1 ⊢; omega) te hte
          exact ⟨this.1, fun h => List.mem_cons_of_mem _ (this.2 h)⟩

theorem tagZipT_map_snd_snd {α : Type} :
    ∀ (L : List (Bool × α)) (i0s i1s : List Nat),
    (tagZipT i0s i1s L).map (fun e => e.2.2) = L.map Prod.snd := by
  intro L
  induction L with
  | nil => intro i0s i1s; rfl
  | cons e L ih =>
    intro i0s i1s
    obtain ⟨tag, v⟩ := e
    cases tag <;> simp [tagZipT, ih]

end Huff

namespace Huff

theorem zip_sorted (i0s : List Nat) : ∀ (A : List Node),
    A.Sorted (fun u v => u.1 ≤ v.1) →
    (i0s.zip A).Sorted (fun u v : Nat × Node => u.2.1 ≤ v.2.1) := by
  induction i0s with
  | nil => intro A h; simp
  | cons i is ih =>
    intro A h
    match A with
    | [] => simp
    | a :: A =>
      rw [List.zip_cons_cons]
      refine List.pairwise_cons.mpr ⟨?_, ih A (List.pairwise_cons.mp h).2⟩
      intro e he
      have h2 := (List.of_mem_zip he).2
      exact (List.pairwise_cons.mp h).1 e.2 h2

theorem cmpRev_eq_w :
    cmpRev = fun y x : Nat × Node => ! decide (y.2.1 < x.2.1) := rfl

theorem generate_codes_stream (A B : List Node) (rootv : Node) (k : Nat)
    (hk : 2 ≤ k) (hA : A.length = k) (hB : B.length = k - 2)
    (hsA : A.Sorted (fun u v => u.1 ≤ v.1)) (hsB : B.Sorted (fun u v => u.1 ≤ v.1)) :
    generate_codes cmpRev k (A ++ (B ++ [rootv])) =
      streamLoop k (2 * k - 1)
        (((tagZipT (List.range k) (List.range' k (k - 2)) (mergeTag cmpN A B)).map
          (fun e => e.2)).reverse)
        [((2 * k - 2, rootv), [])] := by
  have hlen : (A ++ (B ++ [rootv])).length = 2 * k - 1 := by
    simp [hA, hB]
    omega
  have henum : (A ++ (B ++ [rootv])).enum =
      (List.range k).zip A ++
        ((List.range' k (k - 2)).zip B ++ [(2 * k - 2, rootv)]) := by
    rw [List.enum_eq_zip_range, hlen]
    have hr : List.range (2 * k - 1) =
        List.range k ++ (List.range' k (k - 2) ++ [2 * k - 2]) := by
      have h1 : 2 * k - 1 = k + (k - 1) := by omega
      rw [h1, List.range_add, ← List.range'_eq_map_range]
      have h2 : k - 1 = (k - 2) + 1 := by omega
      rw [h2, List.range'_concat]
      have h3 : k + 1 * (k - 2) = 2 * k - 2 := by omega
      rw [h3]
    rw [hr]
    rw [List.zip_append (by simp [hA])]
    rw [List.zip_append (by simp [hB])]
    rfl
  have hrev : (A ++ (B ++ [rootv])).enum.reverse =
      (2 * k - 2, rootv) ::
        (((List.range' k (k - 2)).zip B).reverse ++ ((List.range k).zip A).reverse) := by
    rw [henum, List.reverse_append, List.reverse_append]
    simp
  rw [generate_codes]
  simp only [hrev]
  have hlenB : (((List.range' k (k - 2)).zip B).reverse).length = k - 2 := by
    simp [hB]
  have hlenA : (((List.range k).zip A).reverse).length = k := by
    simp [hA]
  have hf0 : ((2 * k - 2, rootv) ::
      (((List.range' k (k - 2)).zip B).reverse ++ ((List.range k).zip A).reverse)).drop
        ((A ++ (B ++ [rootv])).length - k) = ((List.range k).zip A).reverse := by
    rw [hlen]
    have hsh : (2 * k - 2, rootv) ::
        (((List.range' k (k - 2)).zip B).reverse ++ ((List.range k).zip A).reverse) =
        ((2 * k - 2, rootv) :: ((List.range' k (k - 2)).zip B).reverse) ++
          ((List.range k).zip A).reverse := by
      simp
    rw [hsh]
    refine List.drop_left' ?_
    simp [hlenB]
    omega
  have hf1 : ((((List.range' k (k - 2)).zip B).reverse ++
      ((List.range k).zip A).reverse)).take ((A ++ (B ++ [rootv])).length - k - 1) =
      ((List.range' k (k - 2)).zip B).reverse := by
    rw [hlen]
    refine List.take_left' ?_
    rw [hlenB]
    omega
  rw [hf0, hf1, genLoop_eq_streamLoop, hlen]
  congr 1
  rw [mergeNN, cmpRev_eq_w]
  rw [mergeTag_reverse (fun e : Nat × Node => e.2.1) (k + (k - 2))
    ((List.range k).zip A) ((List.range' k (k - 2)).zip B)
    (by simp [hA, hB]) (zip_sorted _ A hsA) (zip_sorted _ B hsB)]
  rw [mergeTag_zip (fun y x : Nat × Node => decide (y.2.1 < x.2.1)) cmpN
    (fun p a q b => rfl) (k + (k - 2)) A B (List.range k) (List.range' k (k - 2))
    (by omega) (by simp [hA]) (by simp [hB])]
  rw [List.map_reverse]

end Huff

namespace Huff

theorem take_reverse_eq {α : Type} (l : List α) (t : Nat) (h : t ≤ l.length) :
    l.reverse.take t = (l.drop (l.length - t)).reverse := by
  conv_lhs => rw [← List.take_append_drop (l.length - t) l]
  rw [List.reverse_append]
  refine List.take_left' ?_
  rw [List.length_reverse, List.length_drop]
  omega

theorem tagZipT_length {α : Type} (L : List (Bool × α)) (i0s i1s : List Nat) :
    (tagZipT i0s i1s L).length = L.length := by
  have h := congrArg List.length (tagZipT_map_fst L i0s i1s)
  simpa using h

theorem countP_bool_split {α : Type} (l : List (Bool × α)) :
    l.countP (fun e => ! e.1) + l.countP (fun e => e.1) = l.length := by
  induction l with
  | nil => rfl
  | cons e l ih =>
    obtain ⟨t, v⟩ := e
    cases t <;> simp [List.countP_cons] <;> omega

theorem countP_take_reverse_map {α : Type} (p : Nat × α → Bool)
    (Z : List (Bool × (Nat × α))) (t : Nat) (h : t ≤ Z.length) :
    (((Z.map (fun e => e.2)).reverse).take t).countP p =
      (Z.drop (Z.length - t)).countP (fun te => p te.2) := by
  have hrev : (Z.map (fun e => e.2)).reverse.take t =
      ((Z.map (fun e => e.2)).drop ((Z.map (fun e => e.2)).length - t)).reverse := by
    conv_lhs => rw [← List.take_append_drop ((Z.map (fun e => e.2)).length - t)
      (Z.map (fun e => e.2))]
    rw [List.reverse_append]
    refine List.take_left' ?_
    rw [List.length_reverse, List.length_drop]
    simp
    omega
  rw [hrev, List.countP_reverse, List.length_map, ← List.map_drop, List.countP_map]
  rfl

theorem tagZipT_false_vals {α : Type} :
    ∀ (L : List (Bool × α)) (i0s i1s : List Nat),
    L.countP (fun e => ! e.1) ≤ i0s.length →
    ((tagZipT i0s i1s L).filter (fun te => ! te.1)).map (fun te => te.2) =
      i0s.zip (L.filterMap (fun e => if e.1 then none else some e.2)) := by
  intro L
  induction L with
  | nil =>
    intro i0s i1s h0
    simp [tagZipT]
  | cons e L ih =>
    intro i0s i1s h0
    obtain ⟨tag, v⟩ := e
    cases tag with
    | false =>
      simp only [List.countP_cons] at h0
      simp only [Bool.not_false, decide_eq_true_eq] at h0
      have hne : i0s ≠ [] := by
        intro hc
        rw [hc] at h0
        simp at h0
      match i0s, hne with
      | i :: i0s', _ =>
        have hrec := ih i0s' i1s (by simp at h0 ⊢; omega)
        simp [tagZipT, hrec]
    | true =>
      have hrec := ih i0s i1s.tail (by simpa using h0)
      simp [tagZipT, hrec]

theorem streamLoop_run_merge {α : Type} (k : Nat) (h2 : 2 ≤ k) (V : List (Bool × α))
    (rootv : α)
    (hlenV : V.length = 2 * k - 2)
    (hF : V.countP (fun e => ! e.1) = k)
    (hT : V.countP (fun e => e.1) = k - 2)
    (hdens : ∀ m, 1 ≤ m →
      (V.drop m).countP (fun e => ! e.1) ≤ (V.drop m).countP (fun e => e.1) + 1) :
    ∃ out, streamLoop k (2 * k - 1)
        (((tagZipT (List.range k) (List.range' k (k - 2)) V).map (fun e => e.2)).reverse)
        [((2 * k - 2, rootv), [])] = some out ∧
      out.map Prod.fst =
        ((List.range k).zip
          (V.filterMap (fun e => if e.1 then none else some e.2))).reverse := by
  have hZlen : (tagZipT (List.range k) (List.range' k (k - 2)) V).length = 2 * k - 2 := by
    rw [tagZipT_length, hlenV]
  have hmem := tagZipT_mem V (List.range k) (List.range' k (k - 2))
    (by simp [hF]) (by simp [hT])
  have hpred : ∀ te ∈ tagZipT (List.range k) (List.range' k (k - 2)) V,
      (! decide (te.2.1 < k)) = te.1 := by
    intro te hte
    have h3 := hmem te hte
    cases hte1 : te.1 with
    | false =>
      have h4 := h3.1 hte1
      have h5 : te.2.1 < k := List.mem_range.mp h4
      simp [h5]
    | true =>
      have h4 := h3.2 hte1
      have h5 : k ≤ te.2.1 := by
        have h6 := List.mem_range'.mp h4
        omega

      simp
      omega
  have hcount : ∀ t, t ≤ 2 * k - 2 →
      ((((tagZipT (List.range k) (List.range' k (k - 2)) V).map
        (fun e => e.2)).reverse).take t).countP (fun e => ! decide (e.1 < k)) =
        (V.drop (2 * k - 2 - t)).countP (fun e => e.1) := by
    intro t ht
    rw [countP_take_reverse_map _ _ t (by omega), hZlen]
    have hc1 : ((tagZipT (List.range k) (List.range' k (k - 2)) V).drop
        (2 * k - 2 - t)).countP (fun te => ! decide (te.2.1 < k)) =
        ((tagZipT (List.range k) (List.range' k (k - 2)) V).drop
        (2 * k - 2 - t)).countP (fun te => te.1) := by
      refine List.countP_congr ?_
      intro te hte
      have h6 := hpred te (List.mem_of_mem_drop hte)
      rw [h6]
    rw [hc1]
    have hc2 : ((tagZipT (List.range k) (List.range' k (k - 2)) V).drop
        (2 * k - 2 - t)).countP (fun te => te.1) =
        (((tagZipT (List.range k) (List.range' k (k - 2)) V).drop
        (2 * k - 2 - t)).map Prod.fst).countP (fun b => b) := by
      rw [List.countP_map]
      rfl
    rw [hc2, List.map_drop, tagZipT_map_fst, ← List.map_drop, List.countP_map]
    rfl
  have hroot : (! decide ((2 * k - 2, rootv).1 < k)) = true := by
    simp
    omega
  have hSlen : (((tagZipT (List.range k) (List.range' k (k - 2)) V).map
      (fun e => e.2)).reverse).length = 2 * k - 2 := by
    simp [hZlen]
  obtain ⟨out, hrun, hout⟩ := streamLoop_all k (2 * k - 1)
    (((tagZipT (List.range k) (List.range' k (k - 2)) V).map (fun e => e.2)).reverse)
    [((2 * k - 2, rootv), [])]
    (by rw [hSlen]; simp; omega)
    (by
      intro j hj
      match j with
      | 0 => simp
      | t + 1 =>
        simp only [List.map_cons, List.map_nil, List.cons_append, List.nil_append,
          List.take_succ_cons, List.countP_cons, List.length_cons, List.length_nil]
        rw [hroot]
        have ht : t ≤ 2 * k - 2 := by omega
        rw [hcount t ht]
        have hone : (if (true = true) then 1 else 0) = 1 := rfl
        rw [hone]
        have hm1 : 1 ≤ 2 * k - 2 - t := by omega
        have hd := hdens (2 * k - 2 - t) hm1
        have hsum := countP_bool_split (V.drop (2 * k - 2 - t))
        rw [List.length_drop, hlenV] at hsum
        omega)
    (by
      intro j hj
      have hsub : List.Sublist
          ((([((2 * k - 2, rootv), ([] : List Byte))]).map Prod.fst ++
            ((tagZipT (List.range k) (List.range' k (k - 2)) V).map
              (fun e => e.2)).reverse).take (j + 1))
          (([((2 * k - 2, rootv), ([] : List Byte))]).map Prod.fst ++
            ((tagZipT (List.range k) (List.range' k (k - 2)) V).map
              (fun e => e.2)).reverse) :=
        List.take_sublist _ _
      have hle := hsub.countP_le (fun e => ! decide (e.1 < k))
      have hfull : (([((2 * k - 2, rootv), ([] : List Byte))]).map Prod.fst ++
          ((tagZipT (List.range k) (List.range' k (k - 2)) V).map
            (fun e => e.2)).reverse).countP (fun e => ! decide (e.1 < k)) = k - 1 := by
        simp only [List.map_cons, List.map_nil, List.cons_append, List.nil_append,
          List.countP_cons]
        rw [hroot]
        have hfull2 : ((((tagZipT (List.range k) (List.range' k (k - 2)) V).map
            (fun e => e.2)).reverse).take (2 * k - 2)).countP
            (fun e => ! decide (e.1 < k)) = (V.drop 0).countP (fun e => e.1) := by
          have := hcount (2 * k - 2) (by omega)
          simpa using this
        rw [List.take_of_length_le (by rw [hSlen])] at hfull2
        rw [hfull2]
        simp [hT]
        omega
      rw [hfull] at hle
      rw [hSlen]
      omega)
  refine ⟨out, hrun, ?_⟩
  rw [hout]
  simp only [List.map_cons, List.map_nil, List.cons_append, List.nil_append,
    List.filter_cons]
  have hrootf : (decide ((2 * k - 2, rootv).1 < k)) = false := by
    simp
    omega
  rw [hrootf]
  simp only [Bool.false_eq_true, if_false]
  rw [List.filter_reverse]
  congr 1
  rw [List.filter_map]
  have hfc : ((tagZipT (List.range k) (List.range' k (k - 2)) V).filter
      ((fun e : Nat × α => decide (e.1 < k)) ∘
      (fun te : Bool × Nat × α => te.2))) =
      (tagZipT (List.range k) (List.range' k (k - 2)) V).filter (fun te => ! te.1) := by
    refine List.filter_congr ?_
    intro te hte
    have h6 := hpred te hte
    simp only [Function.comp]
    rw [← h6]
    simp
  rw [hfc]
  exact tagZipT_false_vals V (List.range k) (List.range' k (k - 2)) (by simp [hF])

end Huff

namespace Huff

theorem idxTag_map_fst : ∀ (T : List (Bool × Node)) (i : Nat),
    (idxTag T i).map Prod.fst = T.map Prod.fst := by
  intro T
  induction T with
  | nil => intro i; rfl
  | cons e T ih =>
    intro i
    obtain ⟨tag, nd⟩ := e
    cases tag <;> simp [idxTag, ih]

theorem idxTag_length (T : List (Bool × Node)) (i : Nat) :
    (idxTag T i).length = T.length := by
  have h := congrArg List.length (idxTag_map_fst T i)
  simpa using h

theorem leafVals_filterMap : ∀ (T : List (Bool × Node)) (i : Nat),
    leafVals T i = (idxTag T i).filterMap (fun e => if e.1 then none else some e.2) := by
  intro T
  induction T with
  | nil => intro i; rfl
  | cons e T ih =>
    intro i
    obtain ⟨tag, nd⟩ := e
    cases tag <;> simp [idxTag, leafVals, List.filterMap_cons, ih]

theorem intVals_filterMap : ∀ (T : List (Bool × Node)) (i : Nat),
    intVals T i = (idxTag T i).filterMap (fun e => if e.1 then some e.2 else none) := by
  intro T
  induction T with
  | nil => intro i; rfl
  | cons e T ih =>
    intro i
    obtain ⟨tag, nd⟩ := e
    cases tag <;> simp [idxTag, intVals, List.filterMap_cons, ih]

theorem idxTag_lb : ∀ (T : List (Bool × Node)) (i : Nat),
    ∀ e ∈ idxTag T i, i ≤ e.2.1 := by
  intro T
  induction T with
  | nil => intro i e he; simp [idxTag] at he
  | cons e0 T ih =>
    intro i e he
    obtain ⟨tag, nd⟩ := e0
    cases tag <;>
      simp only [idxTag, List.mem_cons] at he <;>
      rcases he with he | he
    · subst he; simp
    · have := ih (i + 1) e he; omega
    · subst he; simp
    · have := ih (i + 1) e he; omega

theorem idxTag_strict : ∀ (T : List (Bool × Node)) (i : Nat),
    (idxTag T i).Pairwise (fun x y => x.2.1 < y.2.1) := by
  intro T
  induction T with
  | nil => intro i; simp [idxTag]
  | cons e0 T ih =>
    intro i
    obtain ⟨tag, nd⟩ := e0
    cases tag <;>
      refine List.pairwise_cons.mpr ⟨?_, ih (i + 1)⟩ <;>
      intro e he <;>
      have := idxTag_lb T (i + 1) e he <;>
      simp <;> omega

theorem leafVals_lb : ∀ (T : List (Bool × Node)) (i : Nat),
    ∀ e ∈ leafVals T i, i ≤ e.1 := by
  intro T
  induction T with
  | nil => intro i e he; simp [leafVals] at he
  | cons e0 T ih =>
    intro i e he
    obtain ⟨tag, nd⟩ := e0
    cases tag with
    | false =>
      simp only [leafVals, List.mem_cons] at he
      rcases he with he | he
      · subst he; simp
      · have := ih (i + 1) e he; omega
    | true =>
      simp only [leafVals] at he
      have := ih (i + 1) e he
      omega

theorem leafVals_sorted : ∀ (T : List (Bool × Node)) (i : Nat),
    (leafVals T i).Sorted (fun u v => u.1 ≤ v.1) := by
  intro T
  induction T with
  | nil => intro i; simp [leafVals]
  | cons e0 T ih =>
    intro i
    obtain ⟨tag, nd⟩ := e0
    cases tag with
    | false =>
      refine List.pairwise_cons.mpr ⟨?_, ih (i + 1)⟩
      intro e he
      have := leafVals_lb T (i + 1) e he
      simp
      omega
    | true => exact ih (i + 1)

theorem intVals_lb : ∀ (T : List (Bool × Node)) (i : Nat),
    ∀ e ∈ intVals T i, i ≤ e.1 := by
  intro T
  induction T with
  | nil => intro i e he; simp [intVals] at he
  | cons e0 T ih =>
    intro i e he
    obtain ⟨tag, nd⟩ := e0
    cases tag with
    | true =>
      simp only [intVals, List.mem_cons] at he
      rcases he with he | he
      · subst he; simp
      · have := ih (i + 1) e he; omega
    | false =>
      simp only [intVals] at he
      have := ih (i + 1) e he
      omega

theorem intVals_sorted : ∀ (T : List (Bool × Node)) (i : Nat),
    (intVals T i).Sorted (fun u v => u.1 ≤ v.1) := by
  intro T
  induction T with
  | nil => intro i; simp [intVals]
  | cons e0 T ih =>
    intro i
    obtain ⟨tag, nd⟩ := e0
    cases tag with
    | true =>
      refine List.pairwise_cons.mpr ⟨?_, ih (i + 1)⟩
      intro e he
      have := intVals_lb T (i + 1) e he
      simp
      omega
    | false => exact ih (i + 1)

theorem leafVals_append : ∀ (X Y : List (Bool × Node)) (i : Nat),
    leafVals (X ++ Y) i = leafVals X i ++ leafVals Y (i + X.length) := by
  intro X
  induction X with
  | nil => intro Y i; simp [leafVals]
  | cons e X ih =>
    intro Y i
    obtain ⟨tag, nd⟩ := e
    cases tag with
    | false =>
      simp only [List.cons_append, leafVals, List.length_cons, List.append_eq]
      rw [ih Y (i + 1)]
      have he : i + 1 + X.length = i + (X.length + 1) := by omega
      rw [he]
    | true =>
      simp only [List.cons_append, leafVals, List.length_cons, List.append_eq]
      rw [ih Y (i + 1)]
      have he : i + 1 + X.length = i + (X.length + 1) := by omega
      rw [he]

theorem intVals_append : ∀ (X Y : List (Bool × Node)) (i : Nat),
    intVals (X ++ Y) i = intVals X i ++ intVals Y (i + X.length) := by
  intro X
  induction X with
  | nil => intro Y i; simp [intVals]
  | cons e X ih =>
    intro Y i
    obtain ⟨tag, nd⟩ := e
    cases tag with
    | true =>
      simp only [List.cons_append, intVals, List.length_cons, List.append_eq]
      rw [ih Y (i + 1)]
      have he : i + 1 + X.length = i + (X.length + 1) := by omega
      rw [he]
    | false =>
      simp only [List.cons_append, intVals, List.length_cons, List.append_eq]
      rw [ih Y (i + 1)]
      have he : i + 1 + X.length = i + (X.length + 1) := by omega
      rw [he]

theorem leafVals_map_snd : ∀ (T : List (Bool × Node)) (i : Nat),
    (leafVals T i).map Prod.snd =
      (T.filterMap (fun e => if e.1 then none else some e.2)).map Prod.snd := by
  intro T
  induction T with
  | nil => intro i; rfl
  | cons e T ih =>
    intro i
    obtain ⟨tag, nd⟩ := e
    cases tag <;> simp [leafVals, List.filterMap_cons, ih]

theorem build_analysis (a b : Node) (rest : List Node)
    (hsort : (a :: b :: rest).Sorted (fun u v => u.1 ≤ v.1))
    (hpos : ∀ p ∈ a :: b :: rest, 1 ≤ p.1) :
    ∃ intsNR z picks,
      build_huffman_array (a :: b :: rest) =
        some ((a :: b :: rest) ++ (intsNR ++ [z])) ∧
      (intsNR ++ [z]).Sorted (fun u v => u.1 ≤ v.1) ∧
      intsNR.length = rest.length ∧
      mergeTag cmpN (a :: b :: rest) (intsNR ++ [z]) =
        ((false, a) :: (false, b) :: picks) ++ [(true, z)] ∧
      mergeTag cmpN (a :: b :: rest) intsNR = (false, a) :: (false, b) :: picks ∧
      picks.countP (fun e => ! e.1) = rest.length ∧
      picks.countP (fun e => e.1) = rest.length ∧
      (∀ s, (picks.drop s).countP (fun e => ! e.1) ≤
        (picks.drop s).countP (fun e => e.1) + 1) ∧
      (∀ p ∈ (a :: b :: rest), p.1 ≤ z.1) := by
  have hab : a.1 ≤ b.1 := (List.pairwise_cons.mp hsort).1 b (by simp)
  have hsort1 : (b :: rest).Sorted (fun u v => u.1 ≤ v.1) := (List.pairwise_cons.mp hsort).2
  have hrest : rest.Sorted (fun u v => u.1 ≤ v.1) := (List.pairwise_cons.mp hsort1).2
  have hbrest : ∀ r ∈ rest, b.1 ≤ r.1 := (List.pairwise_cons.mp hsort1).1
  have hapos : 1 ≤ a.1 := hpos a (by simp)
  have hbpos : 1 ≤ b.1 := hpos b (by simp)
  have hpos' : ∀ p ∈ rest ++ [opN a b], 1 ≤ p.1 := by
    intro p hp
    rcases List.mem_append.mp hp with hp | hp
    · exact hpos p (by simp [hp])
    · have he : p = opN a b := by simpa using hp
      subst he
      simp only [opN]
      omega
  have hsmall : ∀ p ∈ [opN a b], ∀ x y ls2 p2,
      buildStep rest [opN a b] = some (x, y, ls2, p2) → p.1 ≤ x.1 + y.1 := by
    intro p hp x y ls2 p2 hbs
    have hpe : p = opN a b := by simpa using hp
    subst hpe
    simp only [buildStep] at hbs
    cases h1 : nextNode cmpN rest [opN a b] with
    | none => simp [h1] at hbs
    | some v =>
      obtain ⟨x0, ls1, p1, sx⟩ := v
      simp only [h1] at hbs
      cases h2 : nextNode cmpN ls1 p1 with
      | none => simp [h2] at hbs
      | some w =>
        obtain ⟨y0, ls2', p2', sy⟩ := w
        simp only [h2, Option.some.injEq, Prod.mk.injEq] at hbs
        obtain ⟨rfl, rfl, rfl, rfl⟩ := hbs
        have hm1 := nextNode_min rest [opN a b] hrest (by simp) x0 ls1 p1 sx h1
        obtain ⟨hminx, herasex, hls1, hp1, _, _, _⟩ := hm1
        have hm2 := nextNode_min ls1 p1 hls1 hp1 y0 ls2' p2' sy h2
        obtain ⟨hminy, _⟩ := hm2
        have hymem : y0 ∈ rest ++ [opN a b] := by
          have h9 : y0 ∈ (rest ++ [opN a b]).erase x0 := by
            rw [herasex]
            exact hminy.1
          exact List.mem_of_mem_erase h9
        rcases List.mem_append.mp hminx.1 with hx | hx
        · have hxb : b.1 ≤ x0.1 := hbrest x0 hx
          rcases List.mem_append.mp hymem with hy | hy
          · have hyb : b.1 ≤ y0.1 := hbrest y0 hy
            simp only [opN]
            omega
          · have hye : y0 = opN a b := by simpa using hy
            subst hye
            simp only [opN]
            omega
        · have hxe : x0 = opN a b := by simpa using hx
          subst hxe
          simp only [opN]
          omega
  obtain ⟨ints₀, picks, pendE, z, hbl, hrun, hsorted, hmerge, hpE, hlast, hsum,
      hqpos, hilen, hc0, hc1, hdens⟩ :=
    buildLoopP_main rest.length rest [opN a b] hrest (by simp) (by simp)
      (by simp) hpos' hsmall
  have hloop : buildLoop rest.length rest [opN a b] = some ints₀ := by
    rw [buildLoopP_fst, hbl]
    rfl
  have hall : ([opN a b] ++ ints₀ : List Node) = opN a b :: ints₀ := by simp
  rw [hpE] at hmerge
  rw [hall] at hsorted hmerge hlast
  have hallne : (opN a b :: ints₀ : List Node) ≠ [] := by simp
  have hzlast : (opN a b :: ints₀).getLast hallne = z := by
    have h7 := List.getLast?_eq_getLast (opN a b :: ints₀) hallne
    rw [hlast] at h7
    exact (Option.some.injEq _ _ ▸ h7.symm)
  have hsplit : (opN a b :: ints₀).dropLast ++ [z] = opN a b :: ints₀ := by
    rw [← hzlast]
    exact List.dropLast_append_getLast hallne
  have hzmax : ∀ p ∈ (a :: b :: rest), p.1 ≤ z.1 := by
    intro p hp
    have h9 : p.1 ∈ ((rest ++ [opN a b]).map Prod.fst) ∨ p = a ∨ p = b := by
      rcases List.mem_cons.mp hp with hp | hp
      · exact Or.inr (Or.inl hp)
      · rcases List.mem_cons.mp hp with hp | hp
        · exact Or.inr (Or.inr hp)
        · exact Or.inl (List.mem_map_of_mem _ (by simp [hp]))
    rcases h9 with h9 | h9 | h9
    · have h10 := List.single_le_sum (fun x _ => Nat.zero_le x) _ h9
      omega
    · rw [h9]
      have h10 : (opN a b).1 ∈ ((rest ++ [opN a b]).map Prod.fst) :=
        List.mem_map_of_mem _ (by simp)
      have h11 := List.single_le_sum (fun x _ => Nat.zero_le x) _ h10
      have h12 : (opN a b).1 = a.1 + b.1 := rfl
      omega
    · rw [h9]
      have h10 : (opN a b).1 ∈ ((rest ++ [opN a b]).map Prod.fst) :=
        List.mem_map_of_mem _ (by simp)
      have h11 := List.single_le_sum (fun x _ => Nat.zero_le x) _ h10
      have h12 : (opN a b).1 = a.1 + b.1 := rfl
      omega
  have hmin : ∀ y ∈ (opN a b :: ints₀ : List Node), (opN a b).1 ≤ y.1 :=
    sorted_head_min (opN a b) ints₀ hsorted
  have hfull : mergeTag cmpN (a :: b :: rest) (opN a b :: ints₀) =
      ((false, a) :: (false, b) :: picks) ++ [(true, z)] := by
    have hstep1 : mergeTag cmpN (a :: b :: rest) (opN a b :: ints₀) =
        (false, a) :: mergeTag cmpN (b :: rest) (opN a b :: ints₀) := by
      refine mergeTag_head_left cmpN a (b :: rest) (opN a b :: ints₀) ?_
      intro y hy
      have h9 := hmin y hy
      simp only [cmpN, opN] at h9 ⊢
      simp
      omega
    have hstep2 : mergeTag cmpN (b :: rest) (opN a b :: ints₀) =
        (false, b) :: mergeTag cmpN rest (opN a b :: ints₀) := by
      refine mergeTag_head_left cmpN b rest (opN a b :: ints₀) ?_
      intro y hy
      have h9 := hmin y hy
      simp only [cmpN, opN] at h9 ⊢
      simp
      omega
    rw [hstep1, hstep2, hmerge]
    have hnil : mergeTag cmpN [] [z] = [(true, z)] := by
      rw [mergeTag_nil_left]
      rfl
    rw [hnil]
    simp
  have hT2 : mergeTag cmpN (a :: b :: rest)
      ((opN a b :: ints₀).dropLast ++ [z]) =
      mergeTag cmpN (a :: b :: rest) (opN a b :: ints₀).dropLast ++ [(true, z)] := by
    refine mergeTag_snoc_right Prod.fst (a :: b :: rest) (opN a b :: ints₀).dropLast z ?_
    intro p hp
    exact hzmax p hp
  rw [hsplit, hfull] at hT2
  have hnoRoot : mergeTag cmpN (a :: b :: rest) (opN a b :: ints₀).dropLast =
      (false, a) :: (false, b) :: picks := by
    have h12 := congrArg List.dropLast hT2
    rw [List.dropLast_concat, List.dropLast_concat] at h12
    exact h12.symm
  refine ⟨(opN a b :: ints₀).dropLast, z, picks, ?_, ?_, ?_, ?_, ?_, ?_, ?_, ?_, ?_⟩
  · rw [hsplit]
    simp only [build_huffman_array, hloop]
  · rw [hsplit]
    exact hsorted
  · have h8 := congrArg List.length hsplit
    simp only [List.length_append, List.length_cons, List.length_dropLast] at h8 ⊢
    omega
  · rw [hsplit, hfull]
  · exact hnoRoot
  · exact hc0
  · have h8 : (1 : Nat) + ints₀.length - 1 = rest.length := by omega
    rw [← h8]
    simpa using hc1
  · exact hdens
  · exact hzmax

end Huff

namespace Huff

theorem countP_tag_congr {α β : Type} (X : List (Bool × α)) (Y : List (Bool × β))
    (h : X.map Prod.fst = Y.map Prod.fst) (p : Bool → Bool) :
    X.countP (fun e => p e.1) = Y.countP (fun e => p e.1) := by
  have h1 : X.countP (fun e => p e.1) = (X.map Prod.fst).countP p := by
    rw [List.countP_map]
    rfl
  have h2 : Y.countP (fun e => p e.1) = (Y.map Prod.fst).countP p := by
    rw [List.countP_map]
    rfl
  rw [h1, h2, h]

theorem tagZipT_pos_only {α β : Type} :
    ∀ (L : List (Bool × α)) (L' : List (Bool × β)) (i0s i1s : List Nat),
    L.map Prod.fst = L'.map Prod.fst →
    (tagZipT i0s i1s L).map (fun e => e.2.1) =
      (tagZipT i0s i1s L').map (fun e => e.2.1) := by
  intro L
  induction L with
  | nil =>
    intro L' i0s i1s h
    match L' with
    | [] => rfl
    | e' :: L' => simp at h
  | cons e L ih =>
    intro L' i0s i1s h
    match L' with
    | [] => simp at h
    | e' :: L'' =>
      simp only [List.map_cons, List.cons.injEq] at h
      obtain ⟨h1, h2⟩ := h
      obtain ⟨tag, v⟩ := e
      obtain ⟨tag', v'⟩ := e'
      simp only at h1
      subst h1
      cases tag with
      | false =>
        simp only [tagZipT, List.map_cons, List.cons.injEq]
        exact ⟨trivial, ih L'' i0s.tail i1s h2⟩
      | true =>
        simp only [tagZipT, List.map_cons, List.cons.injEq]
        exact ⟨trivial, ih L'' i0s i1s.tail h2⟩

theorem codec_agree (a b : Node) (rest : List Node)
    (hsort : (a :: b :: rest).Sorted (fun u v => u.1 ≤ v.1))
    (hpos : ∀ p ∈ a :: b :: rest, 1 ≤ p.1)
    (hk2 : rest.length + 2 ≤ 256) :
    ∃ arr E,
      build_huffman_array (a :: b :: rest) = some arr ∧
      generate_codes cmpRev (rest.length + 2) arr = some E ∧
      E.map Prod.fst =
        ((List.range (rest.length + 2)).zip (a :: b :: rest)).reverse ∧
      ∀ rest0, ∃ D P,
        read_header (header arr ++ rest0) = some (D, rest0) ∧
        D.length = 2 * (rest.length + 2) - 1 ∧
        generate_codes cmpRev (D.length / 2 + 1) D = some P ∧
        P.map (fun e => (e.1.1, e.2)) = E.map (fun e => (e.1.1, e.2)) ∧
        P.map (fun e => e.1.2.2) = E.map (fun e => e.1.2.2) := by
  obtain ⟨intsNR, z, picks, hbuild, hsortedI, hlenI, hfull, hnoRoot, hcF, hcT, hdens,
    hzmax⟩ := build_analysis a b rest hsort hpos
  have hsortNR : intsNR.Sorted (fun u v => u.1 ≤ v.1) :=
    (List.pairwise_append.mp hsortedI).1
  have hklen : (a :: b :: rest).length = rest.length + 2 := by simp
  have hpicksF : picks.countP (fun e => ! e.1) = rest.length := hcF
  have hpicksT : picks.countP (fun e => e.1) = rest.length := hcT
  have hVF : ((false, a) :: (false, b) :: picks).countP (fun e => ! e.1) =
      rest.length + 2 := by
    simp [List.countP_cons, hpicksF]
  have hVT : ((false, a) :: (false, b) :: picks).countP (fun e => e.1) =
      rest.length + 2 - 2 := by
    simp [List.countP_cons, hpicksT]
  have hVlen : ((false, a) :: (false, b) :: picks).length =
      2 * (rest.length + 2) - 2 := by
    have h1 := countP_bool_split picks
    simp only [List.length_cons]
    omega
  have hVdens : ∀ m, 1 ≤ m →
      (((false, a) :: (false, b) :: picks).drop m).countP (fun e => ! e.1) ≤
        (((false, a) :: (false, b) :: picks).drop m).countP (fun e => e.1) + 1 := by
    intro m hm
    match m, hm with
    | 1, _ =>
      simp only [List.drop_one, List.tail_cons, List.countP_cons]
      simp [hpicksF, hpicksT]
    | t + 2, _ =>
      have hd : (((false, a) :: (false, b) :: picks).drop (t + 2)) = picks.drop t := by
        simp
      rw [hd]
      exact hdens t
  have hstream := generate_codes_stream (a :: b :: rest) intsNR z (rest.length + 2)
    (by omega) hklen (by omega) hsort hsortNR
  rw [hnoRoot] at hstream
  obtain ⟨outE, hrunE, hfstE⟩ := streamLoop_run_merge (rest.length + 2) (by omega)
    ((false, a) :: (false, b) :: picks) z hVlen hVF hVT hVdens
  have hfiltF : ((false, a) :: (false, b) :: picks).filterMap
      (fun e => if e.1 then none else some e.2) = a :: b :: rest := by
    have h3 := mergeTag_filterMap_false cmpN (a :: b :: rest) intsNR
    rw [hnoRoot] at h3
    exact h3
  rw [hfiltF] at hfstE
  have hgenE : generate_codes cmpRev (rest.length + 2)
      ((a :: b :: rest) ++ (intsNR ++ [z])) = some outE := by
    rw [hstream, hrunE]
  refine ⟨(a :: b :: rest) ++ (intsNR ++ [z]), outE, hbuild, hgenE, hfstE, ?_⟩
  intro rest0
  have harrlen : ((a :: b :: rest) ++ (intsNR ++ [z])).length =
      2 * (rest.length + 2) - 1 := by
    simp [hlenI]
    omega
  have hrh := read_header_eq ((a :: b :: rest) ++ (intsNR ++ [z])) rest0
    (rest.length + 2) (by omega) hk2 harrlen
  have htake : ((a :: b :: rest) ++ (intsNR ++ [z])).take (rest.length + 2) =
      a :: b :: rest := List.take_left' hklen
  have hdrop : ((a :: b :: rest) ++ (intsNR ++ [z])).drop (rest.length + 2) =
      intsNR ++ [z] := List.drop_left' hklen
  rw [htake, hdrop, hfull] at hrh
  have hTnoLen : ((false, a) :: (false, b) :: picks).length =
      2 * (rest.length + 2) - 2 := hVlen
  have hleafD : leafVals ((((false, a) :: (false, b) :: picks)) ++ [(true, z)]) 0 =
      leafVals ((false, a) :: (false, b) :: picks) 0 := by
    rw [leafVals_append]
    simp [leafVals]
  have hintD : intVals ((((false, a) :: (false, b) :: picks)) ++ [(true, z)]) 0 =
      intVals ((false, a) :: (false, b) :: picks) 0 ++
        [(2 * (rest.length + 2) - 2, (0 : Byte))] := by
    rw [intVals_append]
    rw [hTnoLen]
    simp [intVals]
  rw [hleafD, hintD] at hrh
  have hlenA' : (leafVals ((false, a) :: (false, b) :: picks) 0).length =
      rest.length + 2 := by
    rw [leafVals_length, hVF]
  have hlenB' : (intVals ((false, a) :: (false, b) :: picks) 0).length =
      rest.length := by
    rw [intVals_length, hVT]
    omega
  have hDlen : (leafVals ((false, a) :: (false, b) :: picks) 0 ++
      (intVals ((false, a) :: (false, b) :: picks) 0 ++
        [(2 * (rest.length + 2) - 2, (0 : Byte))])).length =
      2 * (rest.length + 2) - 1 := by
    simp [hlenA', hlenB']
    omega
  have hDcur : (leafVals ((false, a) :: (false, b) :: picks) 0 ++
      (intVals ((false, a) :: (false, b) :: picks) 0 ++
        [(2 * (rest.length + 2) - 2, (0 : Byte))])).length / 2 + 1 =
      rest.length + 2 := by
    rw [hDlen]
    omega
  have hmergeD : mergeTag cmpN (leafVals ((false, a) :: (false, b) :: picks) 0)
      (intVals ((false, a) :: (false, b) :: picks) 0) =
      idxTag ((false, a) :: (false, b) :: picks) 0 := by
    have h5 := mergeTag_of_strict_sorted Prod.fst
      (idxTag ((false, a) :: (false, b) :: picks) 0)
      (idxTag_strict ((false, a) :: (false, b) :: picks) 0)
    rw [← leafVals_filterMap, ← intVals_filterMap] at h5
    exact h5
  have hstreamD := generate_codes_stream
    (leafVals ((false, a) :: (false, b) :: picks) 0)
    (intVals ((false, a) :: (false, b) :: picks) 0)
    (2 * (rest.length + 2) - 2, (0 : Byte)) (rest.length + 2)
    (by omega) hlenA' (by omega)
    (leafVals_sorted _ 0) (intVals_sorted _ 0)
  rw [hmergeD] at hstreamD
  have hidxfst : (idxTag ((false, a) :: (false, b) :: picks) 0).map Prod.fst =
      ((false, a) :: (false, b) :: picks).map Prod.fst := idxTag_map_fst _ 0
  have hskel := streamLoop_skeleton (rest.length + 2) (2 * (rest.length + 2) - 1)
    (((tagZipT (List.range (rest.length + 2))
      (List.range' (rest.length + 2) (rest.length + 2 - 2))
      ((false, a) :: (false, b) :: picks)).map (fun e => e.2)).reverse)
    (((tagZipT (List.range (rest.length + 2))
      (List.range' (rest.length + 2) (rest.length + 2 - 2))
      (idxTag ((false, a) :: (false, b) :: picks) 0)).map (fun e => e.2)).reverse)
    [((2 * (rest.length + 2) - 2, z), [])]
    [((2 * (rest.length + 2) - 2, (2 * (rest.length + 2) - 2, (0 : Byte))), [])]
    (by
      rw [List.map_reverse, List.map_reverse, List.map_map, List.map_map]
      have h6 := tagZipT_pos_only ((false, a) :: (false, b) :: picks)
        (idxTag ((false, a) :: (false, b) :: picks) 0)
        (List.range (rest.length + 2))
        (List.range' (rest.length + 2) (rest.length + 2 - 2)) hidxfst.symm
      exact congrArg List.reverse h6)
    (by simp)
  rw [hrunE] at hskel
  cases hrunD : streamLoop (rest.length + 2) (2 * (rest.length + 2) - 1)
      (((tagZipT (List.range (rest.length + 2))
        (List.range' (rest.length + 2) (rest.length + 2 - 2))
        (idxTag ((false, a) :: (false, b) :: picks) 0)).map (fun e => e.2)).reverse)
      [((2 * (rest.length + 2) - 2, (2 * (rest.length + 2) - 2, (0 : Byte))), [])] with
  | none =>
    rw [hrunD] at hskel
    simp at hskel
  | some outD =>
    rw [hrunD] at hskel
    simp only [Option.map_some', Option.some.injEq] at hskel
    have hgenD : generate_codes cmpRev
        ((leafVals ((false, a) :: (false, b) :: picks) 0 ++
          (intVals ((false, a) :: (false, b) :: picks) 0 ++
            [(2 * (rest.length + 2) - 2, (0 : Byte))])).length / 2 + 1)
        (leafVals ((false, a) :: (false, b) :: picks) 0 ++
          (intVals ((false, a) :: (false, b) :: picks) 0 ++
            [(2 * (rest.length + 2) - 2, (0 : Byte))])) = some outD := by
      rw [hDcur, hstreamD, hrunD]
    obtain ⟨outD2, hrunD2, hfstD⟩ := streamLoop_run_merge (rest.length + 2) (by omega)
      (idxTag ((false, a) :: (false, b) :: picks) 0)
      (2 * (rest.length + 2) - 2, (0 : Byte))
      (by rw [idxTag_length]; exact hVlen)
      (by rw [countP_tag_congr _ _ hidxfst (fun t => ! t)]; exact hVF)
      (by rw [countP_tag_congr _ _ hidxfst (fun t => t)]; exact hVT)
      (by
        intro m hm
        have hd1 : ((idxTag ((false, a) :: (false, b) :: picks) 0).drop m).map
            Prod.fst = ((((false, a) :: (false, b) :: picks)).drop m).map Prod.fst := by
          rw [List.map_drop, List.map_drop, hidxfst]
        rw [countP_tag_congr _ _ hd1 (fun t => ! t),
          countP_tag_congr _ _ hd1 (fun t => t)]
        exact hVdens m hm)
    rw [hrunD2] at hrunD
    have houtD2 : outD2 = outD := by
      simpa using hrunD
    rw [houtD2] at hfstD
    rw [← leafVals_filterMap] at hfstD
    refine ⟨(leafVals ((false, a) :: (false, b) :: picks) 0 ++
      (intVals ((false, a) :: (false, b) :: picks) 0 ++
        [(2 * (rest.length + 2) - 2, (0 : Byte))])), outD, hrh, hDlen, hgenD,
      hskel.symm, ?_⟩
    have hsymE : outE.map (fun e => e.1.2.2) = ((a :: b :: rest).map
        (fun nd => nd.2)).reverse := by
      have h10 := congrArg (List.map (fun v : Nat × Node => v.2.2)) hfstE
      rw [List.map_map] at h10
      rw [show ((fun v : Nat × Node => v.2.2) ∘ Prod.fst) =
        (fun e : (Nat × Node) × List Byte => e.1.2.2) from rfl] at h10
      rw [h10, List.map_reverse]
      congr 1
      have h11 : ∀ (i0s : List Nat) (A : List Node),
          (i0s.zip A).map (fun v => v.2.2) = (A.take i0s.length).map (fun nd => nd.2) := by
        intro i0s
        induction i0s with
        | nil => intro A; simp
        | cons i is ih =>
          intro A
          match A with
          | [] => simp
          | x :: A => simp [List.zip_cons_cons, ih]
      rw [h11]
      congr 1
      refine List.take_of_length_le ?_
      simp
    have hsymD : outD.map (fun e => e.1.2.2) = ((a :: b :: rest).map
        (fun nd => nd.2)).reverse := by
      have h10 := congrArg (List.map (fun v : Nat × (Nat × Byte) => v.2.2)) hfstD
      rw [List.map_map] at h10
      rw [show ((fun v : Nat × (Nat × Byte) => v.2.2) ∘ Prod.fst) =
        (fun e : (Nat × (Nat × Byte)) × List Byte => e.1.2.2) from rfl] at h10
      rw [h10, List.map_reverse]
      congr 1
      have h11 : ∀ (i0s : List Nat) (A : List (Nat × Byte)),
          (i0s.zip A).map (fun v => v.2.2) = (A.take i0s.length).map (fun nd => nd.2) := by
        intro i0s
        induction i0s with
        | nil => intro A; simp
        | cons i is ih =>
          intro A
          match A with
          | [] => simp
          | x :: A => simp [List.zip_cons_cons, ih]
      rw [h11]
      have h12 : (leafVals ((false, a) :: (false, b) :: picks) 0).take
          (List.range (rest.length + 2)).length =
          leafVals ((false, a) :: (false, b) :: picks) 0 := by
        refine List.take_of_length_le ?_
        simp [hlenA']
      rw [h12]
      have h13 := leafVals_map_snd ((false, a) :: (false, b) :: picks) 0
      rw [hfiltF] at h13
      rw [show (fun nd : Nat × Byte => nd.2) = (Prod.snd : Nat × Byte → Byte)
        from rfl, h13]
    rw [hsymD, hsymE]

end Huff

namespace Huff

theorem codec_agree_nodes (nodes : List Node)
    (hsort : nodes.Sorted (fun u v => u.1 ≤ v.1))
    (h2 : 2 ≤ nodes.length)
    (hpos : ∀ p ∈ nodes, 1 ≤ p.1)
    (h256 : nodes.length ≤ 256) :
    ∃ arr E,
      build_huffman_array nodes = some arr ∧
      generate_codes cmpRev nodes.length arr = some E ∧
      E.map Prod.fst = ((List.range nodes.length).zip nodes).reverse ∧
      ∀ rest0, ∃ D P,
        read_header (header arr ++ rest0) = some (D, rest0) ∧
        D.length = 2 * nodes.length - 1 ∧
        generate_codes cmpRev (D.length / 2 + 1) D = some P ∧
        P.map (fun e => (e.1.1, e.2)) = E.map (fun e => (e.1.1, e.2)) ∧
        P.map (fun e => e.1.2.2) = E.map (fun e => e.1.2.2) := by
  match nodes, h2 with
  | a :: b :: rest, _ =>
    have hk : (a :: b :: rest).length = rest.length + 2 := by simp
    rw [hk]
    exact codec_agree a b rest hsort hpos (by simp at h256 ⊢; omega)

theorem compress_run (x : List Byte) (h2 : 2 ≤ x.dedup.length) :
    ∃ arr E,
      build_huffman_array (compressFreqs x) = some arr ∧
      encoderCodes x = some E ∧
      compress x = some (header arr ++ payloadOf E x) ∧
      arr.length = 2 * x.dedup.length - 1 ∧
      E.map Prod.fst =
        ((List.range x.dedup.length).zip (compressFreqs x)).reverse ∧
      E.Pairwise (fun a b => a.2.length ≤ b.2.length) ∧
      E.Pairwise (fun a b => ¬(a.2 <+: b.2) ∧ ¬(b.2 <+: a.2)) ∧
      ∃ D P,
        read_header (header arr ++ payloadOf E x) = some (D, payloadOf E x) ∧
        decoderPrefixes (header arr ++ payloadOf E x) = some (P, payloadOf E x) ∧
        P.map (fun e => (e.1.1, e.2)) = E.map (fun e => (e.1.1, e.2)) ∧
        P.map (fun e => e.1.2.2) = E.map (fun e => e.1.2.2) ∧
        P.Pairwise (fun a b => a.2.length ≤ b.2.length) ∧
        P.Pairwise (fun a b => ¬(a.2 <+: b.2) ∧ ¬(b.2 <+: a.2)) := by
  have hklen : (compressFreqs x).length = x.dedup.length := compressFreqs_length_eq x
  have h2' : 2 ≤ (compressFreqs x).length := by omega
  obtain ⟨arr, E, hbuild, hgen, hfst, hdec⟩ := codec_agree_nodes (compressFreqs x)
    (compressFreqs_sorted x) h2' (compressFreqs_counts_pos x)
    (compressFreqs_length_le x)
  obtain ⟨D, P, hrh, hDlen, hgenD, hPC, hPS⟩ := hdec (payloadOf E x)
  have hE : encoderCodes x = some E := by
    simp only [encoderCodes, hbuild]
    exact hgen
  have hcompress : compress x = some (header arr ++ payloadOf E x) := by
    simp only [compress, hbuild, hE]
  have harrlen : arr.length = 2 * x.dedup.length - 1 := by
    have h3 := (build_length (compressFreqs x) arr hbuild).1
    omega
  have hdp : decoderPrefixes (header arr ++ payloadOf E x) =
      some (P, payloadOf E x) := by
    simp only [decoderPrefixes, hrh, hgenD]
  refine ⟨arr, E, hbuild, hE, hcompress, harrlen, by rw [hklen] at hfst; exact hfst,
    genCodes_len_sorted cmpRev (compressFreqs x).length arr E hgen,
    generate_codes_antichain cmpRev (compressFreqs x).length arr E hgen,
    D, P, hrh, hdp, hPC, hPS,
    genCodes_len_sorted cmpRev (D.length / 2 + 1) D P hgenD,
    generate_codes_antichain cmpRev (D.length / 2 + 1) D P hgenD⟩

end Huff

namespace Huff

/-- C5: for every input with `k ≥ 2` distinct symbols, `compress` succeeds and the
header it emits has bit length exactly `16 + k_total + 8*k` with `k_total = 2*k - 1`:
16 node-count bits, one shape bit per node, and 8 symbol bits per leaf. -/
theorem compress_header_size_law (x : List Byte) (h2 : 2 ≤ x.dedup.length) :
    ∃ arr payload,
      compress x = some (header arr ++ payload) ∧
      build_huffman_array (compressFreqs x) = some arr ∧
      (header arr).length =
        16 + (2 * x.dedup.length - 1) + 8 * x.dedup.length := by
  obtain ⟨arr, E, hbuild, hE, hcomp, harrlen, _⟩ := compress_run x h2
  exact ⟨arr, payloadOf E x, hcomp, hbuild,
    header_length arr x.dedup.length harrlen h2⟩

theorem compress_header_size_law_witness :
    2 ≤ ([97, 98, 98] : List Byte).dedup.length ∧
    (∃ arr payload,
      compress [97, 98, 98] = some (header arr ++ payload) ∧
      build_huffman_array (compressFreqs [97, 98, 98]) = some arr ∧
      (header arr).length =
        16 + (2 * ([97, 98, 98] : List Byte).dedup.length - 1) +
          8 * ([97, 98, 98] : List Byte).dedup.length) :=
  ⟨by decide, compress_header_size_law [97, 98, 98] (by decide)⟩

/-- C2: for every input with at least 2 distinct symbols, the encoder's symbol-to-code
assignment (the `generate_codes` emissions over the built array with the negated
comparator) coincides with the (leaf, code) assignment the decoder regenerates from the
header of that encoder's output: entry for entry, the same leaf symbols receive the same
code strings (and the same array positions), so the fixed branch→bit mapping agrees
between encode and decode. -/
theorem encoder_decoder_codes_agree (x : List Byte) (h2 : 2 ≤ x.dedup.length) :
    ∃ out E P payload,
      compress x = some out ∧
      encoderCodes x = some E ∧
      decoderPrefixes out = some (P, payload) ∧
      payload = payloadOf E x ∧
      P.map (fun e => (e.1.2.2, e.2)) = E.map (fun e => (e.1.2.2, e.2)) ∧
      P.map (fun e => (e.1.1, e.2)) = E.map (fun e => (e.1.1, e.2)) := by
  obtain ⟨arr, E, hbuild, hE, hcomp, harrlen, hfst, hsorted, hanti, D, P, hrh, hdp,
    hPC, hPS, hPsort, hPanti⟩ := compress_run x h2
  refine ⟨header arr ++ payloadOf E x, E, P, payloadOf E x, hcomp, hE, hdp, rfl,
    ?_, hPC⟩
  have hcode : P.map (fun e => e.2) = E.map (fun e => e.2) := by
    have h3 := congrArg (List.map Prod.snd) hPC
    rw [List.map_map, List.map_map] at h3
    exact h3
  have h4 : P.map (fun e => (e.1.2.2, e.2)) =
      (P.map (fun e => e.1.2.2)).zip (P.map (fun e => e.2)) :=
    (List.zip_map' _ _ P).symm
  have h5 : E.map (fun e => (e.1.2.2, e.2)) =
      (E.map (fun e => e.1.2.2)).zip (E.map (fun e => e.2)) :=
    (List.zip_map' _ _ E).symm
  rw [h4, h5, hPS, hcode]

theorem encoder_decoder_codes_agree_witness :
    2 ≤ ([97, 98, 98] : List Byte).dedup.length ∧
    (∃ out E P payload,
      compress [97, 98, 98] = some out ∧
      encoderCodes [97, 98, 98] = some E ∧
      decoderPrefixes out = some (P, payload) ∧
      payload = payloadOf E [97, 98, 98] ∧
      P.map (fun e => (e.1.2.2, e.2)) = E.map (fun e => (e.1.2.2, e.2)) ∧
      P.map (fun e => (e.1.1, e.2)) = E.map (fun e => (e.1.1, e.2))) :=
  ⟨by decide, encoder_decoder_codes_agree [97, 98, 98] (by decide)⟩

/-- C4: for every input with at least 2 distinct symbols, the encoder's code table is
prefix-free — between any two emissions neither code is a prefix of the other (so in
particular no code is a proper prefix of another and all codes are distinct) — and every
leaf of the tree receives exactly one code: the emitted leaf entries are exactly the
frequency-table leaves, one each, with pairwise distinct symbols. -/
theorem code_table_prefix_free (x : List Byte) (h2 : 2 ≤ x.dedup.length) :
    ∃ E, encoderCodes x = some E ∧
      E.Pairwise (fun a b => ¬(a.2 <+: b.2) ∧ ¬(b.2 <+: a.2)) ∧
      E.map (fun e => e.1.2) = (compressFreqs x).reverse ∧
      (E.map (fun e => e.1.2.2)).Nodup := by
  obtain ⟨arr, E, hbuild, hE, hcomp, harrlen, hfst, hsorted, hanti, _⟩ :=
    compress_run x h2
  have hklen : (compressFreqs x).length = x.dedup.length := compressFreqs_length_eq x
  have h3 : E.map (fun e => e.1.2) = (compressFreqs x).reverse := by
    have h4 := congrArg (List.map Prod.snd) hfst
    rw [List.map_map, List.map_reverse] at h4
    rw [List.map_snd_zip _ _ (by simp [hklen])] at h4
    exact h4
  have h5 : (E.map (fun e => e.1.2.2)).Nodup := by
    have h6 := congrArg (List.map Prod.snd) h3
    rw [List.map_map, List.map_reverse] at h6
    have h7 : ((compressFreqs x).map Prod.snd).reverse.Nodup :=
      List.nodup_reverse.mpr (compressFreqs_snd_nodup x)
    rw [← h6] at h7
    exact h7
  exact ⟨E, hE, hanti, h3, h5⟩

theorem code_table_prefix_free_witness :
    2 ≤ ([97, 98, 98] : List Byte).dedup.length ∧
    (∃ E, encoderCodes [97, 98, 98] = some E ∧
      E.Pairwise (fun a b => ¬(a.2 <+: b.2) ∧ ¬(b.2 <+: a.2)) ∧
      E.map (fun e => e.1.2) = (compressFreqs [97, 98, 98]).reverse ∧
      (E.map (fun e => e.1.2.2)).Nodup) :=
  ⟨by decide, code_table_prefix_free [97, 98, 98] (by decide)⟩

end Huff

namespace Huff

theorem take_append_left_of_le {α : Type} : ∀ (X Y : List α) (n : Nat),
    n ≤ X.length → (X ++ Y).take n = X.take n := by
  intro X
  induction X with
  | nil =>
    intro Y n h
    simp at h
    subst h
    simp
  | cons x X ih =>
    intro Y n h
    match n with
    | 0 => simp
    | n + 1 =>
      simp only [List.cons_append, List.take_succ_cons]
      rw [ih Y n (by simp at h; omega)]

theorem drop_append_left_of_le {α : Type} : ∀ (X Y : List α) (n : Nat),
    n ≤ X.length → (X ++ Y).drop n = X.drop n ++ Y := by
  intro X
  induction X with
  | nil =>
    intro Y n h
    simp at h
    subst h
    simp
  | cons x X ih =>
    intro Y n h
    match n with
    | 0 => simp
    | n + 1 =>
      simp only [List.cons_append, List.drop_succ_cons]
      exact ih Y n (by simp at h; omega)

theorem take_add_eq {α : Type} : ∀ (m : Nat) (l : List α) (n : Nat),
    l.take (m + n) = l.take m ++ (l.drop m).take n := by
  intro m
  induction m with
  | zero => intro l n; simp
  | succ m ih =>
    intro l n
    match l with
    | [] => simp
    | x :: t =>
      have hs : m + 1 + n = (m + n) + 1 := by omega
      rw [hs]
      simp only [List.take_succ_cons, List.drop_succ_cons]
      rw [ih t n]
      simp

theorem tryCands_finds : ∀ (P : List ((Nat × Node) × List Byte))
    (e0 : Nat × Node) (code rest' : List Byte) (m : Nat),
    (e0, code) ∈ P →
    P.Pairwise (fun a b => a.2.length ≤ b.2.length) →
    P.Pairwise (fun a b => ¬(a.2 <+: b.2) ∧ ¬(b.2 <+: a.2)) →
    m ≤ code.length →
    tryCands P (code.drop m ++ rest') (code.take m) =
      some (ScanResult.matched e0.2.2 rest') := by
  intro P
  induction P with
  | nil =>
    intro e0 code rest' m hmem _ _ _
    simp at hmem
  | cons qe P' ih =>
    intro e0 code rest' m hmem hsorted hanti hm
    obtain ⟨q, qc⟩ := qe
    have hlen_take : (code.take m).length = m := by
      rw [List.length_take]
      omega
    rcases List.mem_cons.mp hmem with hhead | htail
    · rw [Prod.mk.injEq] at hhead
      obtain ⟨h1, h2⟩ := hhead
      subst h1
      subst h2
      simp only [tryCands]
      have h3 : ¬ ((code.drop m ++ rest').length <
          code.length - (code.take m).length) := by
        rw [hlen_take]
        simp only [List.length_append, List.length_drop]
        omega
      rw [if_neg h3]
      have h4 : (code.drop m ++ rest').take (code.length - (code.take m).length) =
          code.drop m := by
        rw [hlen_take]
        exact List.take_left' (by rw [List.length_drop])
      rw [h4, List.take_append_drop]
      rw [if_pos rfl]
      have h5 : (code.drop m ++ rest').drop (code.length - (code.take m).length) =
          rest' := by
        rw [hlen_take]
        exact List.drop_left' (by rw [List.length_drop])
      rw [h5]
    · have hrel_len : qc.length ≤ code.length := by
        have h8 := (List.pairwise_cons.mp hsorted).1 (e0, code) htail
        simpa using h8
      have hrel_anti := (List.pairwise_cons.mp hanti).1 (e0, code) htail
      simp only [tryCands]
      by_cases hcm : m ≤ qc.length
      · have h3 : ¬ ((code.drop m ++ rest').length <
            qc.length - (code.take m).length) := by
          rw [hlen_take]
          simp only [List.length_append, List.length_drop]
          omega
        rw [if_neg h3]
        have h4 : (code.drop m ++ rest').take (qc.length - (code.take m).length) =
            (code.drop m).take (qc.length - m) := by
          rw [hlen_take]
          refine take_append_left_of_le _ _ _ ?_
          rw [List.length_drop]
          omega
        rw [h4]
        have h5 : code.take m ++ (code.drop m).take (qc.length - m) =
            code.take qc.length := by
          rw [← take_add_eq]
          congr 1
          omega
        rw [h5]
        have h6 : ¬ (code.take qc.length = qc) := by
          intro hcc
          exact hrel_anti.1 (hcc ▸ List.take_prefix qc.length code)
        rw [if_neg h6]
        have h7 : (code.drop m ++ rest').drop (qc.length - (code.take m).length) =
            code.drop qc.length ++ rest' := by
          rw [hlen_take]
          rw [drop_append_left_of_le _ _ _ (by rw [List.length_drop]; omega)]
          rw [List.drop_drop]
          have h9 : m + (qc.length - m) = qc.length := by omega
          rw [h9]
        rw [h7]
        exact ih e0 code rest' qc.length htail hsorted.of_cons hanti.of_cons hrel_len
      · have h3 : ¬ ((code.drop m ++ rest').length <
            qc.length - (code.take m).length) := by
          rw [hlen_take]
          have h9 : qc.length - m = 0 := by omega
          rw [h9]
          simp
        rw [if_neg h3]
        have h4 : qc.length - (code.take m).length = 0 := by
          rw [hlen_take]
          omega
        rw [h4]
        simp only [List.take_zero, List.append_nil, List.drop_zero]
        have h6 : ¬ (code.take m = qc) := by
          intro hcc
          have h9 := congrArg List.length hcc
          rw [hlen_take] at h9
          omega
        rw [if_neg h6]
        exact ih e0 code rest' m htail hsorted.of_cons hanti.of_cons hm

theorem decodeLoop_decodes (P : List ((Nat × Node) × List Byte))
    (hsorted : P.Pairwise (fun a b => a.2.length ≤ b.2.length))
    (hanti : P.Pairwise (fun a b => ¬(a.2 <+: b.2) ∧ ¬(b.2 <+: a.2)))
    (f : Byte → List Byte) :
    ∀ (xs : List Byte) (fuel : Nat) (out : List Byte),
    (∀ c ∈ xs, (∃ ec, (ec, f c) ∈ P ∧ ec.2.2 = c) ∧ f c ≠ []) →
    xs.length + 1 ≤ fuel →
    decodeLoop P fuel (xs.flatMap f) [] out = some (out ++ xs) := by
  intro xs
  induction xs with
  | nil =>
    intro fuel out _ hfuel
    match fuel, hfuel with
    | fl + 1, _ =>
      simp [decodeLoop]
  | cons c xs' ih =>
    intro fuel out hcond hfuel
    match fuel, hfuel with
    | fl + 1, hf =>
      obtain ⟨⟨ec, hecP, hsym⟩, hfc⟩ := hcond c (by simp)
      have hflat : (c :: xs').flatMap f = f c ++ xs'.flatMap f := by
        simp
      have htc : tryCands P (f c ++ xs'.flatMap f) [] =
          some (ScanResult.matched c (xs'.flatMap f)) := by
        have h3 := tryCands_finds P ec (f c) (xs'.flatMap f) 0 hecP hsorted hanti
          (by omega)
        simp only [List.drop_zero, List.take_zero] at h3
        rw [h3, hsym]
      rw [hflat]
      match hfc2 : f c, hfc with
      | b0 :: bs, _ =>
        simp only [decodeLoop, List.cons_append]
        rw [← List.cons_append, ← hfc2, htc]
        have h4 := ih fl (out ++ [c])
          (fun c' hc' => hcond c' (by simp [hc'])) (by simp at hf ⊢; omega)
        show decodeLoop P fl (xs'.flatMap f) [] (out ++ [c]) = some (out ++ c :: xs')
        rw [h4]
        simp
      | [], h => exact absurd rfl h

theorem antichain_nonempty_codes (L : List ((Nat × Node) × List Byte))
    (h2 : 2 ≤ L.length)
    (hanti : L.Pairwise (fun a b => ¬(a.2 <+: b.2) ∧ ¬(b.2 <+: a.2))) :
    ∀ e ∈ L, e.2 ≠ [] := by
  match L, h2 with
  | e1 :: e2 :: R, _ =>
    intro e he hnil
    have hrel := (List.pairwise_cons.mp hanti).1
    rcases List.mem_cons.mp he with he | he
    · subst he
      have h3 := hrel e2 (by simp)
      rw [hnil] at h3
      exact h3.1 (List.nil_prefix)
    · have h3 := hrel e he
      rw [hnil] at h3
      exact h3.2 (List.nil_prefix)

theorem flatMap_length_ge (f : Byte → List Byte) :
    ∀ (xs : List Byte), (∀ c ∈ xs, f c ≠ []) →
    xs.length ≤ (xs.flatMap f).length := by
  intro xs
  induction xs with
  | nil => intro _; simp
  | cons c xs' ih =>
    intro h
    have h1 : f c ≠ [] := h c (by simp)
    have h2 : 1 ≤ (f c).length := by
      match hfc : f c, h1 with
      | b :: bs, _ => simp
    have h3 := ih (fun c' hc' => h c' (by simp [hc']))
    simp only [List.flatMap_cons, List.length_append, List.length_cons]
    omega

theorem pair_map_from_components (P E : List ((Nat × Node) × List Byte))
    (hPC : P.map (fun e => (e.1.1, e.2)) = E.map (fun e => (e.1.1, e.2)))
    (hPS : P.map (fun e => e.1.2.2) = E.map (fun e => e.1.2.2)) :
    P.map (fun e => (e.1.2.2, e.2)) = E.map (fun e => (e.1.2.2, e.2)) := by
  have hcode : P.map (fun e => e.2) = E.map (fun e => e.2) := by
    have h3 := congrArg (List.map Prod.snd) hPC
    rw [List.map_map, List.map_map] at h3
    exact h3
  have h4 : P.map (fun e => (e.1.2.2, e.2)) =
      (P.map (fun e => e.1.2.2)).zip (P.map (fun e => e.2)) :=
    (List.zip_map' _ _ P).symm
  have h5 : E.map (fun e => (e.1.2.2, e.2)) =
      (E.map (fun e => e.1.2.2)).zip (E.map (fun e => e.2)) :=
    (List.zip_map' _ _ E).symm
  rw [h4, h5, hPS, hcode]

/-- C1: for every non-empty input with at least 2 distinct symbols, the round-trip
`decompress (compress x)` succeeds and returns `x`: the decoder rebuilds the encoder's
code table from the header and the shortest-first prefix matching inverts the
concatenated code payload symbol by symbol. -/
theorem compress_decompress_roundtrip (x : List Byte) (hne : x ≠ [])
    (h2 : 2 ≤ x.dedup.length) :
    ∃ out, compress x = some out ∧ decompress out = some x := by
  obtain ⟨arr, E, hbuild, hE, hcomp, harrlen, hfst, hEsort, hEanti, D, P, hrh, hdp,
    hPC, hPS, hPsort, hPanti⟩ := compress_run x h2
  have hklen : (compressFreqs x).length = x.dedup.length := compressFreqs_length_eq x
  have hElen : E.length = x.dedup.length := by
    have h3 := congrArg List.length hfst
    simp only [List.length_map, List.length_reverse, List.length_zip,
      List.length_range, hklen] at h3
    omega
  have hnonE : ∀ e ∈ E, e.2 ≠ [] :=
    antichain_nonempty_codes E (by omega) hEanti
  have hpair : P.map (fun e => (e.1.2.2, e.2)) = E.map (fun e => (e.1.2.2, e.2)) :=
    pair_map_from_components P E hPC hPS
  have hfind : ∀ c ∈ x, ∃ eC, E.find? (fun e => e.1.2.2 == c) = some eC ∧
      eC ∈ E ∧ eC.1.2.2 = c := by
    intro c hc
    have h3 : c ∈ (compressFreqs x).map Prod.snd := (compressFreqs_mem_snd x c).mpr hc
    obtain ⟨nd, hnd, hndc⟩ := List.mem_map.mp h3
    have h4 : nd ∈ ((List.range x.dedup.length).zip (compressFreqs x)).map
        Prod.snd := by
      rw [List.map_snd_zip _ _ (by simp [hklen])]
      exact hnd
    obtain ⟨pr, hpr, hprnd⟩ := List.mem_map.mp h4
    have h5 : pr ∈ E.map Prod.fst := by
      rw [hfst]
      simp only [List.mem_reverse]
      exact hpr
    obtain ⟨e, heE, hepr⟩ := List.mem_map.mp h5
    have h6 : (E.find? (fun e => e.1.2.2 == c)).isSome := by
      rw [List.find?_isSome]
      refine ⟨e, heE, ?_⟩
      simp only [hepr, hprnd, hndc]
      simp
    obtain ⟨eC, heC⟩ := Option.isSome_iff_exists.mp h6
    refine ⟨eC, heC, List.mem_of_find?_eq_some heC, ?_⟩
    have h7 := List.find?_some heC
    simpa using h7
  have hcond : ∀ c ∈ x,
      (∃ ec, (ec, ((E.find? fun e => e.1.2.2 == c).map (fun e => e.2)).getD []) ∈ P ∧
        ec.2.2 = c) ∧
      ((E.find? fun e => e.1.2.2 == c).map (fun e => e.2)).getD [] ≠ [] := by
    intro c hc
    obtain ⟨eC, heC, heCE, heCc⟩ := hfind c hc
    have hfc : ((E.find? fun e => e.1.2.2 == c).map (fun e => e.2)).getD [] = eC.2 := by
      rw [heC]
      rfl
    rw [hfc]
    constructor
    · have h3 : (eC.1.2.2, eC.2) ∈ E.map (fun e => (e.1.2.2, e.2)) :=
        List.mem_map_of_mem _ heCE
      rw [← hpair] at h3
      obtain ⟨pe, hpe, hpe2⟩ := List.mem_map.mp h3
      rw [Prod.mk.injEq] at hpe2
      refine ⟨pe.1, ?_, by rw [heCc] at hpe2; exact hpe2.1⟩
      have h4 : (pe.1, eC.2) = pe := by
        rw [← hpe2.2]
      rw [h4]
      exact hpe
    · exact hnonE eC heCE
  have hpayload : payloadOf E x =
      x.flatMap (fun c => ((E.find? fun e => e.1.2.2 == c).map (fun e => e.2)).getD []) :=
    rfl
  have hxlen : x.length ≤ (payloadOf E x).length := by
    rw [hpayload]
    exact flatMap_length_ge _ x (fun c hc => (hcond c hc).2)
  have hdecode : decodeLoop P (2 * (header arr ++ payloadOf E x).length + 2)
      (payloadOf E x) [] [] = some x := by
    have h3 := decodeLoop_decodes P hPsort hPanti
      (fun c => ((E.find? fun e => e.1.2.2 == c).map (fun e => e.2)).getD [])
      x (2 * (header arr ++ payloadOf E x).length + 2) [] hcond
      (by
        simp only [List.length_append]
        have h4 : (payloadOf E x).length ≤ (header arr).length + (payloadOf E x).length := by
          omega
        omega)
    exact h3
  refine ⟨header arr ++ payloadOf E x, hcomp, ?_⟩
  rw [decompress, hdp]
  exact hdecode

theorem compress_decompress_roundtrip_witness :
    (([97, 98, 98] : List Byte) ≠ [] ∧ 2 ≤ ([97, 98, 98] : List Byte).dedup.length) ∧
    (∃ out, compress [97, 98, 98] = some out ∧ decompress out = some [97, 98, 98]) :=
  ⟨⟨by decide, by decide⟩,
    compress_decompress_roundtrip [97, 98, 98] (by decide) (by decide)⟩

end Huff
